import Mathlib

/-! Bayesian game state and learning agent of `pacman-behavior`

A shallow embedding of `bayesian_game_state.cpp` (class `BayesianGameState`):
the observation updates, the transition updates and the breadth-first
distance table, the tactical queries and the transport endpoint; and of
`deterministic_q_learning.cpp` (class `DeterministicQLearning`): the Q-values
and the weight update. The definitions are followed by theorems about them.

Conventions of the embedding.

* `float`/`double` values are rationals (`ℚ`). The definitions without a
  rounding (`observePacman`, `observeGhost`, the transition updates, the
  queries) read every operation as exact, and the statements about them are
  statements in exact arithmetic. The definitions that take a `Rounding`
  (`observePacmanCall`, `observeGhostCall`, `observeAgent`) round the result of
  every `float` and `double` operation of the observation updates, and model
  the exception of `boost::math::iround` and the unchecked index of a ghost.
* A `std::vector< std::vector<T> >` grid `g` is a function and `g[j][i]` is
  `g j i` (row `j` is the `y` coordinate, column `i` the `x` coordinate).
  A freshly built `(height_, line)` grid of zeros is `zeroGrid`, and the
  assignment `g[j][i] = v` is `Grid.set g j i v`.
* A `std::map< std::pair<int, int>, int >` is an association list with unique
  keys; `find` is `DistMap.find` and insertion of a new key is `DistMap.insert`.
* Functions of the parent class and of `util` that are not part of the two
  source files (`getLegalNextPositions`,
  `getNextPositionsForActionWithProbabilities`,
  `util::getProbOfMeasurementGivenPosition`) are parameters.
* A counting `for (int i = 0 ; i < n ; i++)` loop is `forRange n`.
* A `std::vector<double>` is a list, and a loop over iterators is a recursion
  on the parts of the lists that the iterators have not yet passed.
* The constant `util::INFINITE` is a parameter `INFINITE`.
-/

namespace BayesianGameState

/-! ## Data model -/

/-- Kind of a cell of the map (`WALL`, `EMPTY`, `FOOD`). -/
inductive CellKind where
  | WALL
  | EMPTY
  | FOOD
deriving DecidableEq, Repr

open CellKind

/-- A cell as a `std::pair<int, int>`: first component `x`, second `y`. -/
abbrev Cell := Int × Int

/-- A grid `g`, read as `g j i` for the source's `g[j][i]`. -/
abbrev Grid (α : Type) := Int → Int → α

/-- The grid `std::vector< std::vector<float> > (height_, std::vector<float>(width_, 0))`. -/
def zeroGrid : Grid ℚ := fun _ _ => 0

/-- The assignment `g[j][i] = v`. -/
def Grid.set {α : Type} (g : Grid α) (j i : Int) (v : α) : Grid α :=
  fun j' i' => if j' = j ∧ i' = i then v else g j' i'

/-- A `std::map< std::pair<int, int>, int >` holding hop counts. -/
abbrev DistMap := List (Cell × Nat)

/-- The lookup `distances.find(c)`: `none` stands for `distances.end()`. -/
def DistMap.find (d : DistMap) (c : Cell) : Option Nat :=
  match d with
  | [] => none
  | (k, v) :: rest => if k = c then some v else DistMap.find rest c

/-- The assignment `distances[c] = v`: overwrites the entry of `c` when there
is one, adds the entry otherwise. -/
def DistMap.insert (d : DistMap) (c : Cell) (v : Nat) : DistMap :=
  match d with
  | [] => [(c, v)]
  | (k, w) :: rest => if k = c then (k, v) :: rest else (k, w) :: DistMap.insert rest c v

/-- The table `precalculated_distances_`, from a source cell to its `DistMap`. -/
abbrev DistTable := List (Cell × DistMap)

/-- The lookup of a source cell in `precalculated_distances_`. -/
def DistTable.find (t : DistTable) (c : Cell) : Option DistMap :=
  match t with
  | [] => none
  | (k, v) :: rest => if k = c then some v else DistTable.find rest c

/-- The assignment `precalculated_distances_[c] = d`. -/
def DistTable.insert (t : DistTable) (c : Cell) (d : DistMap) : DistTable :=
  match t with
  | [] => [(c, d)]
  | (k, w) :: rest => if k = c then (k, d) :: rest else (k, w) :: DistTable.insert rest c d

/-- The member variables of `BayesianGameState` that the embedded functions
read or write. -/
structure State where
  /-- Number of columns of the map. -/
  width_ : Nat
  /-- Number of rows of the map. -/
  height_ : Nat
  /-- Number of ghosts. -/
  num_ghosts_ : Nat
  /-- The ground-truth map, `map_[j][i]`. -/
  map_ : Grid CellKind
  /-- Belief over the position of pacman, `pacman_pose_map_[j][i]`. -/
  pacman_pose_map_ : Grid ℚ
  /-- Beliefs over the positions of the ghosts, `ghosts_poses_map_[k][j][i]`. -/
  ghosts_poses_map_ : Nat → Grid ℚ
  /-- Food-presence values, `foods_map_[j][i]`. -/
  foods_map_ : Grid ℚ
  /-- Ground-truth pose of pacman, as returned by `getPacmanPose()`. -/
  pacman_pose_ : ℚ × ℚ
  /-- Ground-truth poses of the ghosts, `ghosts_poses_`. -/
  ghosts_poses_ : List (ℚ × ℚ)
  /-- The table filled by `precalculateAllDistances`. -/
  precalculated_distances_ : DistTable
  /-- The flag `is_finished_`. -/
  is_finished_ : Bool

/-- The loop `for (int i = 0 ; i < n ; i++) st = body st i`. -/
def forRange {σ : Type} (n : Nat) (st : σ) (body : σ → Int → σ) : σ :=
  (List.range n).foldl (fun acc i => body acc (i : Int)) st

/-- The integer that `boost::math::iround` returns, when it returns: the nearest
integer, halves rounded away from zero. The check of the range of `int`, with
the exception it raises, is in `boostIround`. -/
def iround (q : ℚ) : Int :=
  if 0 ≤ q then ⌊q + 1 / 2⌋ else ⌈q - 1 / 2⌉

/-- The type of `util::getProbOfMeasurementGivenPosition(pos_x, pos_y,
measurement_x, measurement_y, sd)`. -/
abbrev Likelihood := Int → Int → ℚ → ℚ → ℚ → ℚ

/-! ## Observation updates -/

/-- The constant `SD_PACMAN_MEASUREMENT` of `observePacman`. -/
def SD_PACMAN_MEASUREMENT : ℚ := 1 / 2

/-- The constant `SD_GHOST_DIST_MEASUREMENT` of `observeGhost`. -/
def SD_GHOST_DIST_MEASUREMENT : ℚ := 1 / 2

/-- First loop nest of `observePacman`, every operation read as exact: the
unnormalised posterior `pacman_new_pose_map` together with `sum_probabilities`.
The same loop nest with its `float` operations rounded is
`observePacmanPosteriorFloat`. -/
def observePacmanPosterior (lik : Likelihood) (s : State) (measurement_x measurement_y : ℚ) :
    Grid ℚ × ℚ :=
  forRange s.width_ (zeroGrid, (0 : ℚ)) fun st i =>
    forRange s.height_ st fun st j =>
      if s.map_ j i ≠ WALL then
        let old_probability_of_being_in_this_place := s.pacman_pose_map_ j i
        let probability_of_place_given_z :=
          lik i j measurement_x measurement_y SD_PACMAN_MEASUREMENT
        let pacman_new_pose_map :=
          st.1.set j i (probability_of_place_given_z * old_probability_of_being_in_this_place)
        (pacman_new_pose_map, st.2 + pacman_new_pose_map j i)
      else st

/-- Second loop nest of `observePacman` and of `observeGhost`, every operation
read as exact: division by `sum_probabilities`, or the redistribution
`1.0 / (float) (height_ * width_)` when the sum is zero. The same loop nest with
its operations rounded is `normalizeOrRedistributeFloat`. -/
def normalizeOrRedistribute (s : State) (new_pose_map : Grid ℚ) (sum_probabilities : ℚ) :
    Grid ℚ :=
  forRange s.width_ new_pose_map fun g i =>
    forRange s.height_ g fun g j =>
      if s.map_ j i ≠ WALL then
        if sum_probabilities ≠ 0 then
          g.set j i (g j i / sum_probabilities)
        else
          g.set j i (1 / (((s.height_ * s.width_ : Nat) : ℚ)))
      else g

/-- The ground-truth reveal at the end of `observePacman`. -/
def revealMeasuredCell (s : State) (measurement_x measurement_y : ℚ) : Grid CellKind :=
  let measurement_x_int := iround measurement_x
  let measurement_y_int := iround measurement_y
  if measurement_x_int > 0 ∧ measurement_x_int < (s.width_ : Int) ∧
      measurement_y_int > 0 ∧ measurement_y_int < (s.height_ : Int) ∧
      s.map_ measurement_y_int measurement_x_int ≠ WALL then
    s.map_.set measurement_y_int measurement_x_int EMPTY
  else s.map_

/-- The method `BayesianGameState::observePacman` on the path on which
`boost::math::iround` returns, every operation read as exact. The call with
rounded operations and with the exception of `boost::math::iround` is
`observePacmanCall`. -/
def observePacman (lik : Likelihood) (s : State) (measurement_x measurement_y : ℚ) : State :=
  let post := observePacmanPosterior lik s measurement_x measurement_y
  let pacman_new_pose_map := normalizeOrRedistribute s post.1 post.2
  { s with
    pacman_pose_map_ := pacman_new_pose_map
    map_ := revealMeasuredCell s measurement_x measurement_y }

/-- First loop nest of `observeGhost`, every operation read as exact: the
unnormalised posterior `ghost_new_pose_map` together with `sum_probabilities`.
The same loop nest with its `float` operations rounded is
`observeGhostPosteriorFloat`. -/
def observeGhostPosterior (lik : Likelihood) (s : State)
    (measurement_x_dist measurement_y_dist : ℚ) (ghost_index : Nat) : Grid ℚ × ℚ :=
  let ghost_pose_map := s.ghosts_poses_map_ ghost_index
  forRange s.width_ (zeroGrid, (0 : ℚ)) fun st i =>
    forRange s.height_ st fun st j =>
      if s.map_ j i ≠ WALL then
        let old_probability_of_being_in_this_place := ghost_pose_map j i
        let ghost_new_pose_map :=
          forRange s.width_ st.1 fun g pacman_i =>
            forRange s.height_ g fun g pacman_j =>
              let probability_of_pacman := s.pacman_pose_map_ pacman_j pacman_i
              let probability_of_place_given_z :=
                lik (i - pacman_i) (j - pacman_j) measurement_x_dist measurement_y_dist
                  SD_GHOST_DIST_MEASUREMENT
              g.set j i (g j i + probability_of_place_given_z *
                old_probability_of_being_in_this_place * probability_of_pacman)
        (ghost_new_pose_map, st.2 + ghost_new_pose_map j i)
      else st

/-- The method `BayesianGameState::observeGhost` for an index inside
`ghosts_poses_map_`, every operation read as exact. The call with rounded
operations and with the unchecked index is `observeGhostCall`. -/
def observeGhost (lik : Likelihood) (s : State)
    (measurement_x_dist measurement_y_dist : ℚ) (ghost_index : Nat) : State :=
  let post := observeGhostPosterior lik s measurement_x_dist measurement_y_dist ghost_index
  let ghost_new_pose_map := normalizeOrRedistribute s post.1 post.2
  { s with
    ghosts_poses_map_ := Function.update s.ghosts_poses_map_ ghost_index ghost_new_pose_map }

/-! ## Observation updates in `float` arithmetic, and the ways a call ends -/

/-- The roundings of an exact value to the nearest `float` and to the nearest
`double`. They are parameters: every `float` operation of the source gives the
rounding `toFloat` of its exact result, every `double` operation the rounding
`toDouble`. Values too large for a `float` are not modelled. -/
structure Rounding where
  /-- The `float` nearest to a value. -/
  toFloat : ℚ → ℚ
  /-- The `double` nearest to a value. -/
  toDouble : ℚ → ℚ

/-- First loop nest of `observePacman` in `float` arithmetic: the returned
likelihood is stored in a `float`, the product and the running sum are `float`
operations. -/
def observePacmanPosteriorFloat (r : Rounding) (lik : Likelihood) (s : State)
    (measurement_x measurement_y : ℚ) : Grid ℚ × ℚ :=
  forRange s.width_ (zeroGrid, (0 : ℚ)) fun st i =>
    forRange s.height_ st fun st j =>
      if s.map_ j i ≠ WALL then
        let old_probability_of_being_in_this_place := s.pacman_pose_map_ j i
        let probability_of_place_given_z :=
          r.toFloat (lik i j measurement_x measurement_y SD_PACMAN_MEASUREMENT)
        let pacman_new_pose_map :=
          st.1.set j i
            (r.toFloat (probability_of_place_given_z * old_probability_of_being_in_this_place))
        (pacman_new_pose_map, r.toFloat (st.2 + pacman_new_pose_map j i))
      else st

/-- Second loop nest of `observePacman` and of `observeGhost` in `float`
arithmetic: the `float` division by `sum_probabilities`, or, when the sum is
zero, the `double` division `1.0 / (float) (height_ * width_)` stored in a
`float`. -/
def normalizeOrRedistributeFloat (r : Rounding) (s : State) (new_pose_map : Grid ℚ)
    (sum_probabilities : ℚ) : Grid ℚ :=
  forRange s.width_ new_pose_map fun g i =>
    forRange s.height_ g fun g j =>
      if s.map_ j i ≠ WALL then
        if sum_probabilities ≠ 0 then
          g.set j i (r.toFloat (g j i / sum_probabilities))
        else
          g.set j i
            (r.toFloat (r.toDouble (1 / r.toFloat (((s.height_ * s.width_ : Nat) : ℚ)))))
      else g

/-- First loop nest of `observeGhost` in `float` arithmetic: the returned
likelihood is stored in a `float`, the two products, the accumulation into the
cell and the running sum are `float` operations. -/
def observeGhostPosteriorFloat (r : Rounding) (lik : Likelihood) (s : State)
    (measurement_x_dist measurement_y_dist : ℚ) (ghost_index : Nat) : Grid ℚ × ℚ :=
  let ghost_pose_map := s.ghosts_poses_map_ ghost_index
  forRange s.width_ (zeroGrid, (0 : ℚ)) fun st i =>
    forRange s.height_ st fun st j =>
      if s.map_ j i ≠ WALL then
        let old_probability_of_being_in_this_place := ghost_pose_map j i
        let ghost_new_pose_map :=
          forRange s.width_ st.1 fun g pacman_i =>
            forRange s.height_ g fun g pacman_j =>
              let probability_of_pacman := s.pacman_pose_map_ pacman_j pacman_i
              let probability_of_place_given_z :=
                r.toFloat (lik (i - pacman_i) (j - pacman_j) measurement_x_dist
                  measurement_y_dist SD_GHOST_DIST_MEASUREMENT)
              g.set j i (r.toFloat (g j i + r.toFloat (r.toFloat (probability_of_place_given_z *
                old_probability_of_being_in_this_place) * probability_of_pacman)))
        (ghost_new_pose_map, r.toFloat (st.2 + ghost_new_pose_map j i))
      else st

/-- The largest value of an `int`. -/
def INT_MAX : Int := 2147483647

/-- The smallest value of an `int`. -/
def INT_MIN : Int := -2147483648

/-- The function `boost::math::iround` of the Boost library, with its default
error policy, on a finite argument: the nearest integer, halves rounded away
from zero, and no result, a `boost::math::rounding_error` being raised, when
that integer is outside the range of `int`. -/
def boostIround (q : ℚ) : Option Int :=
  if iround q > INT_MAX ∨ iround q < INT_MIN then none else some (iround q)

/-- The ways a call of a method ends. -/
inductive Outcome (α : Type) where
  /-- The call returns `value` and leaves the object in `state`. -/
  | returned (value : α) (state : State)
  /-- The call is left by an exception, `boost::math::rounding_error`, the
  object being in `state` at that moment. -/
  | raised (state : State)
  /-- The call indexes a vector outside its range: its behaviour is not
  defined. -/
  | undefined

/-- The state in which a call leaves the object, when its behaviour is
defined. -/
def Outcome.state {α : Type} : Outcome α → Option State
  | Outcome.returned _ state => some state
  | Outcome.raised state => some state
  | Outcome.undefined => none

/-- The ground-truth reveal at the end of `observePacman`, from the two rounded
coordinates. -/
def revealCell (s : State) (measurement_x_int measurement_y_int : Int) : Grid CellKind :=
  if measurement_x_int > 0 ∧ measurement_x_int < (s.width_ : Int) ∧
      measurement_y_int > 0 ∧ measurement_y_int < (s.height_ : Int) ∧
      s.map_ measurement_y_int measurement_x_int ≠ WALL then
    s.map_.set measurement_y_int measurement_x_int EMPTY
  else s.map_

/-- A call of the method `BayesianGameState::observePacman`, in `float`
arithmetic: the belief is stored, then the two coordinates are rounded by
`boost::math::iround`, which can raise, then the measured cell is revealed. -/
def observePacmanCall (r : Rounding) (lik : Likelihood) (s : State)
    (measurement_x measurement_y : ℚ) : Outcome Unit :=
  let post := observePacmanPosteriorFloat r lik s measurement_x measurement_y
  let pacman_new_pose_map := normalizeOrRedistributeFloat r s post.1 post.2
  let s := { s with pacman_pose_map_ := pacman_new_pose_map }
  match boostIround measurement_x with
  | none => Outcome.raised s
  | some measurement_x_int =>
    match boostIround measurement_y with
    | none => Outcome.raised s
    | some measurement_y_int =>
      Outcome.returned () { s with map_ := revealCell s measurement_x_int measurement_y_int }

/-- The body of the method `BayesianGameState::observeGhost`, in `float`
arithmetic, for an index inside `ghosts_poses_map_`. -/
def observeGhostFloat (r : Rounding) (lik : Likelihood) (s : State)
    (measurement_x_dist measurement_y_dist : ℚ) (ghost_index : Nat) : State :=
  let post := observeGhostPosteriorFloat r lik s measurement_x_dist measurement_y_dist ghost_index
  let ghost_new_pose_map := normalizeOrRedistributeFloat r s post.1 post.2
  { s with
    ghosts_poses_map_ := Function.update s.ghosts_poses_map_ ghost_index ghost_new_pose_map }

/-- A call of the method `BayesianGameState::observeGhost`, in `float`
arithmetic: `ghosts_poses_map_[ghost_index]` is not checked, and
`ghosts_poses_map_` has `num_ghosts_` elements. -/
def observeGhostCall (r : Rounding) (lik : Likelihood) (s : State)
    (measurement_x_dist measurement_y_dist : ℚ) (ghost_index : Int) : Outcome Unit :=
  if 0 ≤ ghost_index ∧ ghost_index < (s.num_ghosts_ : Int) then
    Outcome.returned ()
      (observeGhostFloat r lik s measurement_x_dist measurement_y_dist ghost_index.toNat)
  else Outcome.undefined

/-! ## Transition updates -/

/-- The type of `getNextPositionsForActionWithProbabilities(x, y, action)`:
pairs of a probability and a destination cell `(x, y)`. -/
abbrev ActionModel (Action : Type) := Int → Int → Action → List (ℚ × Cell)

/-- The type of `getLegalNextPositions(x, y)`: the legal neighbour cells. -/
abbrev LegalModel := Int → Int → List Cell

/-- First loop nest of `predictPacmanMove`: the pushed-forward belief
`pacman_new_pose_map`. -/
def predictPacmanPose {Action : Type} (nextPositions : ActionModel Action) (s : State)
    (action : Action) : Grid ℚ :=
  forRange s.width_ zeroGrid fun g i =>
    forRange s.height_ g fun g j =>
      if s.map_ j i ≠ WALL then
        let probability_of_being_in_this_place := s.pacman_pose_map_ j i
        let next_positions := nextPositions i j action
        next_positions.reverse.foldl
          (fun g it =>
            let probability_of_move := it.1
            let x := it.2.1
            let y := it.2.2
            g.set y x (g y x + probability_of_move * probability_of_being_in_this_place))
          g
      else g

/-- Second loop nest of `predictPacmanMove`: the decayed `new_foods_map`. -/
def predictFoods (s : State) (pacman_new_pose_map : Grid ℚ) : Grid ℚ :=
  forRange s.width_ zeroGrid fun g i =>
    forRange s.height_ g fun g j =>
      if s.map_ j i ≠ WALL then
        g.set j i (s.foods_map_ j i * (1 - pacman_new_pose_map j i))
      else g

/-- The method `BayesianGameState::predictPacmanMove`. -/
def predictPacmanMove {Action : Type} (nextPositions : ActionModel Action) (s : State)
    (action : Action) : State :=
  let pacman_new_pose_map := predictPacmanPose nextPositions s action
  let new_foods_map := predictFoods s pacman_new_pose_map
  { s with
    pacman_pose_map_ := pacman_new_pose_map
    foods_map_ := new_foods_map }

/-- The constant `STOP_PROBABILITY` of `predictGhostMove`. -/
def STOP_PROBABILITY : ℚ := 0.2

/-- Loop nest of `predictGhostMove`: the new belief `ghost_new_pose_map`. -/
def predictGhostPose (legal : LegalModel) (s : State) (ghost_index : Nat) : Grid ℚ :=
  let ghost_pose_map := s.ghosts_poses_map_ ghost_index
  forRange s.width_ zeroGrid fun g i =>
    forRange s.height_ g fun g j =>
      if s.map_ j i ≠ WALL then
        let probability_of_being_in_this_place := ghost_pose_map j i
        let next_positions := legal i j
        let random_probability := (1 - STOP_PROBABILITY) / (next_positions.length : ℚ)
        let g := g.set j i (g j i + STOP_PROBABILITY * probability_of_being_in_this_place)
        next_positions.reverse.foldl
          (fun g it =>
            let x := it.1
            let y := it.2
            g.set y x (g y x + random_probability * probability_of_being_in_this_place))
          g
      else g

/-- The method `BayesianGameState::predictGhostMove`. -/
def predictGhostMove (legal : LegalModel) (s : State) (ghost_index : Nat) : State :=
  { s with
    ghosts_poses_map_ :=
      Function.update s.ghosts_poses_map_ ghost_index (predictGhostPose legal s ghost_index) }

/-! ## Distance table -/

/-- The body of the `for` loop inside the `while` loop of `calculateDistances`,
on the triple of `distances`, `done` and `next_legal_positions`: a cell `it`
without entry gets `current_distance`, clears `done` and has its legal
neighbours appended. -/
def visitCell (legal : LegalModel) (current_distance : Nat) (st : DistMap × Bool × List Cell)
    (it : Cell) : DistMap × Bool × List Cell :=
  if st.1.find it = none then
    (st.1.insert it current_distance, false, st.2.2 ++ legal it.1 it.2)
  else st

/-- One pass of the `for` loop inside the `while` loop of `calculateDistances`:
from `distances` and `legal_positions` (walked from its last element to its
first) to the new `distances`, the flag `done` and `next_legal_positions`. -/
def expandFrontier (legal : LegalModel) (current_distance : Nat) (distances : DistMap)
    (legal_positions : List Cell) : DistMap × Bool × List Cell :=
  legal_positions.reverse.foldl (visitCell legal current_distance) (distances, true, [])

/-- The `while (!done)` loop of `calculateDistances`, run for at most `fuel`
iterations: `none` when the loop has not stopped by then. -/
def calculateDistancesLoop (legal : LegalModel) :
    Nat → DistMap → Nat → List Cell → Option DistMap
  | 0, _, _, _ => none
  | fuel + 1, distances, current_distance, legal_positions =>
    let current_distance := current_distance + 1
    let st := expandFrontier legal current_distance distances legal_positions
    if st.2.1 then some st.1
    else calculateDistancesLoop legal fuel st.1 current_distance st.2.2

/-- The method `BayesianGameState::calculateDistances`, its loop bounded by
`fuel` iterations. -/
def calculateDistances (legal : LegalModel) (fuel : Nat) (x y : Int) : Option DistMap :=
  let distances := DistMap.insert [] (x, y) 0
  let legal_positions := legal x y
  calculateDistancesLoop legal fuel distances 0 legal_positions

/-- The method `BayesianGameState::precalculateAllDistances`: the new value of
`precalculated_distances_`, or `none` when one of the calls of
`calculateDistances` does not stop within `fuel` iterations. -/
def precalculateAllDistances (legal : LegalModel) (fuel : Nat) (s : State) :
    Option DistTable :=
  forRange s.width_ (some s.precalculated_distances_) fun t i =>
    forRange s.height_ t fun t j =>
      if s.map_ j i ≠ WALL then
        match t with
        | none => none
        | some table =>
          match calculateDistances legal fuel i j with
          | none => none
          | some distances => some (table.insert (i, j) distances)
      else t

/-- The entry `precalculated_distances_[a][b]` of a table, when both keys are
present. -/
def DistTable.distance (t : DistTable) (a b : Cell) : Option Nat :=
  match t.find a with
  | none => none
  | some d => d.find b

/-! ## Tactical queries -/

/-- The conversion of a `double` to an `int`: truncation toward zero. -/
def truncToInt (q : ℚ) : Int :=
  if 0 ≤ q then ⌊q⌋ else ⌈q⌉

/-- The inserting lookup `distances[c]` on a `std::map< std::pair<int, int>, int >`:
the value of the entry when there is one; otherwise the entry `c ↦ 0` is added
and 0 is the value. The second component is the map after the lookup. -/
def DistMap.index (d : DistMap) (c : Cell) : Nat × DistMap :=
  match d.find c with
  | some v => (v, d)
  | none => (0, d.insert c 0)

/-- The inserting lookup `precalculated_distances_[c]`: the map of the entry
when there is one; otherwise the entry of `c` with an empty map is added and
the empty map is the value. The second component is the table after the
lookup. -/
def DistTable.index (t : DistTable) (c : Cell) : DistMap × DistTable :=
  match t.find c with
  | some d => (d, t)
  | none => ([], t.insert c [])

/-- The method `BayesianGameState::getDistances`: the returned copy of the map
and the state after the call. -/
def getDistances (s : State) (x y : Int) : DistMap × State :=
  let r := s.precalculated_distances_.index (x, y)
  (r.1, { s with precalculated_distances_ := r.2 })

/-- The method `BayesianGameState::getMaxFoodProbability`; `INFINITE` is the
constant `util::INFINITE`. -/
def getMaxFoodProbability (INFINITE : Int) (s : State) : ℚ :=
  forRange s.width_ (-(INFINITE : ℚ)) fun max_probability i =>
    forRange s.height_ max_probability fun max_probability j =>
      let probability := s.foods_map_ j i
      if probability > max_probability then probability else max_probability

/-- The loop nest shared by `getMostProbablePacmanPose` and
`getMostProbableGhostPose`, on the grid `g`: the triple `probable_x`,
`probable_y`, `max_probability` after the loops. -/
def mostProbableScan (INFINITE : Int) (s : State) (g : Grid ℚ) : Int × Int × ℚ :=
  forRange s.width_ ((-1 : Int), (-1 : Int), -(INFINITE : ℚ)) fun st i =>
    forRange s.height_ st fun st j =>
      let probability := g j i
      if probability > st.2.2 then (i, j, probability) else st

/-- The method `BayesianGameState::getMostProbablePacmanPose`: the cell
`(probable_x, probable_y)`. -/
def getMostProbablePacmanPose (INFINITE : Int) (s : State) : Cell :=
  let r := mostProbableScan INFINITE s s.pacman_pose_map_
  (r.1, r.2.1)

/-- The method `BayesianGameState::getMostProbableGhostPose`. -/
def getMostProbableGhostPose (INFINITE : Int) (s : State) (ghost_index : Nat) : Cell :=
  let r := mostProbableScan INFINITE s (s.ghosts_poses_map_ ghost_index)
  (r.1, r.2.1)

/-- The method `BayesianGameState::getMostProbableGhostsPoses`. -/
def getMostProbableGhostsPoses (INFINITE : Int) (s : State) : List Cell :=
  (List.range s.num_ghosts_).foldl
    (fun probable_poses i => probable_poses ++ [getMostProbableGhostPose INFINITE s i]) []

/-- The body shared by the loops that keep the smallest looked-up distance:
`int dist = distances[c]; if (dist < min_dist) min_dist = dist;` on the pair
of the local map `distances` and `min_dist`. -/
def keepSmaller (st : DistMap × Int) (c : Cell) : DistMap × Int :=
  let look := st.1.index c
  let dist : Int := (look.1 : Int)
  if dist < st.2 then (look.2, dist) else (look.2, st.2)

/-- The method `BayesianGameState::getClosestFoodDistance`: the returned value
and the state after the call. -/
def getClosestFoodDistance (INFINITE : Int) (s : State) : ℚ × State :=
  let new_pose := getMostProbablePacmanPose INFINITE s
  let new_x := new_pose.1
  let new_y := new_pose.2
  let food_probability_threshold := getMaxFoodProbability INFINITE s / 2
  let r := getDistances s new_x new_y
  let distances := r.1
  let min_dist : Int := INFINITE
  let st := forRange s.height_ (distances, min_dist) fun st i =>
    forRange s.width_ st fun st j =>
      if s.foods_map_ i j ≥ food_probability_threshold then keepSmaller st (j, i) else st
  ((st.2 : ℚ), r.2)

/-- The method `BayesianGameState::eatsFood`; its argument `action` is not
read. -/
def eatsFood (INFINITE : Int) (s : State) : Bool × State :=
  let new_pose := getMostProbablePacmanPose INFINITE s
  let new_x := new_pose.1
  let new_y := new_pose.2
  (if s.map_ new_y new_x = FOOD then true else false, s)

/-- The method `BayesianGameState::getClosestGhostDistance`: the returned value
and the state after the call. `getPacmanPose()` is the field `pacman_pose_`. -/
def getClosestGhostDistance (INFINITE : Int) (s : State) : Int × State :=
  let new_pose := s.pacman_pose_
  let new_x := truncToInt new_pose.1
  let new_y := truncToInt new_pose.2
  let ghosts_poses := getMostProbableGhostsPoses INFINITE s
  let r := getDistances s new_x new_y
  let distances := r.1
  let min_dist : Int := INFINITE
  let st := ghosts_poses.reverse.foldl keepSmaller (distances, min_dist)
  let min_dist := if st.2 = 0 then 1 else st.2
  (min_dist, r.2)

/-- The method `BayesianGameState::dies`; its argument `action` is not read. -/
def dies (s : State) : Bool × State :=
  let new_pose := s.pacman_pose_
  let new_x := truncToInt new_pose.1
  let new_y := truncToInt new_pose.2
  (s.ghosts_poses_.reverse.any
     (fun it => decide (((new_x : ℚ) = it.1) ∧ ((new_y : ℚ) = it.2))), s)

/-- The method `BayesianGameState::getNumberOfGhostsNStepsAway`: the returned
value and the state after the call. -/
def getNumberOfGhostsNStepsAway (INFINITE : Int) (s : State) (n : Int) : Int × State :=
  let pacman_pose := getMostProbablePacmanPose INFINITE s
  let ghosts_poses := getMostProbableGhostsPoses INFINITE s
  let new_x := pacman_pose.1
  let new_y := pacman_pose.2
  let r := getDistances s new_x new_y
  let distances := r.1
  let number_ghost : Int := 0
  let st := ghosts_poses.reverse.foldl
    (fun (st : DistMap × Int) it =>
      let look := st.1.index it
      let dist : Int := (look.1 : Int)
      if dist ≤ n then (look.2, st.2 + 1) else (look.2, st.2))
    (distances, number_ghost)
  (st.2, r.2)

/-- The method `BayesianGameState::getProbabilityOfAGhostNStepsAway`: the
returned value and the state after the call. -/
def getProbabilityOfAGhostNStepsAway (s : State) (n : Int) : ℚ × State :=
  forRange s.width_ ((0 : ℚ), s) fun st i =>
    forRange s.height_ st fun st j =>
      if s.map_ j i ≠ WALL then
        let probability_of_being_in_this_place := s.pacman_pose_map_ j i
        let r := getDistances st.2 i j
        let distances := r.1
        let inner := forRange s.width_ (st.1, distances) fun acc ghost_i =>
          forRange s.height_ acc fun acc ghost_j =>
            let look := acc.2.index (ghost_i, ghost_j)
            let dist : Int := (look.1 : Int)
            if s.map_ ghost_j ghost_i ≠ WALL ∧ dist < n then
              ((List.range s.num_ghosts_).foldl
                (fun probability ghost_index =>
                  probability + probability_of_being_in_this_place
                    * s.ghosts_poses_map_ ghost_index ghost_j ghost_i)
                acc.1, look.2)
            else (acc.1, look.2)
        (inner.1, r.2)
      else st

/-! ## The transport endpoint -/

/-- The fields of `pacman_msgs::AgentPoseService::Request` that `observeAgent`
reads. -/
structure Request where
  /-- The agent id. -/
  agent : Int
  /-- The position `(x, y)` of the pose, two finite `double`s. -/
  pose : ℚ × ℚ
  /-- The flag `is_finished`. -/
  is_finished : Bool

/-- The message `pacman_msgs::AgentPoseService::Response`. -/
structure Response where
  /-- The field `observed`. -/
  observed : Bool

/-- Modelled from the spec: the constant
`pacman_msgs::AgentPoseService::Request::PACMAN` of the message definition,
which is not part of the source files; the agent id 0 denotes the evader. -/
def PACMAN : Int := 0

/-- The method `BayesianGameState::observeAgent`: `is_finished_` is set, the
request is passed to `observePacman` or to `observeGhost`, and when that call
returns the response is marked observed and `true` is returned. An exception of
the inner call leaves `observeAgent` too. -/
def observeAgent (r : Rounding) (lik : Likelihood) (s : State) (req : Request) :
    Outcome (Bool × Response) :=
  let agent := req.agent
  let measurement_x := req.pose.1
  let measurement_y := req.pose.2
  let s := { s with is_finished_ := req.is_finished }
  let inner :=
    if agent = PACMAN then
      observePacmanCall r lik s measurement_x measurement_y
    else
      let ghost_index := agent - 1
      observeGhostCall r lik s measurement_x measurement_y ghost_index
  match inner with
  | Outcome.returned _ s => Outcome.returned (true, { observed := true }) s
  | Outcome.raised s => Outcome.raised s
  | Outcome.undefined => Outcome.undefined

/-! ## Notions used to state the properties -/

/-- The sum of a grid over the non-WALL cells of the map. -/
def sumNonWall (s : State) (g : Grid ℚ) : ℚ :=
  ∑ i in Finset.range s.width_, ∑ j in Finset.range s.height_,
    if s.map_ j i ≠ WALL then g j i else 0

/-- The number of non-WALL cells of the map. -/
def countNonWall (s : State) : Nat :=
  ∑ i in Finset.range s.width_, ∑ j in Finset.range s.height_,
    if s.map_ (j : Int) (i : Int) ≠ WALL then 1 else 0

/-- The cell `(x, y)` lies inside the `width_ × height_` map. -/
def inBounds (s : State) (x y : Int) : Prop :=
  0 ≤ x ∧ x < (s.width_ : Int) ∧ 0 ≤ y ∧ y < (s.height_ : Int)

instance (s : State) (x y : Int) : Decidable (inBounds s x y) := by
  unfold inBounds; infer_instance

/-- A walk of `n` legal-neighbour moves from `a` to `b`. -/
inductive Walk (legal : LegalModel) (a : Cell) : Nat → Cell → Prop where
  | nil : Walk legal a 0 a
  | snoc {n : Nat} {b c : Cell} : Walk legal a n b → c ∈ legal b.1 b.2 → Walk legal a (n + 1) c

/-- The cell `b` is reachable from `a` and `n` is the number of moves of a
shortest walk from `a` to `b`. -/
def IsShortest (legal : LegalModel) (a b : Cell) (n : Nat) : Prop :=
  Walk legal a n b ∧ ∀ m, Walk legal a m b → n ≤ m

/-- The cell `(x, y)` is a non-WALL cell inside the map. -/
def isTraversable (s : State) (x y : Int) : Prop :=
  (0 ≤ x ∧ x < (s.width_ : Int)) ∧ 0 ≤ y ∧ y < (s.height_ : Int) ∧ s.map_ y x ≠ WALL

instance (s : State) (x y : Int) : Decidable (isTraversable s x y) := by
  unfold isTraversable; infer_instance

/-- The value `observeGhost` accumulates at the cell `(x, y)` before
normalising: the sum runs over every cell of the map. -/
def ghostPosteriorAllCells (lik : Likelihood) (s : State) (mx my : ℚ) (k : Nat)
    (x y : Int) : ℚ :=
  ∑ pi in Finset.range s.width_, ∑ pj in Finset.range s.height_,
    lik (x - pi) (y - pj) mx my SD_GHOST_DIST_MEASUREMENT * s.ghosts_poses_map_ k y x
      * s.pacman_pose_map_ pj pi

/-- The value the relative update is specified to give the cell `(x, y)` before
normalising: the prior of the ghost there times the sum, over the non-WALL
cells `p` only, of the likelihood of the displacement times the belief of
pacman being at `p`. -/
def ghostPosteriorNonWall (lik : Likelihood) (s : State) (mx my : ℚ) (k : Nat)
    (x y : Int) : ℚ :=
  s.ghosts_poses_map_ k y x *
    sumNonWall s (fun pj pi =>
      lik (x - pi) (y - pj) mx my SD_GHOST_DIST_MEASUREMENT * s.pacman_pose_map_ pj pi)

/-! ## Concrete inputs -/

/-- A likelihood that decreases with the squared distance between the position
and the measurement, positive everywhere. -/
def exampleLikelihood : Likelihood :=
  fun px py mx my sd => 1 / (1 + (((px : ℚ) - mx) ^ 2 + ((py : ℚ) - my) ^ 2) / sd ^ 2)

/-- A likelihood that is zero everywhere. -/
def zeroLikelihood : Likelihood := fun _ _ _ _ _ => 0

/-- The grid of a single row with value `a` at `x = 0`, `b` at `x = 1` and `c`
at `x = 2`, and `d` at every other place. -/
def rowGrid {α : Type} (a b c d : α) : Grid α :=
  fun j i => if j = 0 ∧ i = 0 then a else if j = 0 ∧ i = 1 then b
    else if j = 0 ∧ i = 2 then c else d

/-- A map of one row and three columns whose first cell is a WALL and whose two
other cells are EMPTY, with one ghost; both beliefs are uniform over the two
EMPTY cells and the food values are 4/5 and 3/10. -/
def wallAndTwoCells : State where
  width_ := 3
  height_ := 1
  num_ghosts_ := 1
  map_ := rowGrid WALL EMPTY EMPTY WALL
  pacman_pose_map_ := rowGrid 0 (1 / 2) (1 / 2) 0
  ghosts_poses_map_ := fun _ => rowGrid 0 (1 / 2) (1 / 2) 0
  foods_map_ := rowGrid 0 (4 / 5) (3 / 10) 0
  pacman_pose_ := (1, 0)
  ghosts_poses_ := [(2, 0)]
  precalculated_distances_ := []
  is_finished_ := false

/-- The state `wallAndTwoCells` with half of the belief of pacman on the WALL
cell. -/
def wallAndTwoCellsMassOnWall : State :=
  { wallAndTwoCells with pacman_pose_map_ := rowGrid (1 / 2) (1 / 2) 0 0 }

/-- The mass that the list of `(probability, destination)` pairs `l`, all
weighted by `p`, sends to the cell `(x, y)`. -/
def massSentTo (l : List (ℚ × Cell)) (p : ℚ) (x y : Int) : ℚ :=
  (l.map (fun it => if it.2.2 = y ∧ it.2.1 = x then it.1 * p else 0)).sum

/-- The moves of the ghost policy of `predictGhostMove` from the cell `(i, j)`:
stay with `STOP_PROBABILITY`, or go to one of the legal neighbours, each with
`(1 - STOP_PROBABILITY) / size`. -/
def ghostMoves (legal : LegalModel) (i j : Int) : List (ℚ × Cell) :=
  (STOP_PROBABILITY, (i, j)) ::
    (legal i j).map (fun n => ((1 - STOP_PROBABILITY) / ((legal i j).length : ℚ), n))

/-- An action model on `wallAndTwoCells` with a single action: from `(1, 0)`
pacman moves to `(2, 0)` with probability 4/5 and stays with probability 1/5;
from every other cell it stays. -/
def exampleActionModel : ActionModel Unit :=
  fun i j _ => if i = 1 ∧ j = 0 then [(4 / 5, (2, 0)), (1 / 5, (1, 0))] else [(1, (i, j))]

/-- The legal neighbours on `wallAndTwoCells`: the two EMPTY cells are
neighbours of each other. -/
def exampleLegal : LegalModel :=
  fun i j => if i = 1 ∧ j = 0 then [(2, 0)] else if i = 2 ∧ j = 0 then [(1, 0)] else []

/-- A legal-neighbour function that gives no cell a neighbour. -/
def noNeighbours : LegalModel := fun _ _ => []

/-- A map of one row and three columns, EMPTY, WALL, EMPTY: its two non-WALL
cells have no legal neighbour. The belief of the ghost is uniform over them. -/
def twoIsolatedCells : State :=
  { wallAndTwoCells with
    map_ := rowGrid EMPTY WALL EMPTY WALL
    pacman_pose_map_ := rowGrid (1 / 2) 0 (1 / 2) 0
    ghosts_poses_map_ := fun _ => rowGrid (1 / 2) 0 (1 / 2) 0 }

/-- The state `wallAndTwoCells` with the belief of the ghost changed to the
point mass 1 at the cell `(1, 0)`. -/
def ghostSurelyAtFirstCell : State :=
  { wallAndTwoCells with ghosts_poses_map_ := fun _ => rowGrid 0 1 0 0 }

/-- Invariant of the `while` loop of `calculateDistances(x, y)` when an
iteration starts with `current_distance = k`: `distances` holds exactly the
cells at shortest distance at most `k` from the source, each with its shortest
distance, and `legal_positions` lists exactly the legal neighbours of the cells
at shortest distance `k`. -/
def LoopInvariant (legal : LegalModel) (source : Cell) (k : Nat) (distances : DistMap)
    (legal_positions : List Cell) : Prop :=
  (∀ c n, distances.find c = some n ↔ IsShortest legal source c n ∧ n ≤ k) ∧
  (∀ c, c ∈ legal_positions ↔ ∃ b, IsShortest legal source b k ∧ c ∈ legal b.1 b.2)

/-- The cells inside the `width_ × height_` map, as a finite set. -/
def gridCells (s : State) : Finset Cell :=
  (Finset.range s.width_ ×ˢ Finset.range s.height_).image
    (fun p => (((p.1 : Nat) : Int), ((p.2 : Nat) : Int)))

/-- The value the code reads by `distances[c]`: the entry of `c`, or 0 when
there is none. -/
def lookupOrZero (d : DistMap) (c : Cell) : Int :=
  (((d.find c).getD 0 : Nat) : Int)

/-- The cells `(x, y)` that the loops `for i < width_ { for j < height_ {` have
visited when the body is about to run for `i = a`, `j = b`: the columns before
`a`, and the cells of column `a` above row `b`. -/
def scanned (height : Nat) (a b : Nat) (x y : Int) : Prop :=
  (0 ≤ x ∧ 0 ≤ y ∧ y < (height : Int)) ∧ (x < (a : Int) ∨ (x = (a : Int) ∧ y < (b : Int)))

/-- Invariant of the scan for the most probable cell of the grid `g`, over the
set `visited` of cells visited so far: the triple `st` holds an upper bound of
the visited values, and either nothing was recorded, or `st` holds a visited
cell with the largest visited value that comes first, columns before rows, among
the visited cells with that value. -/
def ScanInvariant (INFINITE : Int) (g : Grid ℚ) (visited : Int → Int → Prop)
    (st : Int × Int × ℚ) : Prop :=
  (∀ x y, visited x y → g y x ≤ st.2.2) ∧
  (st = ((-1 : Int), (-1 : Int), -(INFINITE : ℚ)) ∨
    (visited st.1 st.2.1 ∧ g st.2.1 st.1 = st.2.2 ∧ -(INFINITE : ℚ) < st.2.2 ∧
      ∀ x y, visited x y → g y x = st.2.2 → st.1 < x ∨ (st.1 = x ∧ st.2.1 ≤ y)))

/-- A map of two rows and two columns without WALL, with one ghost; the belief
of pacman and the belief of the ghost are `1/2` at the cells `(1, 0)` and
`(0, 1)` and 0 at the two other cells. -/
def twoByTwoTies : State where
  width_ := 2
  height_ := 2
  num_ghosts_ := 1
  map_ := fun _ _ => EMPTY
  pacman_pose_map_ := fun j i => if (j = 0 ∧ i = 1) ∨ (j = 1 ∧ i = 0) then 1 / 2 else 0
  ghosts_poses_map_ := fun _ j i => if (j = 0 ∧ i = 1) ∨ (j = 1 ∧ i = 0) then 1 / 2 else 0
  foods_map_ := fun _ _ => 0
  pacman_pose_ := (0, 0)
  ghosts_poses_ := [(1, 1)]
  precalculated_distances_ := []
  is_finished_ := false

/-- The smallest of `INFINITE` and the values the code reads by `distances[c]`
for the cells `c` of a list. -/
def smallestLookedUp (INFINITE : Int) (d : DistMap) (cells : List Cell) : Int :=
  (cells.map (lookupOrZero d)).foldr min INFINITE

/-- The cell that holds the ground-truth pose of pacman, with the coordinates
converted to `int`. -/
def pacmanCell (s : State) : Cell :=
  (truncToInt s.pacman_pose_.1, truncToInt s.pacman_pose_.2)

/-- The legal neighbours on a corridor of one row and four columns without
WALL: the cells to the left and to the right, inside the corridor. -/
def corridorLegal : LegalModel :=
  fun i j => if j = 0 ∧ 0 ≤ i ∧ i < 4 then
    (if 0 < i then [(i - 1, j)] else []) ++ (if i < 3 then [(i + 1, j)] else [])
  else []

/-- The distance table of the corridor of one row and four columns. -/
def corridorTable : DistTable :=
  [((0, 0), [((0, 0), 0), ((1, 0), 1), ((2, 0), 2), ((3, 0), 3)]),
   ((1, 0), [((1, 0), 0), ((2, 0), 1), ((0, 0), 1), ((3, 0), 2)]),
   ((2, 0), [((2, 0), 0), ((3, 0), 1), ((1, 0), 1), ((0, 0), 2)]),
   ((3, 0), [((3, 0), 0), ((2, 0), 1), ((1, 0), 2), ((0, 0), 3)])]

/-- A corridor of one row and four columns without WALL, with its distance
table and one ghost: the ground-truth pose of pacman is `(0, 0)`, that of the
ghost is `(3, 0)`, and the belief of the ghost is the point mass at the cell
`(x, 0)`; the belief of pacman is the point mass at `(0, 0)`. -/
def corridorWithGhostBelievedAt (x : Int) : State where
  width_ := 4
  height_ := 1
  num_ghosts_ := 1
  map_ := fun _ _ => EMPTY
  pacman_pose_map_ := fun j i => if j = 0 ∧ i = 0 then 1 else 0
  ghosts_poses_map_ := fun _ j i => if j = 0 ∧ i = x then 1 else 0
  foods_map_ := fun _ _ => 0
  pacman_pose_ := (0, 0)
  ghosts_poses_ := [(3, 0)]
  precalculated_distances_ := corridorTable
  is_finished_ := false

/-- The distance table of the map EMPTY, WALL, EMPTY whose cells have no legal
neighbour: each non-WALL cell reaches only itself. -/
def islandsTable : DistTable :=
  [((0, 0), [((0, 0), 0)]), ((2, 0), [((2, 0), 0)])]

/-- A map of one row and three columns, EMPTY, WALL, EMPTY, whose cells have no
legal neighbour, with its distance table and one ghost: pacman is believed,
and is, at `(0, 0)`; the ghost is believed, and is, at `(2, 0)`; the only food
value above 0 is `4/5` at `(2, 0)`. -/
def islands : State where
  width_ := 3
  height_ := 1
  num_ghosts_ := 1
  map_ := rowGrid EMPTY WALL EMPTY WALL
  pacman_pose_map_ := rowGrid 1 0 0 0
  ghosts_poses_map_ := fun _ => rowGrid 0 0 1 0
  foods_map_ := rowGrid 0 0 (4 / 5) 0
  pacman_pose_ := (0, 0)
  ghosts_poses_ := [(2, 0)]
  precalculated_distances_ := islandsTable
  is_finished_ := false

/-- The state `wallAndTwoCells` with FOOD in its two non-WALL cells. -/
def wallAndTwoFoods : State :=
  { wallAndTwoCells with map_ := rowGrid WALL FOOD FOOD WALL }

/-- The distance table of `wallAndTwoCells` with the legal neighbours
`exampleLegal`. -/
def twoCellsTable : DistTable :=
  [((1, 0), [((1, 0), 0), ((2, 0), 1)]), ((2, 0), [((2, 0), 0), ((1, 0), 1)])]

/-- The state `wallAndTwoCellsMassOnWall`, in which the most probable cell of
pacman is the WALL cell `(0, 0)`, with the distance table of its map. -/
def massOnWallWithTable : State :=
  { wallAndTwoCellsMassOnWall with precalculated_distances_ := twoCellsTable }

/-- The state `wallAndTwoCells` with the distance table of its map. -/
def wallAndTwoCellsWithTable : State :=
  { wallAndTwoCells with precalculated_distances_ := twoCellsTable }

/-- The state `t` differs from `s` at most in `precalculated_distances_`. -/
def sameExceptTable (s t : State) : Prop :=
  t = { s with precalculated_distances_ := t.precalculated_distances_ }

/-- A corridor of one row and three columns without walls, with one ghost; the
belief of pacman is uniform, 1/3 at each of the three cells. -/
def corridorOfThree : State :=
  { wallAndTwoCells with
    map_ := rowGrid EMPTY EMPTY EMPTY WALL
    pacman_pose_map_ := rowGrid (1 / 3) (1 / 3) (1 / 3) 0 }

end BayesianGameState

namespace DeterministicQLearning

/-! ## The learning agent of `deterministic_q_learning.cpp` -/

/-- The static member `NUM_BEHAVIORS`. -/
def NUM_BEHAVIORS : Nat := 5

/-- The static member `NUM_FEATURES`. -/
def NUM_FEATURES : Nat := 7

/-- The static member `learning_rate_`. -/
def learning_rate_ : ℚ := 0.2

/-- The static member `discount_factor_`. -/
def discount_factor_ : ℚ := 0.8

/-- The methods of `DeterministicGameState` and of `DeterministicBehaviorAgent`
that the agent calls; the two classes are declared outside the source files at
hand. Each numeric method gives the value of its result as a `double`; the
methods are read as functions of the game state. -/
structure GameStateModel (GameState Action : Type) where
  /-- The method `DeterministicBehaviorAgent::getAction`. -/
  getAction : GameState → Int → Action
  /-- The method `eatsFood`. -/
  eatsFood : GameState → Action → ℚ
  /-- The method `getClosestFoodDistance`. -/
  getClosestFoodDistance : GameState → Action → ℚ
  /-- The method `getNumberOfGhostsOneStepAway`. -/
  getNumberOfGhostsOneStepAway : GameState → Action → ℚ
  /-- The method `getClosestGhostDistance`. -/
  getClosestGhostDistance : GameState → Action → ℚ
  /-- The method `dies`. -/
  dies : GameState → Action → ℚ
  /-- The method `isFinished`. -/
  isFinished : GameState → Bool

/-- The members of `DeterministicQLearning` that the methods below read or
write. -/
structure State where
  /-- The vector `features_`. -/
  features_ : List ℚ
  /-- The vector `temp_features_`. -/
  temp_features_ : List ℚ
  /-- The vector `old_features_`. -/
  old_features_ : List ℚ
  /-- The vector `weights_`. -/
  weights_ : List ℚ
  /-- The member `old_q_value_`. -/
  old_q_value_ : ℚ
  /-- The member `new_q_value_`. -/
  new_q_value_ : ℚ
  /-- The member `old_behavior_`. -/
  old_behavior_ : Int
  /-- The member `behavior_`. -/
  behavior_ : Int

/-- The agent that the constructor `DeterministicQLearning::DeterministicQLearning`
builds; the vectors it does not assign are empty. -/
def newDeterministicQLearning : State where
  features_ := []
  temp_features_ := []
  old_features_ := []
  weights_ := List.replicate (NUM_BEHAVIORS + NUM_FEATURES) 0
  old_q_value_ := 0
  new_q_value_ := 0
  old_behavior_ := 0
  behavior_ := 0

/-- The method `DeterministicQLearning::saveTempFeatures`. -/
def saveTempFeatures (st : State) : State :=
  { st with features_ := st.temp_features_ }

/-- The method `DeterministicQLearning::getFeatures`. -/
def getFeatures {GameState Action : Type} (M : GameStateModel GameState Action)
    (game_state : GameState) (behavior : Int) : List ℚ :=
  let features : List ℚ := []
  let features := features ++ [1]
  let action := M.getAction game_state behavior
  let features := features ++ [M.eatsFood game_state action / 10]
  let features := features ++ [M.getClosestFoodDistance game_state action / 10]
  let features := features ++ [M.getNumberOfGhostsOneStepAway game_state action / 10]
  let features := features ++ [M.getClosestGhostDistance game_state action / 10]
  let features := features ++ [M.dies game_state action]
  features

/-- The loop of `getQValue` on `q_value` and the two iterators `features_it`
and `weights_it`: it stops when one of them is at the end of its vector. -/
def qValueLoop : ℚ → List ℚ → List ℚ → ℚ
  | q_value, f :: features_it, w :: weights_it =>
    qValueLoop (q_value + f * w) features_it weights_it
  | q_value, _, _ => q_value

/-- The method `DeterministicQLearning::getQValue`: the returned value and the
agent after the call. -/
def getQValue {GameState Action : Type} (M : GameStateModel GameState Action) (st : State)
    (game_state : GameState) (behavior : Int) : ℚ × State :=
  let q_value : ℚ := 0
  let st := { st with temp_features_ := getFeatures M game_state behavior }
  (qValueLoop q_value st.temp_features_ st.weights_, st)

/-- The method `DeterministicQLearning::getMaxQValue`: the returned pair of
`behavior` and `max_q_value`, and the agent after the call; `INFINITE` is the
constant `util::INFINITE`. -/
def getMaxQValue {GameState Action : Type} (M : GameStateModel GameState Action)
    (INFINITE : Int) (st : State) (game_state : GameState) : (Int × ℚ) × State :=
  let r := BayesianGameState.forRange NUM_BEHAVIORS ((-1 : Int), -(INFINITE : ℚ), st)
    fun acc i =>
      let r := getQValue M acc.2.2 game_state i
      let q_value := r.1
      if q_value > acc.2.1 then (i, q_value, saveTempFeatures r.2) else (acc.1, acc.2.1, r.2)
  ((r.1, r.2.1), r.2.2)

/-- The method `DeterministicQLearning::getBehavior`: the returned behaviour and
the agent after the call. -/
def getBehavior {GameState Action : Type} (M : GameStateModel GameState Action)
    (INFINITE : Int) (st : State) (game_state : GameState) : Int × State :=
  let behavior_q_value_pair := getMaxQValue M INFINITE st game_state
  let behavior := behavior_q_value_pair.1.1
  (behavior, { behavior_q_value_pair.2 with old_q_value_ := behavior_q_value_pair.1.2 })

/-- The loop of `updateWeights` on the two iterators `weights_it` and
`features_it`: it stops when `features_it` is at the end of `old_features_`,
and a write past the end of `weights_` has no defined result (`none`). The
result is the part of `weights_` from `weights_it` on, after the loop. -/
def updateLoop (error : ℚ) : List ℚ → List ℚ → Option (List ℚ)
  | weights_it, [] => some weights_it
  | [], _ :: _ => none
  | w :: weights_it, f :: features_it =>
    (updateLoop error weights_it features_it).map
      (fun rest => (w + learning_rate_ * error * f) :: rest)

/-- The method `DeterministicQLearning::updateWeights`: the agent after the
call, or `none` when the loop writes past the end of `weights_`. -/
def updateWeights {GameState Action : Type} (M : GameStateModel GameState Action)
    (INFINITE : Int) (st : State) (new_game_state : GameState) (reward : Int) : Option State :=
  let st := { st with old_features_ := st.features_ }
  let st :=
    if M.isFinished new_game_state then
      { st with new_q_value_ := 0 }
    else
      let behavior_q_value_pair := getMaxQValue M INFINITE st new_game_state
      { behavior_q_value_pair.2 with new_q_value_ := behavior_q_value_pair.1.2 }
  let error : ℚ := (reward : ℚ) + discount_factor_ * st.new_q_value_ - st.old_q_value_
  (updateLoop error st.weights_ st.old_features_).map (fun weights => { st with weights_ := weights })

/-! ## Notions used to state the weight update -/

/-- The dot product of a feature vector with a weight vector, over the indices
that both have. -/
def dot (features weights : List ℚ) : ℚ :=
  (List.zipWith (fun f w => f * w) features weights).sum

/-- The Q-value of the behaviour `behavior` in the game state `game_state` under
the weights `weights`: the dot product of the features of the behaviour with
the weights. -/
def qValue {GameState Action : Type} (M : GameStateModel GameState Action)
    (game_state : GameState) (weights : List ℚ) (behavior : Nat) : ℚ :=
  dot (getFeatures M game_state (behavior : Int)) weights

/-! ## Concrete inputs of the learning agent -/

/-- A game on which every method returns 0, with the unit type as game state
and as action: the features of every behaviour are `1, 0, 0, 0, 0, 0`, and the
game state is not finished. -/
def zeroGame : GameStateModel Unit Unit where
  getAction := fun _ _ => ()
  eatsFood := fun _ _ => 0
  getClosestFoodDistance := fun _ _ => 0
  getNumberOfGhostsOneStepAway := fun _ _ => 0
  getClosestGhostDistance := fun _ _ => 0
  dies := fun _ _ => 0
  isFinished := fun _ => false

/-- An agent with twelve weights, the first of them `w` and the others 0, with
the saved features `1, 0, 0, 0, 0, 0` and the old Q-value 0. -/
def agentWithBias (w : ℚ) : State :=
  { newDeterministicQLearning with
    features_ := [1, 0, 0, 0, 0, 0]
    weights_ := w :: List.replicate 11 0 }

end DeterministicQLearning

namespace BayesianGameState

open CellKind

/-- The rounding is exact: every value is its own `float` and its own `double`,
which is arithmetic without rounding. -/
def Rounding.IsExact (r : Rounding) : Prop :=
  (∀ q, r.toFloat q = q) ∧ ∀ q, r.toDouble q = q

/-- The rounding keeps the order and keeps 0, as rounding to the nearest
`float` and to the nearest `double` does. -/
def Rounding.IsMonotone (r : Rounding) : Prop :=
  (∀ a b, a ≤ b → r.toFloat a ≤ r.toFloat b) ∧ (∀ a b, a ≤ b → r.toDouble a ≤ r.toDouble b) ∧
  r.toFloat 0 = 0 ∧ r.toDouble 0 = 0

/-- The rounding that leaves every value as it is. -/
def exactRounding : Rounding where
  toFloat := fun q => q
  toDouble := fun q => q

/-- What the examples below use of rounding to the nearest IEEE `float` and
`double`: a value of magnitude below `2^-150`, half the least positive `float`,
has the `float` 0, and the values `2^-149`, `4` and `1/4`, which are `float`s,
are kept. -/
def Rounding.RoundsToNearest (r : Rounding) : Prop :=
  (∀ q : ℚ, |q| < 1 / 2 ^ 150 → r.toFloat q = 0) ∧
  r.toFloat (1 / 2 ^ 149) = 1 / 2 ^ 149 ∧ r.toFloat 4 = 4 ∧
  r.toDouble (1 / 4) = 1 / 4 ∧ r.toFloat (1 / 4) = 1 / 4

/-- A rounding that is exact but for underflow: a value of magnitude below
`2^-150` has the `float` 0, every other value is kept. -/
def underflowOnly : Rounding where
  toFloat := fun q => if |q| < 1 / 2 ^ 150 then 0 else q
  toDouble := fun q => q

/-- A corridor of one row and four columns without walls, with one ghost; the
belief of pacman and the belief of the ghost are uniform, 1/4 at each cell. -/
def corridorOfFour : State where
  width_ := 4
  height_ := 1
  num_ghosts_ := 1
  map_ := fun _ _ => EMPTY
  pacman_pose_map_ := fun j i => if j = 0 ∧ 0 ≤ i ∧ i < 4 then 1 / 4 else 0
  ghosts_poses_map_ := fun _ j i => if j = 0 ∧ 0 ≤ i ∧ i < 4 then 1 / 4 else 0
  foods_map_ := fun _ _ => 0
  pacman_pose_ := (0, 0)
  ghosts_poses_ := [(3, 0)]
  precalculated_distances_ := []
  is_finished_ := false

/-- The corridor `corridorOfFour` with the belief of pacman 1/2, 1/4, 1/8,
1/8. -/
def corridorOfFourSkewed : State :=
  { corridorOfFour with
    pacman_pose_map_ := fun j i =>
      if j = 0 ∧ i = 0 then 1 / 2 else if j = 0 ∧ i = 1 then 1 / 4
      else if j = 0 ∧ (i = 2 ∨ i = 3) then 1 / 8 else 0 }

/-- A likelihood that is `2^-149`, the least positive `float`, at the position
`(2, 0)` and 0 at every other position. -/
def spikeLikelihood : Likelihood :=
  fun px py _ _ _ => if px = 2 ∧ py = 0 then 1 / 2 ^ 149 else 0

/-- A likelihood of a displacement that is `2^-149`, the least positive
`float`, at the displacement `(0, 0)` and 0 at every other displacement. -/
def originLikelihood : Likelihood :=
  fun dx dy _ _ _ => if dx = 0 ∧ dy = 0 then 1 / 2 ^ 149 else 0

/-! ## Loop lemmas -/

theorem forRange_zero {σ : Type} (st : σ) (body : σ → Int → σ) : forRange 0 st body = st := rfl

theorem forRange_succ {σ : Type} (n : Nat) (st : σ) (body : σ → Int → σ) :
    forRange (n + 1) st body = body (forRange n st body) (n : Int) := by
  simp [forRange, List.range_succ, List.foldl_append]

theorem Grid.set_same {α : Type} (g : Grid α) (j i : Int) (v : α) : g.set j i v j i = v := by
  simp [Grid.set]

/-- One column of a nest that rewrites each selected cell from its own value. -/
theorem column_set {α : Type} (c : Int → Int → Prop) [∀ i j, Decidable (c i j)]
    (f : Int → Int → α → α) (i : Int) (b : Nat) (g : Grid α) :
    forRange b g (fun g j => if c i j then g.set j i (f i j (g j i)) else g)
      = fun y x => if x = i ∧ 0 ≤ y ∧ y < (b : Int) ∧ c i y then f i y (g y x) else g y x := by
  induction b with
  | zero =>
    funext y x
    have : ¬ (x = i ∧ 0 ≤ y ∧ y < ((0 : Nat) : Int) ∧ c i y) := by
      rintro ⟨_, h1, h2, _⟩; omega
    rw [forRange_zero, if_neg this]
  | succ b ih =>
    rw [forRange_succ, ih]
    funext y x
    have hb : ¬ ((b : Int) < (b : Int)) := lt_irrefl _
    by_cases hy : y = (b : Int)
    · subst hy
      by_cases hc : c i (b : Int)
      · by_cases hx : x = i
        · subst hx
          have : (b : Int) < ((b + 1 : Nat) : Int) := by push_cast; omega
          simp [hc, Grid.set, this]
        · simp [hc, Grid.set, hx]
      · simp [hc]
    · have h1 : (y < ((b + 1 : Nat) : Int)) ↔ y < (b : Int) := by push_cast; omega
      simp only [h1]
      by_cases hc : c i (b : Int)
      · simp [hc, Grid.set, hy]
      · simp [hc]

/-- A loop nest that rewrites each selected cell of the map from its own value. -/
theorem nest_set {α : Type} (c : Int → Int → Prop) [∀ i j, Decidable (c i j)]
    (f : Int → Int → α → α) (a H : Nat) (g : Grid α) :
    forRange a g (fun g i => forRange H g
        (fun g j => if c i j then g.set j i (f i j (g j i)) else g))
      = fun y x => if (0 ≤ x ∧ x < (a : Int)) ∧ 0 ≤ y ∧ y < (H : Int) ∧ c x y
          then f x y (g y x) else g y x := by
  induction a with
  | zero =>
    funext y x
    have : ¬ ((0 ≤ x ∧ x < ((0 : Nat) : Int)) ∧ 0 ≤ y ∧ y < (H : Int) ∧ c x y) := by
      rintro ⟨⟨h1, h2⟩, _⟩; omega
    rw [forRange_zero, if_neg this]
  | succ a ih =>
    rw [forRange_succ, ih, column_set]
    funext y x
    by_cases hx : x = (a : Int)
    · subst hx
      have h1 : ¬ ((a : Int) < (a : Int)) := lt_irrefl _
      have h2 : (0 : Int) ≤ (a : Int) ∧ (a : Int) < ((a + 1 : Nat) : Int) := by
        push_cast; omega
      simp [h2]
    · have h1 : (x < ((a + 1 : Nat) : Int)) ↔ x < (a : Int) := by push_cast; omega
      simp only [h1]
      simp [hx]

theorem Grid.set_set {α : Type} (g : Grid α) (j i : Int) (v w : α) :
    (g.set j i v).set j i w = g.set j i w := by
  funext y x
  simp only [Grid.set]
  split <;> rfl

theorem Grid.set_self {α : Type} (g : Grid α) (j i : Int) : g.set j i (g j i) = g := by
  funext y x
  simp only [Grid.set]
  split
  · next h => rw [h.1, h.2]
  · rfl

/-- One column of a nest that rewrites each selected cell from its own value and
adds the written value to a running sum. -/
theorem column_set_sum (c : Int → Int → Prop) [∀ i j, Decidable (c i j)]
    (f : Int → Int → ℚ → ℚ) (i : Int) (b : Nat) (st : Grid ℚ × ℚ) :
    forRange b st (fun st j =>
        if c i j then (st.1.set j i (f i j (st.1 j i)), st.2 + f i j (st.1 j i)) else st)
      = (fun y x => if x = i ∧ 0 ≤ y ∧ y < (b : Int) ∧ c i y then f i y (st.1 y x) else st.1 y x,
         st.2 + ∑ j in Finset.range b, if c i j then f i j (st.1 j i) else 0) := by
  induction b with
  | zero =>
    rw [forRange_zero]
    refine Prod.ext ?_ (by simp)
    funext y x
    have : ¬ (x = i ∧ 0 ≤ y ∧ y < ((0 : Nat) : Int) ∧ c i y) := by
      rintro ⟨_, h1, h2, _⟩; omega
    simp only [if_neg this]
  | succ b ih =>
    rw [forRange_succ, ih]
    have hb : ¬ ((b : Int) < (b : Int)) := lt_irrefl _
    by_cases hc : c i (b : Int)
    · simp only [hc, if_true]
      refine Prod.ext ?_ ?_
      · funext y x
        by_cases hy : y = (b : Int)
        · subst hy
          by_cases hx : x = i
          · subst hx
            have : (b : Int) < ((b + 1 : Nat) : Int) := by push_cast; omega
            simp [hc, Grid.set, this]
          · simp [Grid.set, hx]
        · have h1 : (y < ((b + 1 : Nat) : Int)) ↔ y < (b : Int) := by push_cast; omega
          simp only [h1]
          simp [Grid.set, hy]
      · simp [Finset.sum_range_succ, hc, add_assoc]
    · simp only [hc, if_false]
      refine Prod.ext ?_ ?_
      · funext y x
        by_cases hy : y = (b : Int)
        · subst hy; simp [hc]
        · have h1 : (y < ((b + 1 : Nat) : Int)) ↔ y < (b : Int) := by push_cast; omega
          simp only [h1]
      · simp [Finset.sum_range_succ, hc]

/-- A loop nest that rewrites each selected cell of the map from its own value
and adds the written value to a running sum. -/
theorem nest_set_sum (c : Int → Int → Prop) [∀ i j, Decidable (c i j)]
    (f : Int → Int → ℚ → ℚ) (a H : Nat) (st : Grid ℚ × ℚ) :
    forRange a st (fun st i => forRange H st (fun st j =>
        if c i j then (st.1.set j i (f i j (st.1 j i)), st.2 + f i j (st.1 j i)) else st))
      = (fun y x => if (0 ≤ x ∧ x < (a : Int)) ∧ 0 ≤ y ∧ y < (H : Int) ∧ c x y
            then f x y (st.1 y x) else st.1 y x,
         st.2 + ∑ i in Finset.range a, ∑ j in Finset.range H,
            if c i j then f i j (st.1 j i) else 0) := by
  induction a with
  | zero =>
    rw [forRange_zero]
    refine Prod.ext ?_ (by simp)
    funext y x
    have : ¬ ((0 ≤ x ∧ x < ((0 : Nat) : Int)) ∧ 0 ≤ y ∧ y < (H : Int) ∧ c x y) := by
      rintro ⟨⟨h1, h2⟩, _⟩; omega
    simp only [if_neg this]
  | succ a ih =>
    rw [forRange_succ, ih, column_set_sum]
    have ha : ¬ ((a : Int) < (a : Int)) := lt_irrefl _
    refine Prod.ext ?_ ?_
    · funext y x
      by_cases hx : x = (a : Int)
      · subst hx
        have h2 : (0 : Int) ≤ (a : Int) ∧ (a : Int) < ((a + 1 : Nat) : Int) := by
          push_cast; omega
        simp [h2]
      · have h1 : (x < ((a + 1 : Nat) : Int)) ↔ x < (a : Int) := by push_cast; omega
        simp only [h1]
        simp [hx]
    · simp [Finset.sum_range_succ, add_assoc]

/-- A loop that keeps adding to one fixed cell. -/
theorem accumulate_cell (t : Int → ℚ) (j i : Int) (n : Nat) (g : Grid ℚ) :
    forRange n g (fun g k => g.set j i (g j i + t k))
      = g.set j i (g j i + ∑ k in Finset.range n, t k) := by
  induction n with
  | zero => simp [forRange_zero, Grid.set_self]
  | succ n ih =>
    rw [forRange_succ, ih, Grid.set_set, Grid.set_same, Finset.sum_range_succ, add_assoc]

/-- A loop nest that keeps adding to one fixed cell. -/
theorem nest_accumulate_cell (t : Int → Int → ℚ) (j i : Int) (a H : Nat) (g : Grid ℚ) :
    forRange a g (fun g k => forRange H g (fun g l => g.set j i (g j i + t k l)))
      = g.set j i (g j i + ∑ k in Finset.range a, ∑ l in Finset.range H, t k l) := by
  induction a with
  | zero => simp [forRange_zero, Grid.set_self]
  | succ a ih =>
    rw [forRange_succ, ih, accumulate_cell, Grid.set_set, Grid.set_same,
      Finset.sum_range_succ, add_assoc]

/-- A walk over a list that adds a value to the cell each element points at. -/
theorem scatter_add {β : Type} (xOf yOf : β → Int) (vOf : β → ℚ) (l : List β) (g : Grid ℚ) :
    l.foldl (fun g it => g.set (yOf it) (xOf it) (g (yOf it) (xOf it) + vOf it)) g
      = fun y x => g y x + (l.map (fun it => if yOf it = y ∧ xOf it = x then vOf it else 0)).sum := by
  induction l generalizing g with
  | nil => simp
  | cons it l ih =>
    rw [List.foldl_cons, ih]
    funext y x
    simp only [List.map_cons, List.sum_cons, Grid.set]
    by_cases h : y = yOf it ∧ x = xOf it
    · obtain ⟨h1, h2⟩ := h
      subst h1; subst h2
      simp [add_assoc]
    · have h' : ¬ (yOf it = y ∧ xOf it = x) := fun ⟨h1, h2⟩ => h ⟨h1.symm, h2.symm⟩
      simp [h, h']

/-- A loop nest whose body adds a grid of contributions to the current grid. -/
theorem nest_add (K : Int → Int → Grid ℚ) (body : Grid ℚ → Int → Int → Grid ℚ)
    (h : ∀ g i j, body g i j = fun y x => g y x + K i j y x) (a H : Nat) (g : Grid ℚ) :
    forRange a g (fun g i => forRange H g (fun g j => body g i j))
      = fun y x => g y x + ∑ i in Finset.range a, ∑ j in Finset.range H, K i j y x := by
  have col : ∀ (i : Int) (b : Nat) (g : Grid ℚ),
      forRange b g (fun g j => body g i j)
        = fun y x => g y x + ∑ j in Finset.range b, K i j y x := by
    intro i b g
    induction b with
    | zero => simp [forRange_zero]
    | succ b ih =>
      rw [forRange_succ, ih, h]
      funext y x
      simp [Finset.sum_range_succ, add_assoc]
  induction a with
  | zero => simp [forRange_zero]
  | succ a ih =>
    rw [forRange_succ, ih, col]
    funext y x
    simp [Finset.sum_range_succ, add_assoc]

/-! ## Closed forms of the observation updates -/

theorem observePacmanPosterior_eq (lik : Likelihood) (s : State) (mx my : ℚ) :
    observePacmanPosterior lik s mx my
      = (fun y x => if isTraversable s x y
            then lik x y mx my SD_PACMAN_MEASUREMENT * s.pacman_pose_map_ y x else 0,
         sumNonWall s (fun y x => lik x y mx my SD_PACMAN_MEASUREMENT * s.pacman_pose_map_ y x)) := by
  unfold observePacmanPosterior
  simp only [Grid.set_same]
  have h := nest_set_sum (fun i j => s.map_ j i ≠ WALL)
    (fun i j _ => lik i j mx my SD_PACMAN_MEASUREMENT * s.pacman_pose_map_ j i)
    s.width_ s.height_ (zeroGrid, (0 : ℚ))
  rw [h]
  simp [isTraversable, sumNonWall, zeroGrid]

theorem normalizeOrRedistribute_eq (s : State) (g : Grid ℚ) (sum : ℚ) :
    normalizeOrRedistribute s g sum
      = fun y x => if isTraversable s x y
          then (if sum ≠ 0 then g y x / sum else 1 / (((s.height_ * s.width_ : Nat) : ℚ)))
          else g y x := by
  unfold normalizeOrRedistribute
  have h := nest_set (fun i j => s.map_ j i ≠ WALL)
    (fun _ _ v => if sum ≠ 0 then v / sum else 1 / (((s.height_ * s.width_ : Nat) : ℚ)))
    s.width_ s.height_ g
  have e : (fun (g : Grid ℚ) (i : Int) => forRange s.height_ g fun g j =>
        if s.map_ j i ≠ WALL then
          if sum ≠ 0 then g.set j i (g j i / sum)
          else g.set j i (1 / (((s.height_ * s.width_ : Nat) : ℚ)))
        else g)
      = (fun (g : Grid ℚ) (i : Int) => forRange s.height_ g fun g j =>
        if s.map_ j i ≠ WALL then
          g.set j i (if sum ≠ 0 then g j i / sum else 1 / (((s.height_ * s.width_ : Nat) : ℚ)))
        else g) := by
    funext g i
    congr 1
    funext g j
    by_cases h0 : sum = 0 <;> simp [h0]
  rw [e, h]
  rfl

theorem observeGhostPosterior_eq (lik : Likelihood) (s : State) (mx my : ℚ) (k : Nat) :
    observeGhostPosterior lik s mx my k
      = (fun y x => if isTraversable s x y then ghostPosteriorAllCells lik s mx my k x y else 0,
         sumNonWall s (fun y x => ghostPosteriorAllCells lik s mx my k x y)) := by
  unfold observeGhostPosterior
  simp only [nest_accumulate_cell, Grid.set_same]
  have h := nest_set_sum (fun i j => s.map_ j i ≠ WALL)
    (fun i j v => v + ghostPosteriorAllCells lik s mx my k i j)
    s.width_ s.height_ (zeroGrid, (0 : ℚ))
  simp only [ghostPosteriorAllCells] at h ⊢
  rw [h]
  simp [isTraversable, sumNonWall, zeroGrid]

/-! ## Observation updates: normalisation -/

theorem revealMeasuredCell_wall (s : State) (mx my : ℚ) (y x : Int) :
    revealMeasuredCell s mx my y x = WALL ↔ s.map_ y x = WALL := by
  unfold revealMeasuredCell
  split
  · next h =>
    simp only [Grid.set]
    split
    · next h2 =>
      obtain ⟨h3, h4⟩ := h2
      subst h3; subst h4
      simp [h.2.2.2.2]
    · rfl
  · rfl

theorem sumNonWall_congr (s t : State) (g : Grid ℚ) (hw : t.width_ = s.width_)
    (hh : t.height_ = s.height_) (hm : ∀ y x, t.map_ y x = WALL ↔ s.map_ y x = WALL) :
    sumNonWall t g = sumNonWall s g := by
  unfold sumNonWall
  rw [hw, hh]
  refine Finset.sum_congr rfl fun i _ => Finset.sum_congr rfl fun j _ => ?_
  simp only [ne_eq, hm]

theorem sumNonWall_traversable (s : State) (f h : Grid ℚ)
    (e : ∀ x y, isTraversable s x y → f y x = h y x) : sumNonWall s f = sumNonWall s h := by
  unfold sumNonWall
  refine Finset.sum_congr rfl fun i hi => Finset.sum_congr rfl fun j hj => ?_
  by_cases hw : s.map_ j i = WALL
  · simp [hw]
  · have ht : isTraversable s i j := by
      refine ⟨⟨by omega, ?_⟩, by omega, ?_, hw⟩
      · exact_mod_cast Finset.mem_range.mp hi
      · exact_mod_cast Finset.mem_range.mp hj
    simp [hw, e i j ht]

theorem sumNonWall_div (s : State) (g : Grid ℚ) (c : ℚ) :
    sumNonWall s (fun y x => g y x / c) = sumNonWall s g / c := by
  unfold sumNonWall
  rw [Finset.sum_div]
  refine Finset.sum_congr rfl fun i _ => ?_
  rw [Finset.sum_div]
  refine Finset.sum_congr rfl fun j _ => ?_
  split <;> simp

/-- Normalising a grid that vanishes off the traversable cells by its non-zero
sum over the non-WALL cells leaves a grid that sums to 1 there and vanishes on
WALL cells. -/
theorem normalize_sum_one (s : State) (u : Grid ℚ) (hS : sumNonWall s u ≠ 0) :
    sumNonWall s (normalizeOrRedistribute s
        (fun y x => if isTraversable s x y then u y x else 0) (sumNonWall s u)) = 1 ∧
    ∀ x y, s.map_ y x = WALL → normalizeOrRedistribute s
        (fun y x => if isTraversable s x y then u y x else 0) (sumNonWall s u) y x = 0 := by
  rw [normalizeOrRedistribute_eq]
  constructor
  · rw [sumNonWall_traversable s _ (fun y x => u y x / sumNonWall s u), sumNonWall_div,
      div_self hS]
    intro x y ht
    simp [ht, hS]
  · intro x y hw
    have : ¬ isTraversable s x y := fun ht => ht.2.2.2 hw
    simp [this]

/-- C1. Whenever the unnormalised posterior sum of `observePacman` (resp.
`observeGhost`) is non-zero, the belief grid stored by the call sums to 1 over
the non-WALL cells and is 0 at every WALL cell, for an arbitrary prior. -/
theorem C1_observe_stores_normalised_belief (lik : Likelihood) (s : State) (mx my : ℚ)
    (k : Nat) :
    ((observePacmanPosterior lik s mx my).2 ≠ 0 →
      sumNonWall (observePacman lik s mx my) (observePacman lik s mx my).pacman_pose_map_ = 1 ∧
      ∀ x y, (observePacman lik s mx my).map_ y x = WALL →
        (observePacman lik s mx my).pacman_pose_map_ y x = 0) ∧
    ((observeGhostPosterior lik s mx my k).2 ≠ 0 →
      sumNonWall (observeGhost lik s mx my k) ((observeGhost lik s mx my k).ghosts_poses_map_ k) = 1 ∧
      ∀ x y, (observeGhost lik s mx my k).map_ y x = WALL →
        (observeGhost lik s mx my k).ghosts_poses_map_ k y x = 0) := by
  constructor
  · intro hS
    rw [observePacmanPosterior_eq] at hS
    have hn := normalize_sum_one s
      (fun y x => lik x y mx my SD_PACMAN_MEASUREMENT * s.pacman_pose_map_ y x) hS
    have e : sumNonWall (observePacman lik s mx my) (observePacman lik s mx my).pacman_pose_map_
        = sumNonWall s (observePacman lik s mx my).pacman_pose_map_ :=
      sumNonWall_congr s _ _ rfl rfl (fun y x => revealMeasuredCell_wall s mx my y x)
    rw [e]
    simp only [observePacman, observePacmanPosterior_eq]
    refine ⟨hn.1, fun x y hw => hn.2 x y ?_⟩
    exact (revealMeasuredCell_wall s mx my y x).mp hw
  · intro hS
    rw [observeGhostPosterior_eq] at hS
    have hn := normalize_sum_one s (fun y x => ghostPosteriorAllCells lik s mx my k x y) hS
    have e : sumNonWall (observeGhost lik s mx my k) ((observeGhost lik s mx my k).ghosts_poses_map_ k)
        = sumNonWall s ((observeGhost lik s mx my k).ghosts_poses_map_ k) :=
      sumNonWall_congr s _ _ rfl rfl (fun y x => Iff.rfl)
    rw [e]
    simp only [observeGhost, observeGhostPosterior_eq, Function.update_same]
    exact ⟨hn.1, fun x y hw => hn.2 x y hw⟩


/-- Witness of C1 on the map `wallAndTwoCells` with a measurement at `(1, 0)`:
both unnormalised sums are non-zero and the stored grids are normalised. -/
theorem C1_observe_stores_normalised_belief_witness :
    (observePacmanPosterior exampleLikelihood wallAndTwoCells 1 0).2 ≠ 0 ∧
    (observeGhostPosterior exampleLikelihood wallAndTwoCells 1 0 0).2 ≠ 0 ∧
    sumNonWall (observePacman exampleLikelihood wallAndTwoCells 1 0)
      (observePacman exampleLikelihood wallAndTwoCells 1 0).pacman_pose_map_ = 1 ∧
    sumNonWall (observeGhost exampleLikelihood wallAndTwoCells 1 0 0)
      ((observeGhost exampleLikelihood wallAndTwoCells 1 0 0).ghosts_poses_map_ 0) = 1 := by
  have hp : (observePacmanPosterior exampleLikelihood wallAndTwoCells 1 0).2 ≠ 0 := by
    rw [observePacmanPosterior_eq]
    simp [sumNonWall, Finset.sum_range_succ, wallAndTwoCells, rowGrid, exampleLikelihood,
      SD_PACMAN_MEASUREMENT]
    norm_num
  have hg : (observeGhostPosterior exampleLikelihood wallAndTwoCells 1 0 0).2 ≠ 0 := by
    rw [observeGhostPosterior_eq]
    simp [sumNonWall, ghostPosteriorAllCells, Finset.sum_range_succ, wallAndTwoCells, rowGrid,
      exampleLikelihood, SD_GHOST_DIST_MEASUREMENT]
    norm_num
  exact ⟨hp, hg,
    ((C1_observe_stores_normalised_belief exampleLikelihood wallAndTwoCells 1 0 0).1 hp).1,
    ((C1_observe_stores_normalised_belief exampleLikelihood wallAndTwoCells 1 0 0).2 hg).1⟩

/-! ## Observation updates: the stored values -/

/-- The sum over every cell of the map equals the sum over the non-WALL cells
for a grid that is 0 at the WALL cells of the map. -/
theorem sum_all_eq_sumNonWall (s : State) (g : Grid ℚ)
    (h0 : ∀ x y, inBounds s x y → s.map_ y x = WALL → g y x = 0) :
    (∑ i in Finset.range s.width_, ∑ j in Finset.range s.height_, g j i) = sumNonWall s g := by
  unfold sumNonWall
  refine Finset.sum_congr rfl fun i hi => Finset.sum_congr rfl fun j hj => ?_
  by_cases hw : s.map_ j i = WALL
  · have hb : inBounds s i j := by
      refine ⟨by omega, ?_, by omega, ?_⟩
      · exact_mod_cast Finset.mem_range.mp hi
      · exact_mod_cast Finset.mem_range.mp hj
    simp [hw, h0 i j hb hw]
  · simp [hw]

/-- The value `observeGhost` accumulates at a cell equals the specified value
when the belief of pacman is 0 at the WALL cells of the map. -/
theorem ghostPosteriorAllCells_eq_nonWall (lik : Likelihood) (s : State) (mx my : ℚ) (k : Nat)
    (hwall : ∀ x y, inBounds s x y → s.map_ y x = WALL → s.pacman_pose_map_ y x = 0)
    (x y : Int) :
    ghostPosteriorAllCells lik s mx my k x y = ghostPosteriorNonWall lik s mx my k x y := by
  unfold ghostPosteriorAllCells ghostPosteriorNonWall
  rw [← sum_all_eq_sumNonWall s _ (fun px py hb hw => by simp [hwall px py hb hw]),
    Finset.mul_sum]
  refine Finset.sum_congr rfl fun i _ => ?_
  rw [Finset.mul_sum]
  refine Finset.sum_congr rfl fun j _ => ?_
  ring

/-- Counterexample to C4 as stated: on `wallAndTwoCellsMassOnWall`, where half
of the belief of pacman sits on the WALL cell, both normalisers are non-zero,
the code stores `1/2` at the non-WALL cell `(1, 0)` and the specified
normalised value there is `1/6`, so the two differ. -/
theorem C4_observeGhost_counts_wall_cells :
    (observeGhostPosterior exampleLikelihood wallAndTwoCellsMassOnWall 1 0 0).2 ≠ 0 ∧
    sumNonWall wallAndTwoCellsMassOnWall
      (fun y x => ghostPosteriorNonWall exampleLikelihood wallAndTwoCellsMassOnWall 1 0 0 x y) ≠ 0 ∧
    isTraversable wallAndTwoCellsMassOnWall 1 0 ∧
    (observeGhost exampleLikelihood wallAndTwoCellsMassOnWall 1 0 0).ghosts_poses_map_ 0 0 1
      = 1 / 2 ∧
    ghostPosteriorNonWall exampleLikelihood wallAndTwoCellsMassOnWall 1 0 0 1 0
      / sumNonWall wallAndTwoCellsMassOnWall
          (fun y x => ghostPosteriorNonWall exampleLikelihood wallAndTwoCellsMassOnWall 1 0 0 x y)
      = 1 / 6 ∧
    (observeGhost exampleLikelihood wallAndTwoCellsMassOnWall 1 0 0).ghosts_poses_map_ 0 0 1
      ≠ ghostPosteriorNonWall exampleLikelihood wallAndTwoCellsMassOnWall 1 0 0 1 0
        / sumNonWall wallAndTwoCellsMassOnWall
            (fun y x =>
              ghostPosteriorNonWall exampleLikelihood wallAndTwoCellsMassOnWall 1 0 0 x y) := by
  have hcode : (observeGhost exampleLikelihood wallAndTwoCellsMassOnWall 1 0 0).ghosts_poses_map_
      0 0 1 = 1 / 2 := by
    simp only [observeGhost, observeGhostPosterior_eq, normalizeOrRedistribute_eq,
      Function.update_same]
    simp [isTraversable, sumNonWall, ghostPosteriorAllCells, Finset.sum_range_succ,
      wallAndTwoCellsMassOnWall, wallAndTwoCells, rowGrid, exampleLikelihood,
      SD_GHOST_DIST_MEASUREMENT]
    norm_num
  have hspec : ghostPosteriorNonWall exampleLikelihood wallAndTwoCellsMassOnWall 1 0 0 1 0
      / sumNonWall wallAndTwoCellsMassOnWall
          (fun y x => ghostPosteriorNonWall exampleLikelihood wallAndTwoCellsMassOnWall 1 0 0 x y)
      = 1 / 6 := by
    simp [sumNonWall, ghostPosteriorNonWall, Finset.sum_range_succ, wallAndTwoCellsMassOnWall,
      wallAndTwoCells, rowGrid, exampleLikelihood, SD_GHOST_DIST_MEASUREMENT]
    norm_num
  refine ⟨?_, ?_, ?_, hcode, hspec, by rw [hcode, hspec]; norm_num⟩
  · rw [observeGhostPosterior_eq]
    simp [sumNonWall, ghostPosteriorAllCells, Finset.sum_range_succ, wallAndTwoCellsMassOnWall,
      wallAndTwoCells, rowGrid, exampleLikelihood, SD_GHOST_DIST_MEASUREMENT]
    norm_num
  · simp [sumNonWall, ghostPosteriorNonWall, Finset.sum_range_succ, wallAndTwoCellsMassOnWall,
      wallAndTwoCells, rowGrid, exampleLikelihood, SD_GHOST_DIST_MEASUREMENT]
    norm_num
  · simp [isTraversable, wallAndTwoCellsMassOnWall, wallAndTwoCells, rowGrid]


/-! ## Observation updates: the degenerate case -/

/-- When the unnormalised sum is zero, the second loop nest stores
`1 / (height_ * width_)` at every non-WALL cell of the map. -/
theorem normalizeOrRedistribute_zero (s : State) (g : Grid ℚ) (x y : Int)
    (hc : isTraversable s x y) :
    normalizeOrRedistribute s g 0 y x = 1 / (((s.height_ * s.width_ : Nat) : ℚ)) := by
  rw [normalizeOrRedistribute_eq]
  simp [hc]

/-- C5 (the code at a failing input). On the map `wallAndTwoCells`, which has
two non-WALL cells out of three, a likelihood that is zero everywhere makes
both unnormalised sums zero; `observePacman` and `observeGhost` then store
`1/3` at the non-WALL cells, not `1/2` (one over the number of non-WALL
cells), and the stored grids sum to `2/3` over the non-WALL cells, not to 1. -/
theorem C5_redistribution_divides_by_all_cells :
    countNonWall wallAndTwoCells = 2 ∧
    (observePacmanPosterior zeroLikelihood wallAndTwoCells 1 0).2 = 0 ∧
    (observeGhostPosterior zeroLikelihood wallAndTwoCells 1 0 0).2 = 0 ∧
    (observePacman zeroLikelihood wallAndTwoCells 1 0).pacman_pose_map_ 0 1 = 1 / 3 ∧
    (observePacman zeroLikelihood wallAndTwoCells 1 0).pacman_pose_map_ 0 2 = 1 / 3 ∧
    (observeGhost zeroLikelihood wallAndTwoCells 1 0 0).ghosts_poses_map_ 0 0 1 = 1 / 3 ∧
    (observeGhost zeroLikelihood wallAndTwoCells 1 0 0).ghosts_poses_map_ 0 0 2 = 1 / 3 ∧
    sumNonWall wallAndTwoCells
      (observePacman zeroLikelihood wallAndTwoCells 1 0).pacman_pose_map_ = 2 / 3 ∧
    sumNonWall wallAndTwoCells
      ((observeGhost zeroLikelihood wallAndTwoCells 1 0 0).ghosts_poses_map_ 0) = 2 / 3 ∧
    (observePacman zeroLikelihood wallAndTwoCells 1 0).pacman_pose_map_ 0 1
      ≠ 1 / (countNonWall wallAndTwoCells : ℚ) ∧
    (observeGhost zeroLikelihood wallAndTwoCells 1 0 0).ghosts_poses_map_ 0 0 1
      ≠ 1 / (countNonWall wallAndTwoCells : ℚ) := by
  have hp : observePacmanPosterior zeroLikelihood wallAndTwoCells 1 0 = (zeroGrid, 0) := by
    rw [observePacmanPosterior_eq]
    refine Prod.ext ?_ ?_
    · funext y x
      simp [zeroLikelihood, zeroGrid]
    · simp [sumNonWall, zeroLikelihood]
  have hg : observeGhostPosterior zeroLikelihood wallAndTwoCells 1 0 0 = (zeroGrid, 0) := by
    rw [observeGhostPosterior_eq]
    refine Prod.ext ?_ ?_
    · funext y x
      simp [ghostPosteriorAllCells, zeroLikelihood, zeroGrid]
    · simp [sumNonWall, ghostPosteriorAllCells, zeroLikelihood]
  have h1 : isTraversable wallAndTwoCells 1 0 := by
    simp [isTraversable, wallAndTwoCells, rowGrid]
  have h2 : isTraversable wallAndTwoCells 2 0 := by
    simp [isTraversable, wallAndTwoCells, rowGrid]
  have hv : (1 : ℚ) / (((wallAndTwoCells.height_ * wallAndTwoCells.width_ : Nat) : ℚ)) = 1 / 3 := by
    simp [wallAndTwoCells]
  have e1 := normalizeOrRedistribute_zero wallAndTwoCells zeroGrid 1 0 h1
  have e2 := normalizeOrRedistribute_zero wallAndTwoCells zeroGrid 2 0 h2
  rw [hv] at e1 e2
  have hcount : countNonWall wallAndTwoCells = 2 := by decide
  refine ⟨hcount, ?_, ?_, ?_, ?_, ?_, ?_, ?_, ?_, ?_, ?_⟩
  · rw [hp]
  · rw [hg]
  · simp only [observePacman, hp]; exact e1
  · simp only [observePacman, hp]; exact e2
  · simp only [observeGhost, hg, Function.update_same]; exact e1
  · simp only [observeGhost, hg, Function.update_same]; exact e2
  · simp only [observePacman, hp]
    have : sumNonWall wallAndTwoCells (normalizeOrRedistribute wallAndTwoCells zeroGrid 0)
        = normalizeOrRedistribute wallAndTwoCells zeroGrid 0 0 1
          + normalizeOrRedistribute wallAndTwoCells zeroGrid 0 0 2 := by
      simp [sumNonWall, Finset.sum_range_succ, wallAndTwoCells, rowGrid]
    rw [this, e1, e2]; norm_num
  · simp only [observeGhost, hg, Function.update_same]
    have : sumNonWall wallAndTwoCells (normalizeOrRedistribute wallAndTwoCells zeroGrid 0)
        = normalizeOrRedistribute wallAndTwoCells zeroGrid 0 0 1
          + normalizeOrRedistribute wallAndTwoCells zeroGrid 0 0 2 := by
      simp [sumNonWall, Finset.sum_range_succ, wallAndTwoCells, rowGrid]
    rw [this, e1, e2]; norm_num
  · simp only [observePacman, hp]
    rw [e1, hcount]; norm_num
  · simp only [observeGhost, hg, Function.update_same]
    rw [e1, hcount]; norm_num


/-! ## Closed forms of the transition updates -/

theorem foldl_reverse_scatter (l : List (ℚ × Cell)) (p : ℚ) (g : Grid ℚ) :
    l.reverse.foldl (fun g it => g.set it.2.2 it.2.1 (g it.2.2 it.2.1 + it.1 * p)) g
      = fun y x => g y x + massSentTo l p x y := by
  rw [scatter_add (fun it : ℚ × Cell => it.2.1) (fun it => it.2.2) (fun it => it.1 * p)]
  funext y x
  simp only [massSentTo, List.map_reverse, List.sum_reverse]

theorem predictPacmanPose_eq {Action : Type} (nextPositions : ActionModel Action) (s : State)
    (action : Action) :
    predictPacmanPose nextPositions s action
      = fun y x => ∑ i in Finset.range s.width_, ∑ j in Finset.range s.height_,
          if s.map_ j i ≠ WALL
            then massSentTo (nextPositions i j action) (s.pacman_pose_map_ j i) x y else 0 := by
  unfold predictPacmanPose
  have h := nest_add
    (fun i j y x => if s.map_ j i ≠ WALL
      then massSentTo (nextPositions i j action) (s.pacman_pose_map_ j i) x y else 0)
    (fun g i j => if s.map_ j i ≠ WALL then
        (nextPositions i j action).reverse.foldl
          (fun g it => g.set it.2.2 it.2.1 (g it.2.2 it.2.1 + it.1 * s.pacman_pose_map_ j i)) g
      else g)
    (by
      intro g i j
      by_cases hw : s.map_ j i = WALL
      · simp [hw]
      · simp only [ne_eq, hw, not_false_eq_true, if_true]
        exact foldl_reverse_scatter _ _ _)
    s.width_ s.height_ zeroGrid
  refine h.trans ?_
  funext y x
  simp [zeroGrid]

theorem predictFoods_eq (s : State) (g : Grid ℚ) :
    predictFoods s g
      = fun y x => if isTraversable s x y then s.foods_map_ y x * (1 - g y x) else 0 := by
  unfold predictFoods
  exact nest_set (fun i j => s.map_ j i ≠ WALL)
    (fun i j _ => s.foods_map_ j i * (1 - g j i)) s.width_ s.height_ zeroGrid

theorem predictGhostPose_eq (legal : LegalModel) (s : State) (k : Nat) :
    predictGhostPose legal s k
      = fun y x => ∑ i in Finset.range s.width_, ∑ j in Finset.range s.height_,
          if s.map_ j i ≠ WALL
            then massSentTo (ghostMoves legal i j) (s.ghosts_poses_map_ k j i) x y else 0 := by
  unfold predictGhostPose
  have h := nest_add
    (fun i j y x => if s.map_ j i ≠ WALL
      then massSentTo (ghostMoves legal i j) (s.ghosts_poses_map_ k j i) x y else 0)
    (fun g i j => if s.map_ j i ≠ WALL then
        (legal i j).reverse.foldl
          (fun g it => g.set it.2 it.1 (g it.2 it.1
            + (1 - STOP_PROBABILITY) / ((legal i j).length : ℚ) * s.ghosts_poses_map_ k j i))
          (g.set j i (g j i + STOP_PROBABILITY * s.ghosts_poses_map_ k j i))
      else g)
    (by
      intro g i j
      by_cases hw : s.map_ j i = WALL
      · simp [hw]
      · simp only [ne_eq, hw, not_false_eq_true, if_true]
        rw [scatter_add (fun it : Cell => it.1) (fun it => it.2)
          (fun _ => (1 - STOP_PROBABILITY) / ((legal i j).length : ℚ) * s.ghosts_poses_map_ k j i)]
        funext y x
        simp only [massSentTo, ghostMoves, List.map_reverse, List.sum_reverse, List.map_cons,
          List.sum_cons, List.map_map, Grid.set]
        by_cases hyx : y = j ∧ x = i
        · obtain ⟨h1, h2⟩ := hyx
          subst h1; subst h2
          simp [add_assoc, Function.comp_def]
        · have h' : ¬ (j = y ∧ i = x) := fun ⟨h1, h2⟩ => hyx ⟨h1.symm, h2.symm⟩
          simp [hyx, h', Function.comp_def])
    s.width_ s.height_ zeroGrid
  refine h.trans ?_
  funext y x
  simp [zeroGrid]


/-! ## Conservation of mass by a push-forward -/

theorem sumNonWall_zero (s : State) : sumNonWall s (fun _ _ => 0) = 0 := by
  simp [sumNonWall]

theorem sumNonWall_add (s : State) (f g : Grid ℚ) :
    sumNonWall s (fun y x => f y x + g y x) = sumNonWall s f + sumNonWall s g := by
  unfold sumNonWall
  rw [← Finset.sum_add_distrib]
  refine Finset.sum_congr rfl fun i _ => ?_
  rw [← Finset.sum_add_distrib]
  refine Finset.sum_congr rfl fun j _ => ?_
  split <;> simp

theorem sumNonWall_range_sum (s : State) (n : Nat) (f : Nat → Grid ℚ) :
    sumNonWall s (fun y x => ∑ i in Finset.range n, f i y x)
      = ∑ i in Finset.range n, sumNonWall s (f i) := by
  induction n with
  | zero => simp [sumNonWall_zero]
  | succ n ih =>
    simp only [Finset.sum_range_succ]
    rw [sumNonWall_add, ih]

/-- The sum over the non-WALL cells of a grid that is `v` at one non-WALL cell
of the map and 0 elsewhere. -/
theorem sumNonWall_single (s : State) (x0 y0 : Int) (v : ℚ) (h : isTraversable s x0 y0) :
    sumNonWall s (fun y x => if y0 = y ∧ x0 = x then v else 0) = v := by
  obtain ⟨⟨hx0, hx1⟩, hy0, hy1, hw⟩ := h
  unfold sumNonWall
  have ex : ((x0.toNat : Nat) : Int) = x0 := Int.toNat_of_nonneg hx0
  have ey : ((y0.toNat : Nat) : Int) = y0 := Int.toNat_of_nonneg hy0
  rw [Finset.sum_eq_single x0.toNat]
  · rw [Finset.sum_eq_single y0.toNat]
    · simp [ex, ey, hw]
    · intro j _ hj
      have : ¬ (y0 = (j : Int)) := fun e => hj (by omega)
      simp [this]
    · intro hj
      exact absurd (Finset.mem_range.mpr (by omega)) hj
  · intro i _ hi
    have : ¬ (x0 = (i : Int)) := fun e => hi (by omega)
    simp [this]
  · intro hi
    exact absurd (Finset.mem_range.mpr (by omega)) hi

/-- The mass a list of moves sends to the non-WALL cells of the map is all of
the mass it sends, when every destination is a non-WALL cell of the map. -/
theorem sumNonWall_massSentTo (s : State) (l : List (ℚ × Cell)) (p : ℚ)
    (hd : ∀ it ∈ l, isTraversable s it.2.1 it.2.2) :
    sumNonWall s (fun y x => massSentTo l p x y) = (l.map (fun it => it.1)).sum * p := by
  induction l with
  | nil => simp [massSentTo, sumNonWall_zero]
  | cons it l ih =>
    have e : (fun (y x : Int) => massSentTo (it :: l) p x y)
        = fun y x => (if it.2.2 = y ∧ it.2.1 = x then it.1 * p else 0) + massSentTo l p x y := by
      funext y x
      simp [massSentTo]
    rw [e, sumNonWall_add, sumNonWall_single s _ _ _ (hd it (List.mem_cons_self _ _)),
      ih (fun it' h' => hd it' (List.mem_cons_of_mem _ h'))]
    simp [add_mul]

/-- Total mass of a push-forward: when every move that starts at a non-WALL
cell of the map ends at one, the pushed-forward grid sums, over the non-WALL
cells, to the sum over the sources of their value times the total weight of
their moves. -/
theorem sumNonWall_pushForward (s : State) (moves : Int → Int → List (ℚ × Cell)) (old : Grid ℚ)
    (hd : ∀ i j, isTraversable s i j → ∀ it ∈ moves i j, isTraversable s it.2.1 it.2.2) :
    sumNonWall s (fun y x => ∑ i in Finset.range s.width_, ∑ j in Finset.range s.height_,
        if s.map_ j i ≠ WALL then massSentTo (moves i j) (old j i) x y else 0)
      = sumNonWall s (fun j i => ((moves i j).map (fun it => it.1)).sum * old j i) := by
  rw [sumNonWall_range_sum s s.width_
    (fun i y x => ∑ j in Finset.range s.height_,
      if s.map_ j i ≠ WALL then massSentTo (moves i j) (old j i) x y else 0)]
  conv_rhs => unfold sumNonWall
  refine Finset.sum_congr rfl fun i hi => ?_
  rw [sumNonWall_range_sum s s.height_
    (fun j y x => if s.map_ j i ≠ WALL then massSentTo (moves i j) (old j i) x y else 0)]
  refine Finset.sum_congr rfl fun j hj => ?_
  by_cases hw : s.map_ j i = WALL
  · simp [hw, sumNonWall_zero]
  · have ht : isTraversable s i j := by
      refine ⟨⟨by omega, ?_⟩, by omega, ?_, hw⟩
      · exact_mod_cast Finset.mem_range.mp hi
      · exact_mod_cast Finset.mem_range.mp hj
    simp only [ne_eq, hw, not_false_eq_true, if_true]
    exact sumNonWall_massSentTo s _ _ (hd i j ht)


/-! ## Transition of pacman -/

theorem massSentTo_zero (l : List (ℚ × Cell)) (x y : Int) : massSentTo l 0 x y = 0 := by
  simp [massSentTo]

/-- No mass is sent to a cell that is not among the destinations. -/
theorem massSentTo_of_not_dest (l : List (ℚ × Cell)) (p : ℚ) (x y : Int)
    (h : ∀ it ∈ l, it.2 ≠ (x, y)) : massSentTo l p x y = 0 := by
  unfold massSentTo
  apply List.sum_eq_zero
  intro v hv
  obtain ⟨it, hit, rfl⟩ := List.mem_map.mp hv
  have : ¬ (it.2.2 = y ∧ it.2.1 = x) := fun ⟨h1, h2⟩ => h it hit (Prod.ext h2 h1)
  simp [this]

/-- C6. Evader transition: for a prior that sums to 1 over the non-WALL cells
and is 0 on the WALL cells of the map, and an action model that gives every
non-WALL cell of the map moves whose probabilities sum to 1 and whose
destinations are non-WALL cells of the map, the belief after
`predictPacmanMove` is the push-forward `new[d] = Σ_c Σ_{(q, d)} q * old[c]`,
sums to 1 over the non-WALL cells and is 0 at every WALL cell. -/
theorem C6_predictPacmanMove_conserves_mass {Action : Type} (nextPositions : ActionModel Action)
    (s : State) (action : Action)
    (hsum : sumNonWall s s.pacman_pose_map_ = 1)
    (hwall : ∀ x y, inBounds s x y → s.map_ y x = WALL → s.pacman_pose_map_ y x = 0)
    (hmodel : ∀ i j, isTraversable s i j →
      ((nextPositions i j action).map (fun it => it.1)).sum = 1 ∧
      ∀ it ∈ nextPositions i j action, isTraversable s it.2.1 it.2.2) :
    (∀ x y, (predictPacmanMove nextPositions s action).pacman_pose_map_ y x
      = ∑ i in Finset.range s.width_, ∑ j in Finset.range s.height_,
          massSentTo (nextPositions i j action) (s.pacman_pose_map_ j i) x y) ∧
    sumNonWall (predictPacmanMove nextPositions s action)
      (predictPacmanMove nextPositions s action).pacman_pose_map_ = 1 ∧
    ∀ x y, (predictPacmanMove nextPositions s action).map_ y x = WALL →
      (predictPacmanMove nextPositions s action).pacman_pose_map_ y x = 0 := by
  have hpose : (predictPacmanMove nextPositions s action).pacman_pose_map_
      = predictPacmanPose nextPositions s action := rfl
  have hmap : (predictPacmanMove nextPositions s action).map_ = s.map_ := rfl
  have hS : sumNonWall (predictPacmanMove nextPositions s action)
      (predictPacmanPose nextPositions s action)
      = sumNonWall s (predictPacmanPose nextPositions s action) := rfl
  rw [hpose, hmap, hS]
  refine ⟨?_, ?_, ?_⟩
  · intro x y
    rw [predictPacmanPose_eq]
    refine Finset.sum_congr rfl fun i hi => Finset.sum_congr rfl fun j hj => ?_
    by_cases hw : s.map_ j i = WALL
    · have hb : inBounds s i j := by
        refine ⟨by omega, ?_, by omega, ?_⟩
        · exact_mod_cast Finset.mem_range.mp hi
        · exact_mod_cast Finset.mem_range.mp hj
      simp [hw, hwall i j hb hw, massSentTo_zero]
    · simp [hw]
  · rw [predictPacmanPose_eq,
      sumNonWall_pushForward s (fun i j => nextPositions i j action) s.pacman_pose_map_
        (fun i j ht => (hmodel i j ht).2),
      ← hsum]
    apply sumNonWall_traversable
    intro i j ht
    simp [(hmodel i j ht).1]
  · intro x y hw
    rw [predictPacmanPose_eq]
    apply Finset.sum_eq_zero
    intro i hi
    apply Finset.sum_eq_zero
    intro j hj
    by_cases hw' : s.map_ j i = WALL
    · simp [hw']
    · have ht : isTraversable s i j := by
        refine ⟨⟨by omega, ?_⟩, by omega, ?_, hw'⟩
        · exact_mod_cast Finset.mem_range.mp hi
        · exact_mod_cast Finset.mem_range.mp hj
      simp only [ne_eq, hw', not_false_eq_true, if_true]
      apply massSentTo_of_not_dest
      intro it hit e
      have := (hmodel i j ht).2 it hit
      rw [e] at this
      exact this.2.2.2 hw

theorem wallAndTwoCells_traversable (i j : Int) (h : isTraversable wallAndTwoCells i j) :
    (i = 1 ∨ i = 2) ∧ j = 0 := by
  obtain ⟨⟨h1, h2⟩, h3, h4, h5⟩ := h
  simp only [wallAndTwoCells] at h2 h4 h5
  have hj : j = 0 := by omega
  subst hj
  have hi : i = 0 ∨ i = 1 ∨ i = 2 := by omega
  rcases hi with rfl | rfl | rfl
  · simp [rowGrid] at h5
  · simp
  · simp

/-- Witness of C6 on `wallAndTwoCells` with `exampleActionModel`: the
hypotheses hold and the belief after the move sums to 1. -/
theorem C6_predictPacmanMove_conserves_mass_witness :
    sumNonWall wallAndTwoCells wallAndTwoCells.pacman_pose_map_ = 1 ∧
    (predictPacmanMove exampleActionModel wallAndTwoCells ()).pacman_pose_map_ 0 2 = 9 / 10 ∧
    sumNonWall (predictPacmanMove exampleActionModel wallAndTwoCells ())
      (predictPacmanMove exampleActionModel wallAndTwoCells ()).pacman_pose_map_ = 1 := by
  have hsum : sumNonWall wallAndTwoCells wallAndTwoCells.pacman_pose_map_ = 1 := by
    simp [sumNonWall, Finset.sum_range_succ, wallAndTwoCells, rowGrid]
    norm_num
  have hwall : ∀ x y, inBounds wallAndTwoCells x y → wallAndTwoCells.map_ y x = WALL →
      wallAndTwoCells.pacman_pose_map_ y x = 0 := by
    intro x y hb hw
    simp only [wallAndTwoCells, rowGrid] at hw ⊢
    split_ifs at hw ⊢ <;> simp_all
  have hmodel : ∀ i j, isTraversable wallAndTwoCells i j →
      ((exampleActionModel i j ()).map (fun it => it.1)).sum = 1 ∧
      ∀ it ∈ exampleActionModel i j (), isTraversable wallAndTwoCells it.2.1 it.2.2 := by
    intro i j ht
    obtain ⟨hi, rfl⟩ := wallAndTwoCells_traversable i j ht
    rcases hi with rfl | rfl
    · refine ⟨by norm_num [exampleActionModel], ?_⟩
      intro it hit
      simp only [exampleActionModel, and_self, if_true, List.mem_cons, List.mem_singleton,
        List.not_mem_nil, or_false] at hit
      rcases hit with rfl | rfl <;> simp [isTraversable, wallAndTwoCells, rowGrid]
    · refine ⟨by norm_num [exampleActionModel], ?_⟩
      intro it hit
      simp only [exampleActionModel] at hit
      norm_num at hit
      subst hit
      simp [isTraversable, wallAndTwoCells, rowGrid]
  have h := C6_predictPacmanMove_conserves_mass exampleActionModel wallAndTwoCells ()
    hsum hwall hmodel
  refine ⟨hsum, ?_, h.2.1⟩
  rw [h.1]
  simp [Finset.sum_range_succ, wallAndTwoCells, rowGrid, massSentTo, exampleActionModel]
  norm_num


/-! ## Transition of a ghost -/

/-- The probabilities of the moves of the ghost policy sum to 1 at a cell with
at least one legal neighbour. -/
theorem ghostMoves_total (legal : LegalModel) (i j : Int) (h : legal i j ≠ []) :
    ((ghostMoves legal i j).map (fun it => it.1)).sum = 1 := by
  have hl : ((legal i j).length : ℚ) ≠ 0 := by
    have : 0 < (legal i j).length := List.length_pos.mpr h
    exact_mod_cast this.ne'
  simp only [ghostMoves, List.map_cons, List.map_map, List.sum_cons, Function.comp_def,
    List.map_const', List.sum_replicate, nsmul_eq_mul]
  field_simp

/-- The probabilities of the moves of the ghost policy sum to
`STOP_PROBABILITY` at a cell without legal neighbour. -/
theorem ghostMoves_total_of_isolated (legal : LegalModel) (i j : Int) (h : legal i j = []) :
    ((ghostMoves legal i j).map (fun it => it.1)).sum = STOP_PROBABILITY := by
  simp [ghostMoves, h]

theorem ghostMoves_dest (legal : LegalModel) (i j : Int) (it : ℚ × Cell)
    (h : it ∈ ghostMoves legal i j) : it.2 = (i, j) ∨ it.2 ∈ legal i j := by
  simp only [ghostMoves, List.mem_cons, List.mem_map] at h
  rcases h with rfl | ⟨n, hn, rfl⟩
  · exact Or.inl rfl
  · exact Or.inr hn

/-- C7, as amended. Pursuer transition: when the legal-neighbour function
returns only non-WALL cells of the map and gives every non-WALL cell of the map
at least one neighbour, and the prior of ghost `k` sums to 1 over the non-WALL
cells, the belief of ghost `k` after `predictGhostMove` sums to 1 over the
non-WALL cells and is 0 at every WALL cell. -/
theorem C7_predictGhostMove_keeps_normalised (legal : LegalModel) (s : State) (k : Nat)
    (hlegal : ∀ i j, isTraversable s i j → ∀ n ∈ legal i j, isTraversable s n.1 n.2)
    (hnonempty : ∀ i j, isTraversable s i j → legal i j ≠ [])
    (hsum : sumNonWall s (s.ghosts_poses_map_ k) = 1) :
    sumNonWall (predictGhostMove legal s k) ((predictGhostMove legal s k).ghosts_poses_map_ k) = 1 ∧
    ∀ x y, (predictGhostMove legal s k).map_ y x = WALL →
      (predictGhostMove legal s k).ghosts_poses_map_ k y x = 0 := by
  have hpose : (predictGhostMove legal s k).ghosts_poses_map_ k = predictGhostPose legal s k := by
    simp [predictGhostMove]
  have hmap : (predictGhostMove legal s k).map_ = s.map_ := rfl
  have hS : sumNonWall (predictGhostMove legal s k) (predictGhostPose legal s k)
      = sumNonWall s (predictGhostPose legal s k) := rfl
  have hd : ∀ i j, isTraversable s i j → ∀ it ∈ ghostMoves legal i j,
      isTraversable s it.2.1 it.2.2 := by
    intro i j ht it hit
    rcases ghostMoves_dest legal i j it hit with e | hn
    · rw [e]; exact ht
    · exact hlegal i j ht it.2 hn
  rw [hpose, hmap, hS]
  refine ⟨?_, ?_⟩
  · rw [predictGhostPose_eq, sumNonWall_pushForward s (ghostMoves legal) (s.ghosts_poses_map_ k) hd,
      ← hsum]
    apply sumNonWall_traversable
    intro i j ht
    simp [ghostMoves_total legal i j (hnonempty i j ht)]
  · intro x y hw
    rw [predictGhostPose_eq]
    apply Finset.sum_eq_zero
    intro i hi
    apply Finset.sum_eq_zero
    intro j hj
    by_cases hw' : s.map_ j i = WALL
    · simp [hw']
    · have ht : isTraversable s i j := by
        refine ⟨⟨by omega, ?_⟩, by omega, ?_, hw'⟩
        · exact_mod_cast Finset.mem_range.mp hi
        · exact_mod_cast Finset.mem_range.mp hj
      simp only [ne_eq, hw', not_false_eq_true, if_true]
      apply massSentTo_of_not_dest
      intro it hit e
      have := hd i j ht it hit
      rw [e] at this
      exact this.2.2.2 hw

/-- Witness of C7 as amended, on `wallAndTwoCells` with `exampleLegal`. -/
theorem C7_predictGhostMove_keeps_normalised_witness :
    (∀ i j, isTraversable wallAndTwoCells i j →
      ∀ n ∈ exampleLegal i j, isTraversable wallAndTwoCells n.1 n.2) ∧
    (∀ i j, isTraversable wallAndTwoCells i j → exampleLegal i j ≠ []) ∧
    sumNonWall wallAndTwoCells (wallAndTwoCells.ghosts_poses_map_ 0) = 1 ∧
    sumNonWall (predictGhostMove exampleLegal wallAndTwoCells 0)
      ((predictGhostMove exampleLegal wallAndTwoCells 0).ghosts_poses_map_ 0) = 1 := by
  have hlegal : ∀ i j, isTraversable wallAndTwoCells i j →
      ∀ n ∈ exampleLegal i j, isTraversable wallAndTwoCells n.1 n.2 := by
    intro i j ht n hn
    obtain ⟨hi, rfl⟩ := wallAndTwoCells_traversable i j ht
    rcases hi with rfl | rfl
    · simp only [exampleLegal] at hn
      norm_num at hn
      subst hn
      simp [isTraversable, wallAndTwoCells, rowGrid]
    · simp only [exampleLegal] at hn
      norm_num at hn
      subst hn
      simp [isTraversable, wallAndTwoCells, rowGrid]
  have hnonempty : ∀ i j, isTraversable wallAndTwoCells i j → exampleLegal i j ≠ [] := by
    intro i j ht
    obtain ⟨hi, rfl⟩ := wallAndTwoCells_traversable i j ht
    rcases hi with rfl | rfl <;> simp [exampleLegal]
  have hsum : sumNonWall wallAndTwoCells (wallAndTwoCells.ghosts_poses_map_ 0) = 1 := by
    simp [sumNonWall, Finset.sum_range_succ, wallAndTwoCells, rowGrid]
    norm_num
  exact ⟨hlegal, hnonempty, hsum,
    (C7_predictGhostMove_keeps_normalised exampleLegal wallAndTwoCells 0 hlegal hnonempty hsum).1⟩

/-- Counterexample to C7 as stated: on `twoIsolatedCells` with a
legal-neighbour function that returns no cell at all (so only non-WALL cells of
the map), the prior of the ghost sums to 1 over the non-WALL cells and is 0 on
WALL cells, and after `predictGhostMove` the belief sums to `1/5`, not to 1. -/
theorem C7_isolated_cells_lose_mass :
    (∀ i j, ∀ n ∈ noNeighbours i j, isTraversable twoIsolatedCells n.1 n.2) ∧
    sumNonWall twoIsolatedCells (twoIsolatedCells.ghosts_poses_map_ 0) = 1 ∧
    (∀ x y, twoIsolatedCells.map_ y x = WALL → twoIsolatedCells.ghosts_poses_map_ 0 y x = 0) ∧
    sumNonWall (predictGhostMove noNeighbours twoIsolatedCells 0)
      ((predictGhostMove noNeighbours twoIsolatedCells 0).ghosts_poses_map_ 0) = 1 / 5 ∧
    sumNonWall (predictGhostMove noNeighbours twoIsolatedCells 0)
      ((predictGhostMove noNeighbours twoIsolatedCells 0).ghosts_poses_map_ 0) ≠ 1 := by
  have hsum : sumNonWall (predictGhostMove noNeighbours twoIsolatedCells 0)
      ((predictGhostMove noNeighbours twoIsolatedCells 0).ghosts_poses_map_ 0) = 1 / 5 := by
    have hpose : (predictGhostMove noNeighbours twoIsolatedCells 0).ghosts_poses_map_ 0
        = predictGhostPose noNeighbours twoIsolatedCells 0 := by
      simp [predictGhostMove]
    rw [hpose, predictGhostPose_eq]
    simp [sumNonWall, Finset.sum_range_succ, predictGhostMove, twoIsolatedCells, wallAndTwoCells,
      rowGrid, massSentTo, ghostMoves, noNeighbours, STOP_PROBABILITY]
    norm_num
  refine ⟨?_, ?_, ?_, hsum, by rw [hsum]; norm_num⟩
  · intro i j n hn
    simp [noNeighbours] at hn
  · simp [sumNonWall, Finset.sum_range_succ, twoIsolatedCells, wallAndTwoCells, rowGrid]
    norm_num
  · intro x y hw
    simp only [twoIsolatedCells, wallAndTwoCells, rowGrid] at hw ⊢
    split_ifs at hw ⊢ <;> simp_all


/-- The sum over the non-WALL cells of a grid that vanishes at every non-WALL
cell of the map but one is the value at that cell. -/
theorem sumNonWall_eq_single (s : State) (f : Grid ℚ) (x0 y0 : Int)
    (h : isTraversable s x0 y0)
    (h0 : ∀ x y, isTraversable s x y → (x, y) ≠ (x0, y0) → f y x = 0) :
    sumNonWall s f = f y0 x0 := by
  rw [sumNonWall_traversable s f (fun y x => if y0 = y ∧ x0 = x then f y0 x0 else 0),
    sumNonWall_single s x0 y0 _ h]
  intro x y ht
  by_cases e : y0 = y ∧ x0 = x
  · obtain ⟨rfl, rfl⟩ := e
    simp
  · have : (x, y) ≠ (x0, y0) := fun h' => e ⟨(Prod.ext_iff.mp h').2.symm, (Prod.ext_iff.mp h').1.symm⟩
    simp [e, h0 x y ht this]

/-- Over a list of cells without repetition, the values attached to the
occurrences of one cell add up to the value if the cell occurs and to 0 if not. -/
theorem sum_indicator_of_nodup (l : List Cell) (hnd : l.Nodup) (v : ℚ) (x y : Int) :
    (l.map (fun n => if n.2 = y ∧ n.1 = x then v else 0)).sum = if (x, y) ∈ l then v else 0 := by
  induction l with
  | nil => simp
  | cons n l ih =>
    obtain ⟨hn, hl⟩ := List.nodup_cons.mp hnd
    rw [List.map_cons, List.sum_cons, ih hl]
    by_cases e : n.2 = y ∧ n.1 = x
    · have en : n = (x, y) := Prod.ext e.2 e.1
      subst en
      simp [hn]
    · have en : ¬ ((x, y) = n) := fun h => e ⟨by rw [← h], by rw [← h]⟩
      simp [e, en]

/-- The belief after `predictGhostMove` from a point mass `p` at the non-WALL
cell `(cx, cy)` of the map: the mass the ghost policy sends from that cell. -/
theorem predictGhostPose_of_point_mass (legal : LegalModel) (s : State) (k : Nat)
    (cx cy : Int) (hc : isTraversable s cx cy)
    (h0 : ∀ x y, isTraversable s x y → (x, y) ≠ (cx, cy) → s.ghosts_poses_map_ k y x = 0)
    (x y : Int) :
    predictGhostPose legal s k y x
      = massSentTo (ghostMoves legal cx cy) (s.ghosts_poses_map_ k cy cx) x y := by
  rw [predictGhostPose_eq]
  have e := sumNonWall_eq_single s
    (fun j i => massSentTo (ghostMoves legal i j) (s.ghosts_poses_map_ k j i) x y) cx cy hc
    (fun i j ht hne => by simp [h0 i j ht hne, massSentTo_zero])
  exact e

/-- C8. Pursuer transition numbers: from a prior that is a point mass `p` at a
non-WALL cell `c` of the map whose legal neighbours are distinct and differ
from `c`, `predictGhostMove` yields `0.2 * p` at `c`, `0.8 * p / k` at each of
the `k` neighbours and 0 at every other cell; with exactly two neighbours that
is `0.4 * p` at each neighbour. (The statement needs no lower bound on `k`:
without neighbours the second part is empty.) -/
theorem C8_predictGhostMove_point_mass (legal : LegalModel) (s : State) (g : Nat) (p : ℚ)
    (cx cy : Int) (hc : isTraversable s cx cy)
    (hp : s.ghosts_poses_map_ g cy cx = p)
    (h0 : ∀ x y, isTraversable s x y → (x, y) ≠ (cx, cy) → s.ghosts_poses_map_ g y x = 0)
    (hnd : (legal cx cy).Nodup) (hne : (cx, cy) ∉ legal cx cy) :
    (predictGhostMove legal s g).ghosts_poses_map_ g cy cx = 0.2 * p ∧
    (∀ n ∈ legal cx cy, (predictGhostMove legal s g).ghosts_poses_map_ g n.2 n.1
      = 0.8 * p / ((legal cx cy).length : ℚ)) ∧
    (∀ x y, (x, y) ≠ (cx, cy) → (x, y) ∉ legal cx cy →
      (predictGhostMove legal s g).ghosts_poses_map_ g y x = 0) ∧
    ((legal cx cy).length = 2 → ∀ n ∈ legal cx cy,
      (predictGhostMove legal s g).ghosts_poses_map_ g n.2 n.1 = 0.4 * p) := by
  have hpose : (predictGhostMove legal s g).ghosts_poses_map_ g = predictGhostPose legal s g := by
    simp [predictGhostMove]
  have hval : ∀ x y, predictGhostPose legal s g y x
      = (if cy = y ∧ cx = x then STOP_PROBABILITY * p else 0)
        + (if (x, y) ∈ legal cx cy
            then (1 - STOP_PROBABILITY) / ((legal cx cy).length : ℚ) * p else 0) := by
    intro x y
    rw [predictGhostPose_of_point_mass legal s g cx cy hc h0 x y, hp]
    simp only [massSentTo, ghostMoves, List.map_cons, List.sum_cons, List.map_map,
      Function.comp_def]
    rw [sum_indicator_of_nodup (legal cx cy) hnd]
  have hnb : ∀ n ∈ legal cx cy, predictGhostPose legal s g n.2 n.1
      = 0.8 * p / ((legal cx cy).length : ℚ) := by
    intro n hn
    have h1 : ¬ (cy = n.2 ∧ cx = n.1) := by
      rintro ⟨e1, e2⟩
      apply hne
      have : (cx, cy) = n := Prod.ext e2 e1
      rw [this]; exact hn
    have h2 : (n.1, n.2) ∈ legal cx cy := hn
    rw [hval, if_neg h1, if_pos h2]
    simp only [STOP_PROBABILITY]
    ring
  rw [hpose]
  refine ⟨?_, hnb, ?_, ?_⟩
  · rw [hval, if_neg hne]
    simp [STOP_PROBABILITY]
  · intro x y h1 h2
    have h3 : ¬ (cy = y ∧ cx = x) := fun ⟨e1, e2⟩ => h1 (Prod.ext e2.symm e1.symm)
    rw [hval, if_neg h3, if_neg h2]
    simp
  · intro h2 n hn
    rw [hnb n hn, h2]
    norm_num
    ring

/-- Witness of C8 on `ghostSurelyAtFirstCell` with `exampleLegal`: the point
mass 1 sits at the non-WALL cell `(1, 0)`, whose only neighbour is `(2, 0)`;
the cell keeps `0.2` and the neighbour receives `0.8`. -/
theorem C8_predictGhostMove_point_mass_witness :
    isTraversable ghostSurelyAtFirstCell 1 0 ∧ 1 ≤ (exampleLegal 1 0).length ∧
    (exampleLegal 1 0).Nodup ∧ ((1 : Int), (0 : Int)) ∉ exampleLegal 1 0 ∧
    (predictGhostMove exampleLegal ghostSurelyAtFirstCell 0).ghosts_poses_map_ 0 0 1 = 0.2 * 1 ∧
    (predictGhostMove exampleLegal ghostSurelyAtFirstCell 0).ghosts_poses_map_ 0 0 2
      = 0.8 * 1 / 1 := by
  have hc : isTraversable ghostSurelyAtFirstCell 1 0 := by
    simp [isTraversable, ghostSurelyAtFirstCell, wallAndTwoCells, rowGrid]
  have hk : 1 ≤ (exampleLegal 1 0).length := by simp [exampleLegal]
  have hnd : (exampleLegal 1 0).Nodup := by simp [exampleLegal]
  have hne : ((1 : Int), (0 : Int)) ∉ exampleLegal 1 0 := by simp [exampleLegal]
  have h0 : ∀ x y, isTraversable ghostSurelyAtFirstCell x y →
      (x, y) ≠ ((1 : Int), (0 : Int)) → ghostSurelyAtFirstCell.ghosts_poses_map_ 0 y x = 0 := by
    intro x y ht hne'
    obtain ⟨hi, rfl⟩ := wallAndTwoCells_traversable x y ht
    rcases hi with rfl | rfl
    · exact absurd rfl hne'
    · simp [ghostSurelyAtFirstCell, rowGrid]
  have h := C8_predictGhostMove_point_mass exampleLegal ghostSurelyAtFirstCell 0 1 1 0 hc
    (by simp [ghostSurelyAtFirstCell, rowGrid]) h0 hnd hne
  refine ⟨hc, hk, hnd, hne, h.1, ?_⟩
  have h2 := h.2.1 (2, 0) (by simp [exampleLegal])
  simpa [exampleLegal] using h2

/-! ## Food decay -/

/-- C9. Food decay: after `predictPacmanMove`, the food value of every non-WALL
cell `c` of the map is `oldFood[c] * (1 - newEvaderBelief[c])`, with the belief
produced by that same call; so when that belief and `oldFood[c]` lie in
`[0, 1]`, the new food value lies in `[0, 1]` and does not exceed
`oldFood[c]`. -/
theorem C9_predictPacmanMove_food_decay {Action : Type} (nextPositions : ActionModel Action)
    (s : State) (action : Action) (x y : Int) (hc : isTraversable s x y) :
    (predictPacmanMove nextPositions s action).foods_map_ y x
      = s.foods_map_ y x
        * (1 - (predictPacmanMove nextPositions s action).pacman_pose_map_ y x) ∧
    (0 ≤ (predictPacmanMove nextPositions s action).pacman_pose_map_ y x →
      (predictPacmanMove nextPositions s action).pacman_pose_map_ y x ≤ 1 →
      0 ≤ s.foods_map_ y x → s.foods_map_ y x ≤ 1 →
      0 ≤ (predictPacmanMove nextPositions s action).foods_map_ y x ∧
      (predictPacmanMove nextPositions s action).foods_map_ y x ≤ 1 ∧
      (predictPacmanMove nextPositions s action).foods_map_ y x ≤ s.foods_map_ y x) := by
  have e : (predictPacmanMove nextPositions s action).foods_map_ y x
      = s.foods_map_ y x
        * (1 - (predictPacmanMove nextPositions s action).pacman_pose_map_ y x) := by
    simp only [predictPacmanMove, predictFoods_eq]
    simp [hc]
  refine ⟨e, ?_⟩
  intro hb0 hb1 hf0 hf1
  rw [e]
  refine ⟨mul_nonneg hf0 (by linarith), ?_, ?_⟩
  · calc s.foods_map_ y x * (1 - (predictPacmanMove nextPositions s action).pacman_pose_map_ y x)
        ≤ 1 * 1 := mul_le_mul hf1 (by linarith) (by linarith) (by norm_num)
      _ = 1 := by norm_num
  · calc s.foods_map_ y x * (1 - (predictPacmanMove nextPositions s action).pacman_pose_map_ y x)
        ≤ s.foods_map_ y x * 1 := mul_le_mul_of_nonneg_left (by linarith) hf0
      _ = s.foods_map_ y x := by ring

/-- Witness of C9 on `wallAndTwoCells` with `exampleActionModel`: at the
non-WALL cell `(2, 0)` the new belief is `9/10`, the food value `3/10` becomes
`3/100`, and both lie in `[0, 1]`. -/
theorem C9_predictPacmanMove_food_decay_witness :
    isTraversable wallAndTwoCells 2 0 ∧
    (predictPacmanMove exampleActionModel wallAndTwoCells ()).pacman_pose_map_ 0 2 = 9 / 10 ∧
    wallAndTwoCells.foods_map_ 0 2 = 3 / 10 ∧
    (predictPacmanMove exampleActionModel wallAndTwoCells ()).foods_map_ 0 2 = 3 / 100 ∧
    0 ≤ (predictPacmanMove exampleActionModel wallAndTwoCells ()).foods_map_ 0 2 ∧
    (predictPacmanMove exampleActionModel wallAndTwoCells ()).foods_map_ 0 2 ≤ 1 ∧
    (predictPacmanMove exampleActionModel wallAndTwoCells ()).foods_map_ 0 2
      ≤ wallAndTwoCells.foods_map_ 0 2 := by
  have hc : isTraversable wallAndTwoCells 2 0 := by
    simp [isTraversable, wallAndTwoCells, rowGrid]
  have hb : (predictPacmanMove exampleActionModel wallAndTwoCells ()).pacman_pose_map_ 0 2
      = 9 / 10 := by
    have : (predictPacmanMove exampleActionModel wallAndTwoCells ()).pacman_pose_map_
        = predictPacmanPose exampleActionModel wallAndTwoCells () := rfl
    rw [this, predictPacmanPose_eq]
    simp [Finset.sum_range_succ, wallAndTwoCells, rowGrid, massSentTo, exampleActionModel]
    norm_num
  have hf : wallAndTwoCells.foods_map_ 0 2 = 3 / 10 := by
    simp [wallAndTwoCells, rowGrid]
  have h := C9_predictPacmanMove_food_decay exampleActionModel wallAndTwoCells () 2 0 hc
  have hv : (predictPacmanMove exampleActionModel wallAndTwoCells ()).foods_map_ 0 2
      = 3 / 100 := by
    rw [h.1, hb, hf]; norm_num
  have hr := h.2 (by rw [hb]; norm_num) (by rw [hb]; norm_num) (by rw [hf]; norm_num)
    (by rw [hf]; norm_num)
  exact ⟨hc, hb, hf, hv, hr.1, hr.2.1, hr.2.2⟩


/-! ## The distance map -/

theorem DistMap.find_insert (d : DistMap) (c : Cell) (v : Nat) (c' : Cell) :
    (d.insert c v).find c' = if c' = c then some v else d.find c' := by
  induction d with
  | nil =>
    simp only [DistMap.insert, DistMap.find]
    by_cases h : c = c'
    · simp [h]
    · have : ¬ c' = c := fun e => h e.symm
      simp [h, this]
  | cons kv rest ih =>
    obtain ⟨k, w⟩ := kv
    by_cases hk : k = c
    · subst hk
      simp only [DistMap.insert, if_true, DistMap.find]
      by_cases h : k = c'
      · simp [h]
      · have : ¬ c' = k := fun e => h e.symm
        simp [h, this]
    · simp only [DistMap.insert, hk, if_false, DistMap.find, ih]
      by_cases h : k = c'
      · subst h
        simp [hk]
      · simp [h]

theorem DistMap.length_insert_of_none (d : DistMap) (c : Cell) (v : Nat)
    (h : d.find c = none) : (d.insert c v).length = d.length + 1 := by
  induction d with
  | nil => simp [DistMap.insert]
  | cons kv rest ih =>
    obtain ⟨k, w⟩ := kv
    by_cases hk : k = c
    · simp [DistMap.find, hk] at h
    · simp only [DistMap.find, hk, if_false] at h
      simp [DistMap.insert, hk, ih h]

theorem DistMap.find_eq_none_iff (d : DistMap) (c : Cell) :
    d.find c = none ↔ c ∉ d.map Prod.fst := by
  induction d with
  | nil => simp [DistMap.find]
  | cons kv rest ih =>
    obtain ⟨k, w⟩ := kv
    by_cases hk : k = c
    · simp [DistMap.find, hk]
    · have : ¬ c = k := fun e => hk e.symm
      simp [DistMap.find, hk, ih, this]

theorem DistMap.keys_insert_of_none (d : DistMap) (c : Cell) (v : Nat)
    (h : d.find c = none) : (d.insert c v).map Prod.fst = d.map Prod.fst ++ [c] := by
  induction d with
  | nil => simp [DistMap.insert]
  | cons kv rest ih =>
    obtain ⟨k, w⟩ := kv
    by_cases hk : k = c
    · simp [DistMap.find, hk] at h
    · simp only [DistMap.find, hk, if_false] at h
      simp [DistMap.insert, hk, ih h]

/-! ## One pass over the frontier -/

/-- What a walk of `visitCell` over a list of cells does to the triple of
`distances`, `done` and `next_legal_positions`. -/
theorem foldl_visitCell (legal : LegalModel) (cd : Nat) (l : List Cell)
    (st : DistMap × Bool × List Cell) :
    (∀ c, st.1.find c ≠ none → (l.foldl (visitCell legal cd) st).1.find c = st.1.find c) ∧
    (∀ c, st.1.find c = none →
      (l.foldl (visitCell legal cd) st).1.find c = if c ∈ l then some cd else none) ∧
    ((l.foldl (visitCell legal cd) st).2.1 = true ↔
      st.2.1 = true ∧ ∀ c ∈ l, st.1.find c ≠ none) ∧
    (∀ c, c ∈ (l.foldl (visitCell legal cd) st).2.2 ↔
      c ∈ st.2.2 ∨ ∃ b ∈ l, st.1.find b = none ∧ c ∈ legal b.1 b.2) ∧
    st.1.length ≤ (l.foldl (visitCell legal cd) st).1.length ∧
    ((∃ c ∈ l, st.1.find c = none) → st.1.length < (l.foldl (visitCell legal cd) st).1.length) ∧
    ((st.1.map Prod.fst).Nodup → ((l.foldl (visitCell legal cd) st).1.map Prod.fst).Nodup) := by
  induction l generalizing st with
  | nil => simp
  | cons it l ih =>
    rw [List.foldl_cons]
    by_cases hit : st.1.find it = none
    · have hv : visitCell legal cd st it
          = (st.1.insert it cd, false, st.2.2 ++ legal it.1 it.2) := by
        simp [visitCell, hit]
      obtain ⟨i1, i2, i3, i4, i5, i6, i7⟩ := ih (visitCell legal cd st it)
      rw [hv] at i1 i2 i3 i4 i5 i6 i7 ⊢
      simp only [DistMap.find_insert] at i1 i2 i4
      have hlen := DistMap.length_insert_of_none st.1 it cd hit
      refine ⟨?_, ?_, ?_, ?_, ?_, ?_, ?_⟩
      · intro c hc
        have hne : c ≠ it := fun e => hc (e ▸ hit)
        have := i1 c (by simp [hne, hc])
        simpa [hne] using this
      · intro c hc
        by_cases hne : c = it
        · subst hne
          have := i1 c (by simp)
          simpa using this
        · have := i2 c (by simp [hne, hc])
          simpa [hne] using this
      · constructor
        · intro h
          have := (i3.mp h).1
          simp at this
        · rintro ⟨_, h⟩
          exact absurd hit (h it (List.mem_cons_self _ _))
      · intro c
        rw [i4 c]
        simp only [List.mem_append, List.mem_cons]
        constructor
        · rintro (⟨h | h⟩ | ⟨b, hb, hbn, hcb⟩)
          · exact Or.inl h
          · exact Or.inr ⟨it, Or.inl rfl, hit, h⟩
          · by_cases hbe : b = it
            · simp [hbe] at hbn
            · simp only [hbe, if_false] at hbn
              exact Or.inr ⟨b, Or.inr hb, hbn, hcb⟩
        · rintro (h | ⟨b, hb | hb, hbn, hcb⟩)
          · exact Or.inl (Or.inl h)
          · subst hb
            exact Or.inl (Or.inr hcb)
          · by_cases hbe : b = it
            · subst hbe
              exact Or.inl (Or.inr hcb)
            · exact Or.inr ⟨b, hb, by simp [hbe, hbn], hcb⟩
      · simp only [hlen] at i5
        omega
      · intro _
        simp only [hlen] at i5
        omega
      · intro hnd
        apply i7
        rw [DistMap.keys_insert_of_none st.1 it cd hit]
        rw [List.nodup_append]
        refine ⟨hnd, by simp, ?_⟩
        intro a ha hb
        simp only [List.mem_singleton] at hb
        subst hb
        exact ((DistMap.find_eq_none_iff st.1 a).mp hit) ha
    · have hv : visitCell legal cd st it = st := by
        simp [visitCell, hit]
      obtain ⟨i1, i2, i3, i4, i5, i6, i7⟩ := ih st
      rw [hv]
      refine ⟨i1, ?_, ?_, ?_, i5, ?_, i7⟩
      · intro c hc
        have hne : c ≠ it := fun e => hit (e ▸ hc)
        rw [i2 c hc]
        simp [hne]
      · rw [i3]
        simp only [List.mem_cons, forall_eq_or_imp]
        tauto
      · intro c
        rw [i4 c]
        simp only [List.mem_cons]
        constructor
        · rintro (h | ⟨b, hb, hbn, hcb⟩)
          · exact Or.inl h
          · exact Or.inr ⟨b, Or.inr hb, hbn, hcb⟩
        · rintro (h | ⟨b, hb | hb, hbn, hcb⟩)
          · exact Or.inl h
          · subst hb
            exact absurd hbn hit
          · exact Or.inr ⟨b, hb, hbn, hcb⟩
      · rintro ⟨c, hc, hcn⟩
        apply i6
        rcases List.mem_cons.mp hc with e | h
        · subst e
          exact absurd hcn hit
        · exact ⟨c, h, hcn⟩


/-! ## Walks and shortest walks -/

theorem Walk.zero_iff (legal : LegalModel) (a b : Cell) : Walk legal a 0 b ↔ b = a := by
  constructor
  · intro h
    cases h
    rfl
  · rintro rfl
    exact Walk.nil

theorem Walk.succ_iff (legal : LegalModel) (a c : Cell) (n : Nat) :
    Walk legal a (n + 1) c ↔ ∃ b, Walk legal a n b ∧ c ∈ legal b.1 b.2 := by
  constructor
  · intro h
    cases h with
    | snoc w e => exact ⟨_, w, e⟩
  · rintro ⟨b, w, e⟩
    exact Walk.snoc w e

/-- A walk with one more move in front. -/
theorem Walk.cons (legal : LegalModel) {a b c : Cell} {n : Nat} (e : b ∈ legal a.1 a.2)
    (w : Walk legal b n c) : Walk legal a (n + 1) c := by
  induction w with
  | nil => exact Walk.snoc Walk.nil e
  | snoc _ e' ih => exact Walk.snoc ih e'

/-- Two walks one after the other. -/
theorem Walk.append (legal : LegalModel) {a b c : Cell} {n m : Nat} (w : Walk legal a n b)
    (w' : Walk legal b m c) : Walk legal a (n + m) c := by
  induction w' with
  | nil => exact w
  | snoc _ e ih => exact Walk.snoc ih e

/-- Under a symmetric legal-neighbour relation a walk can be walked backwards. -/
theorem Walk.reverse (legal : LegalModel)
    (hsym : ∀ a b : Cell, b ∈ legal a.1 a.2 → a ∈ legal b.1 b.2) {a b : Cell} {n : Nat}
    (w : Walk legal a n b) : Walk legal b n a := by
  induction w with
  | nil => exact Walk.nil
  | snoc _ e ih => exact Walk.cons legal (hsym _ _ e) ih

theorem IsShortest.unique (legal : LegalModel) {a b : Cell} {n m : Nat}
    (h : IsShortest legal a b n) (h' : IsShortest legal a b m) : n = m :=
  le_antisymm (h.2 m h'.1) (h'.2 n h.1)

/-- A reachable cell has a shortest distance. -/
theorem exists_isShortest (legal : LegalModel) (a b : Cell) (n : Nat) (w : Walk legal a n b) :
    ∃ m, IsShortest legal a b m ∧ m ≤ n := by
  induction n using Nat.strong_induction_on with
  | _ n ih =>
    by_cases h : ∃ m, m < n ∧ Walk legal a m b
    · obtain ⟨m, hm, wm⟩ := h
      obtain ⟨r, hr, hrm⟩ := ih m hm wm
      exact ⟨r, hr, by omega⟩
    · refine ⟨n, ⟨w, fun m wm => ?_⟩, le_refl n⟩
      by_contra hlt
      exact h ⟨m, by omega, wm⟩

theorem isShortest_zero_iff (legal : LegalModel) (a b : Cell) :
    IsShortest legal a b 0 ↔ b = a := by
  constructor
  · intro h
    exact (Walk.zero_iff legal a b).mp h.1
  · rintro rfl
    exact ⟨Walk.nil, fun m _ => Nat.zero_le m⟩

/-- The cell before the last one on a shortest walk is at the shortest distance
one less. -/
theorem IsShortest.pred (legal : LegalModel) {a c : Cell} {n : Nat}
    (h : IsShortest legal a c (n + 1)) :
    ∃ b, IsShortest legal a b n ∧ c ∈ legal b.1 b.2 := by
  obtain ⟨b, w, e⟩ := (Walk.succ_iff legal a c n).mp h.1
  refine ⟨b, ⟨w, fun m wm => ?_⟩, e⟩
  have := h.2 (m + 1) (Walk.snoc wm e)
  omega

/-- Every shortest distance below that of a reachable cell is taken by some
cell. -/
theorem IsShortest.level_below (legal : LegalModel) {a c : Cell} {n : Nat}
    (h : IsShortest legal a c n) (m : Nat) (hm : m ≤ n) : ∃ b, IsShortest legal a b m := by
  induction n generalizing c with
  | zero =>
    have : m = 0 := by omega
    subst this
    exact ⟨c, h⟩
  | succ n ih =>
    by_cases e : m = n + 1
    · subst e
      exact ⟨c, h⟩
    · obtain ⟨b, hb, _⟩ := IsShortest.pred legal h
      exact ih hb (by omega)

/-! ## The loop of `calculateDistances` -/

theorem loopInvariant_init (legal : LegalModel) (x y : Int) :
    LoopInvariant legal (x, y) 0 (DistMap.insert [] (x, y) 0) (legal x y) := by
  constructor
  · intro c n
    simp only [DistMap.insert, DistMap.find]
    constructor
    · intro h
      by_cases e : (x, y) = c
      · simp only [e, if_true, Option.some.injEq] at h
        subst h
        exact ⟨(isShortest_zero_iff legal (x, y) c).mpr e.symm, le_refl 0⟩
      · simp [e] at h
    · rintro ⟨h, hn⟩
      have hn0 : n = 0 := by omega
      subst hn0
      have := (isShortest_zero_iff legal (x, y) c).mp h
      simp [this]
  · intro c
    constructor
    · intro h
      exact ⟨(x, y), (isShortest_zero_iff legal (x, y) (x, y)).mpr rfl, h⟩
    · rintro ⟨b, hb, hc⟩
      have := (isShortest_zero_iff legal (x, y) b).mp hb
      subst this
      exact hc

/-- The cells that a pass of the loop newly enters are the cells at the next
shortest distance. -/
theorem frontier_new_iff (legal : LegalModel) (source : Cell) (k : Nat) (D : DistMap)
    (F : List Cell) (inv : LoopInvariant legal source k D F) (b : Cell) :
    (b ∈ F ∧ D.find b = none) ↔ IsShortest legal source b (k + 1) := by
  obtain ⟨hD, hF⟩ := inv
  constructor
  · rintro ⟨hb, hn⟩
    obtain ⟨a, ha, hab⟩ := (hF b).mp hb
    have w : Walk legal source (k + 1) b := Walk.snoc ha.1 hab
    obtain ⟨m, hm, hle⟩ := exists_isShortest legal source b (k + 1) w
    by_cases e : m = k + 1
    · subst e
      exact hm
    · have : D.find b = some m := (hD b m).mpr ⟨hm, by omega⟩
      rw [hn] at this
      exact absurd this (by simp)
  · intro h
    obtain ⟨a, ha, hab⟩ := IsShortest.pred legal h
    refine ⟨(hF b).mpr ⟨a, ha, hab⟩, ?_⟩
    cases hfind : D.find b with
    | none => rfl
    | some m =>
      obtain ⟨hm, hle⟩ := (hD b m).mp hfind
      have := IsShortest.unique legal hm h
      omega

/-- One pass of the loop re-establishes the invariant for the next distance,
and sets `done` exactly when no cell is at that distance. -/
theorem expandFrontier_invariant (legal : LegalModel) (source : Cell) (k : Nat) (D : DistMap)
    (F : List Cell) (inv : LoopInvariant legal source k D F) :
    LoopInvariant legal source (k + 1) (expandFrontier legal (k + 1) D F).1
      (expandFrontier legal (k + 1) D F).2.2 ∧
    ((expandFrontier legal (k + 1) D F).2.1 = true ↔
      ¬ ∃ b, IsShortest legal source b (k + 1)) := by
  have hnew := frontier_new_iff legal source k D F inv
  obtain ⟨hD, hF⟩ := inv
  obtain ⟨f1, f2, f3, f4, -, -, -⟩ := foldl_visitCell legal (k + 1) F.reverse (D, true, [])
  simp only [List.mem_reverse] at f2 f3 f4
  refine ⟨⟨?_, ?_⟩, ?_⟩
  · intro c n
    unfold expandFrontier
    cases hfind : D.find c with
    | some m =>
      rw [f1 c (by simp [hfind]), hfind]
      obtain ⟨hm, hle⟩ := (hD c m).mp hfind
      constructor
      · intro e
        simp only [Option.some.injEq] at e
        subst e
        exact ⟨hm, by omega⟩
      · rintro ⟨hn, _⟩
        rw [IsShortest.unique legal hm hn]
    | none =>
      rw [f2 c hfind]
      by_cases hc : c ∈ F
      · have hs := (hnew c).mp ⟨hc, hfind⟩
        simp only [hc, if_true, Option.some.injEq]
        constructor
        · intro e
          subst e
          exact ⟨hs, le_refl _⟩
        · rintro ⟨hn, _⟩
          exact IsShortest.unique legal hs hn
      · simp only [hc, if_false]
        constructor
        · intro e
          exact absurd e (by simp)
        · rintro ⟨hn, hle⟩
          exfalso
          by_cases e : n = k + 1
          · subst e
            exact hc ((hnew c).mpr hn).1
          · have : D.find c = some n := (hD c n).mpr ⟨hn, by omega⟩
            rw [hfind] at this
            exact absurd this (by simp)
  · intro c
    unfold expandFrontier
    rw [f4 c]
    simp only [List.not_mem_nil, false_or]
    constructor
    · rintro ⟨b, hb, hbn, hcb⟩
      exact ⟨b, (hnew b).mp ⟨hb, hbn⟩, hcb⟩
    · rintro ⟨b, hb, hcb⟩
      obtain ⟨h1, h2⟩ := (hnew b).mpr hb
      exact ⟨b, h1, h2, hcb⟩
  · unfold expandFrontier
    rw [f3]
    simp only [true_and]
    constructor
    · rintro h ⟨b, hb⟩
      obtain ⟨h1, h2⟩ := (hnew b).mpr hb
      exact h b h1 h2
    · intro h c hc hn
      exact h ⟨c, (hnew c).mp ⟨hc, hn⟩⟩


/-- Partial correctness of the loop: started from a state that satisfies the
invariant, the table it returns holds exactly the reachable cells, each with
its shortest distance. -/
theorem calculateDistancesLoop_correct (legal : LegalModel) (source : Cell) (fuel : Nat) :
    ∀ (k : Nat) (D : DistMap) (F : List Cell), LoopInvariant legal source k D F →
      ∀ d, calculateDistancesLoop legal fuel D k F = some d →
        ∀ c n, d.find c = some n ↔ IsShortest legal source c n := by
  induction fuel with
  | zero =>
    intro k D F _ d h
    simp [calculateDistancesLoop] at h
  | succ fuel ih =>
    intro k D F inv d h
    obtain ⟨inv', hdone⟩ := expandFrontier_invariant legal source k D F inv
    simp only [calculateDistancesLoop] at h
    by_cases hd : (expandFrontier legal (k + 1) D F).2.1 = true
    · simp only [hd, if_true, Option.some.injEq] at h
      subst h
      intro c n
      rw [inv'.1 c n]
      constructor
      · exact fun h => h.1
      · intro hn
        refine ⟨hn, ?_⟩
        by_contra hlt
        exact (hdone.mp hd) (IsShortest.level_below legal hn (k + 1) (by omega))
    · simp only [hd] at h
      exact ih (k + 1) _ _ inv' d h

theorem Walk.mem_of_closed (legal : LegalModel) (U : Finset Cell)
    (hU : ∀ c ∈ U, ∀ b ∈ legal c.1 c.2, b ∈ U) {a b : Cell} {n : Nat} (ha : a ∈ U)
    (w : Walk legal a n b) : b ∈ U := by
  induction w with
  | nil => exact ha
  | snoc _ e ih => exact hU _ ih _ e

/-- Under the invariant the table has at most as many entries as there are
cells in a set of cells that holds the source and is closed under legal
moves. -/
theorem LoopInvariant.length_le (legal : LegalModel) (source : Cell) (U : Finset Cell)
    (hsrc : source ∈ U) (hU : ∀ c ∈ U, ∀ b ∈ legal c.1 c.2, b ∈ U) (k : Nat) (D : DistMap)
    (F : List Cell) (inv : LoopInvariant legal source k D F) (hnd : (D.map Prod.fst).Nodup) :
    D.length ≤ U.card := by
  have hsub : (D.map Prod.fst).toFinset ⊆ U := by
    intro c hc
    rw [List.mem_toFinset] at hc
    have hne : D.find c ≠ none := fun h => (DistMap.find_eq_none_iff D c).mp h hc
    obtain ⟨n, hn⟩ := Option.ne_none_iff_exists'.mp hne
    exact Walk.mem_of_closed legal U hU hsrc ((inv.1 c n).mp hn).1.1
  have := Finset.card_le_card hsub
  rw [List.toFinset_card_of_nodup hnd, List.length_map] at this
  exact this

/-- Termination of the loop: inside a finite set of cells that holds the source
and is closed under legal moves, the loop stops within as many iterations as
there are cells not yet in the table, plus one. -/
theorem calculateDistancesLoop_terminates (legal : LegalModel) (source : Cell)
    (U : Finset Cell) (hsrc : source ∈ U) (hU : ∀ c ∈ U, ∀ b ∈ legal c.1 c.2, b ∈ U)
    (fuel : Nat) :
    ∀ (k : Nat) (D : DistMap) (F : List Cell), LoopInvariant legal source k D F →
      (D.map Prod.fst).Nodup → U.card + 1 ≤ fuel + D.length →
      ∃ d, calculateDistancesLoop legal fuel D k F = some d := by
  induction fuel with
  | zero =>
    intro k D F inv hnd hle
    have := LoopInvariant.length_le legal source U hsrc hU k D F inv hnd
    omega
  | succ fuel ih =>
    intro k D F inv hnd hle
    obtain ⟨inv', -⟩ := expandFrontier_invariant legal source k D F inv
    obtain ⟨-, -, f3, -, -, f6, f7⟩ := foldl_visitCell legal (k + 1) F.reverse (D, true, [])
    simp only [calculateDistancesLoop]
    by_cases hd : (expandFrontier legal (k + 1) D F).2.1 = true
    · exact ⟨(expandFrontier legal (k + 1) D F).1, by simp [hd]⟩
    · simp only [hd]
      have hex : ∃ c ∈ F.reverse, D.find c = none := by
        by_contra hno
        apply hd
        unfold expandFrontier
        rw [f3]
        refine ⟨rfl, fun c hc hn => hno ⟨c, hc, hn⟩⟩
      have hlt : D.length < (expandFrontier legal (k + 1) D F).1.length := f6 hex
      exact ih (k + 1) _ _ inv' (f7 hnd) (by omega)

/-- C2. The table returned by `calculateDistances(s)` has an entry for a cell
`t` if and only if `t` is reachable from `s` by legal-neighbour moves, that
entry is the number of moves of a shortest walk, and the entry of `s` is 0;
and the call does return, within as many iterations of its loop as there are
cells, whenever `s` lies in a finite set of cells closed under legal moves. -/
theorem C2_calculateDistances_shortest_paths (legal : LegalModel) (x y : Int) :
    (∀ fuel d, calculateDistances legal fuel x y = some d →
      (∀ t n, d.find t = some n ↔ IsShortest legal (x, y) t n) ∧
      (∀ t, d.find t ≠ none ↔ ∃ n, Walk legal (x, y) n t) ∧
      d.find (x, y) = some 0) ∧
    (∀ U : Finset Cell, (x, y) ∈ U → (∀ c ∈ U, ∀ b ∈ legal c.1 c.2, b ∈ U) →
      ∀ fuel, U.card ≤ fuel → ∃ d, calculateDistances legal fuel x y = some d) := by
  constructor
  · intro fuel d h
    have hmain := calculateDistancesLoop_correct legal (x, y) fuel 0 _ _
      (loopInvariant_init legal x y) d h
    refine ⟨hmain, ?_, ?_⟩
    · intro t
      constructor
      · intro hne
        obtain ⟨n, hn⟩ := Option.ne_none_iff_exists'.mp hne
        exact ⟨n, ((hmain t n).mp hn).1⟩
      · rintro ⟨n, w⟩
        obtain ⟨m, hm, -⟩ := exists_isShortest legal (x, y) t n w
        rw [(hmain t m).mpr hm]
        simp
    · exact (hmain (x, y) 0).mpr ((isShortest_zero_iff legal (x, y) (x, y)).mpr rfl)
  · intro U hsrc hU fuel hfuel
    exact calculateDistancesLoop_terminates legal (x, y) U hsrc hU fuel 0 _ _
      (loopInvariant_init legal x y) (by simp [DistMap.insert])
      (by simp [DistMap.insert]; omega)

/-- Witness of C2 on `exampleLegal` from the source `(1, 0)`: with the two cells
`(1, 0)` and `(2, 0)` as closed set and fuel 2 the call returns the table
`(1, 0) ↦ 0, (2, 0) ↦ 1`, so `(2, 0)` is at shortest distance 1. -/
theorem C2_calculateDistances_shortest_paths_witness :
    calculateDistances exampleLegal 2 1 0 = some [((1, 0), 0), ((2, 0), 1)] ∧
    IsShortest exampleLegal (1, 0) (2, 0) 1 ∧
    ∃ d, calculateDistances exampleLegal 2 1 0 = some d := by
  have h : calculateDistances exampleLegal 2 1 0 = some [((1, 0), 0), ((2, 0), 1)] := by decide
  have hU : ∀ c ∈ ({(1, 0), (2, 0)} : Finset Cell), ∀ b ∈ exampleLegal c.1 c.2,
      b ∈ ({(1, 0), (2, 0)} : Finset Cell) := by
    intro c hc b hb
    simp only [Finset.mem_insert, Finset.mem_singleton] at hc
    rcases hc with rfl | rfl
    · simp only [exampleLegal] at hb
      norm_num at hb
      subst hb
      simp
    · simp only [exampleLegal] at hb
      norm_num at hb
      subst hb
      simp
  refine ⟨h, ?_, ?_⟩
  · exact (((C2_calculateDistances_shortest_paths exampleLegal 1 0).1 2 _ h).1 (2, 0) 1).mp
      (by decide)
  · exact (C2_calculateDistances_shortest_paths exampleLegal 1 0).2 {(1, 0), (2, 0)}
      (by simp) hU 2 (by decide)


/-! ## The table of all distances -/

theorem DistTable.find_insert_entry (t : DistTable) (c : Cell) (d : DistMap) (c' : Cell) :
    (t.insert c d).find c' = if c' = c then some d else t.find c' := by
  induction t with
  | nil =>
    simp only [DistTable.insert, DistTable.find]
    by_cases h : c = c'
    · simp [h]
    · have : ¬ c' = c := fun e => h e.symm
      simp [h, this]
  | cons kv rest ih =>
    obtain ⟨k, w⟩ := kv
    by_cases hk : k = c
    · subst hk
      simp only [DistTable.insert, if_true, DistTable.find]
      by_cases h : k = c'
      · simp [h]
      · have : ¬ c' = k := fun e => h e.symm
        simp [h, this]
    · simp only [DistTable.insert, hk, if_false, DistTable.find, ih]
      by_cases h : k = c'
      · subst h
        simp [hk]
      · simp [h]

theorem forRange_induction {σ : Type} (P : Nat → σ → Prop) (n : Nat) (st : σ)
    (body : σ → Int → σ) (h0 : P 0 st)
    (hs : ∀ k, k < n → ∀ t, P k t → P (k + 1) (body t (k : Int))) :
    P n (forRange n st body) := by
  have : ∀ m, m ≤ n → P m (forRange m st body) := by
    intro m
    induction m with
    | zero => intro _; exact h0
    | succ m ih =>
      intro hm
      rw [forRange_succ]
      exact hs m (by omega) _ (ih (by omega))
  exact this n (le_refl n)

theorem mem_gridCells (s : State) (c : Cell) : c ∈ gridCells s ↔ inBounds s c.1 c.2 := by
  unfold gridCells inBounds
  simp only [Finset.mem_image, Finset.mem_product, Finset.mem_range, Prod.exists]
  constructor
  · rintro ⟨i, j, ⟨hi, hj⟩, rfl⟩
    simp only
    omega
  · rintro ⟨h1, h2, h3, h4⟩
    refine ⟨c.1.toNat, c.2.toNat, ⟨by omega, by omega⟩, ?_⟩
    apply Prod.ext
    · simp only; omega
    · simp only; omega

theorem card_gridCells_le (s : State) : (gridCells s).card ≤ s.width_ * s.height_ := by
  unfold gridCells
  refine le_trans Finset.card_image_le ?_
  simp [Finset.card_product]


/-- The table built by `precalculateAllDistances`, when it is built: every call
of `calculateDistances` from a non-WALL cell of the map has returned, the table
holds for each such cell the map that call returned, and it keeps its other
entries. -/
theorem precalculateAllDistances_find (legal : LegalModel) (fuel : Nat) (s : State)
    (T : DistTable) (hT : precalculateAllDistances legal fuel s = some T) (c : Cell) :
    (T.find c = if isTraversable s c.1 c.2
      then calculateDistances legal fuel c.1 c.2 else s.precalculated_distances_.find c) ∧
    (isTraversable s c.1 c.2 → calculateDistances legal fuel c.1 c.2 ≠ none) := by
  unfold precalculateAllDistances at hT
  have outer := forRange_induction
    (fun a t => ∀ T, t = some T → ∀ c : Cell,
      (T.find c =
        if (0 ≤ c.1 ∧ c.1 < (a : Int)) ∧ 0 ≤ c.2 ∧ c.2 < (s.height_ : Int) ∧
            s.map_ c.2 c.1 ≠ WALL
          then calculateDistances legal fuel c.1 c.2 else s.precalculated_distances_.find c) ∧
      ((0 ≤ c.1 ∧ c.1 < (a : Int)) ∧ 0 ≤ c.2 ∧ c.2 < (s.height_ : Int) ∧
            s.map_ c.2 c.1 ≠ WALL → calculateDistances legal fuel c.1 c.2 ≠ none))
    s.width_ (some s.precalculated_distances_)
    (fun t i => forRange s.height_ t fun t j =>
      if s.map_ j i ≠ WALL then
        match t with
        | none => none
        | some table =>
          match calculateDistances legal fuel i j with
          | none => none
          | some distances => some (table.insert (i, j) distances)
      else t)
    (by
      intro T hT c
      simp only [Option.some.injEq] at hT
      subst hT
      have : ¬ ((0 ≤ c.1 ∧ c.1 < ((0 : Nat) : Int)) ∧ 0 ≤ c.2 ∧ c.2 < (s.height_ : Int) ∧
          s.map_ c.2 c.1 ≠ WALL) := by
        rintro ⟨⟨h1, h2⟩, _⟩; omega
      exact ⟨by rw [if_neg this], fun h => absurd h this⟩)
    (by
      intro a _ t0 ht0
      have inner := forRange_induction
        (fun b t => ∀ T, t = some T → ∀ c : Cell,
          (T.find c =
            if ((0 ≤ c.1 ∧ c.1 < (a : Int)) ∧ 0 ≤ c.2 ∧ c.2 < (s.height_ : Int) ∧
                s.map_ c.2 c.1 ≠ WALL) ∨
              (c.1 = (a : Int) ∧ 0 ≤ c.2 ∧ c.2 < (b : Int) ∧ s.map_ c.2 c.1 ≠ WALL)
              then calculateDistances legal fuel c.1 c.2
              else s.precalculated_distances_.find c) ∧
          (((0 ≤ c.1 ∧ c.1 < (a : Int)) ∧ 0 ≤ c.2 ∧ c.2 < (s.height_ : Int) ∧
                s.map_ c.2 c.1 ≠ WALL) ∨
              (c.1 = (a : Int) ∧ 0 ≤ c.2 ∧ c.2 < (b : Int) ∧ s.map_ c.2 c.1 ≠ WALL) →
            calculateDistances legal fuel c.1 c.2 ≠ none))
        s.height_ t0
        (fun t j =>
          if s.map_ j (a : Int) ≠ WALL then
            match t with
            | none => none
            | some table =>
              match calculateDistances legal fuel (a : Int) j with
              | none => none
              | some distances => some (table.insert ((a : Int), j) distances)
          else t)
        (by
          intro T hT c
          have : ¬ (c.1 = (a : Int) ∧ 0 ≤ c.2 ∧ c.2 < ((0 : Nat) : Int) ∧ s.map_ c.2 c.1 ≠ WALL) := by
            rintro ⟨_, h1, h2, _⟩; omega
          simp only [this, or_false]
          exact ht0 T hT c)
        (by
          intro b _ t ht T' hT' c
          have hiff : ∀ c : Cell, ¬ (c.1 = (a : Int) ∧ c.2 = (b : Int)) →
              ((c.1 = (a : Int) ∧ 0 ≤ c.2 ∧ c.2 < ((b + 1 : Nat) : Int) ∧
                  s.map_ c.2 c.1 ≠ WALL) ↔
                (c.1 = (a : Int) ∧ 0 ≤ c.2 ∧ c.2 < (b : Int) ∧ s.map_ c.2 c.1 ≠ WALL)) := by
            intro c hc
            constructor
            · rintro ⟨h1, h2, h3, h4⟩
              refine ⟨h1, h2, ?_, h4⟩
              have : c.2 ≠ (b : Int) := fun e => hc ⟨h1, e⟩
              push_cast at h3
              omega
            · rintro ⟨h1, h2, h3, h4⟩
              exact ⟨h1, h2, by push_cast; omega, h4⟩
          by_cases hw : s.map_ (b : Int) (a : Int) = WALL
          · simp only [ne_eq, hw, not_true_eq_false, if_false] at hT'
            obtain ⟨h1, h2⟩ := ht T' hT' c
            by_cases hc : c.1 = (a : Int) ∧ c.2 = (b : Int)
            · obtain ⟨e1, e2⟩ := hc
              have n1 : ¬ (c.1 = (a : Int) ∧ 0 ≤ c.2 ∧ c.2 < ((b + 1 : Nat) : Int) ∧
                  s.map_ c.2 c.1 ≠ WALL) := by
                rintro ⟨_, _, _, h⟩
                rw [e1, e2] at h
                exact h hw
              have n2 : ¬ (c.1 = (a : Int) ∧ 0 ≤ c.2 ∧ c.2 < (b : Int) ∧
                  s.map_ c.2 c.1 ≠ WALL) := by
                rintro ⟨_, _, _, h⟩
                rw [e1, e2] at h
                exact h hw
              simp only [n1, or_false]
              simp only [n2, or_false] at h1 h2
              exact ⟨h1, h2⟩
            · simp only [hiff c hc]
              exact ⟨h1, h2⟩
          · simp only [ne_eq, hw, not_false_eq_true, if_true] at hT'
            cases t with
            | none => simp at hT'
            | some T =>
              cases hd : calculateDistances legal fuel (a : Int) (b : Int) with
              | none => simp [hd] at hT'
              | some d =>
                simp only [hd, Option.some.injEq] at hT'
                subst hT'
                obtain ⟨h1, h2⟩ := ht T rfl c
                rw [DistTable.find_insert_entry]
                by_cases hc : c = ((a : Int), (b : Int))
                · subst hc
                  have : ((a : Int) = (a : Int) ∧ (0 : Int) ≤ (b : Int) ∧
                      (b : Int) < ((b + 1 : Nat) : Int) ∧ s.map_ (b : Int) (a : Int) ≠ WALL) :=
                    ⟨rfl, by omega, by push_cast; omega, hw⟩
                  refine ⟨by rw [if_pos rfl, if_pos (Or.inr this), hd], fun _ => ?_⟩
                  rw [hd]
                  simp
                · have hc' : ¬ (c.1 = (a : Int) ∧ c.2 = (b : Int)) :=
                    fun h => hc (Prod.ext h.1 h.2)
                  simp only [hc, if_false, hiff c hc']
                  exact ⟨h1, h2⟩)
      intro T hT c
      obtain ⟨h1, h2⟩ := inner T hT c
      have : (((0 ≤ c.1 ∧ c.1 < (a : Int)) ∧ 0 ≤ c.2 ∧ c.2 < (s.height_ : Int) ∧
            s.map_ c.2 c.1 ≠ WALL) ∨
          (c.1 = (a : Int) ∧ 0 ≤ c.2 ∧ c.2 < (s.height_ : Int) ∧ s.map_ c.2 c.1 ≠ WALL)) ↔
          ((0 ≤ c.1 ∧ c.1 < ((a + 1 : Nat) : Int)) ∧ 0 ≤ c.2 ∧ c.2 < (s.height_ : Int) ∧
            s.map_ c.2 c.1 ≠ WALL) := by
        push_cast
        constructor
        · rintro (⟨⟨h1, h2⟩, h3⟩ | ⟨h1, h3⟩)
          · exact ⟨⟨h1, by omega⟩, h3⟩
          · exact ⟨⟨by omega, by omega⟩, h3⟩
        · rintro ⟨⟨h1, h2⟩, h3⟩
          by_cases e : c.1 = (a : Int)
          · exact Or.inr ⟨e, h3⟩
          · exact Or.inl ⟨⟨h1, by omega⟩, h3⟩
      simp only [this] at h1 h2
      exact ⟨h1, h2⟩)
  exact outer T hT c

/-- The table is built when every call of `calculateDistances` from a non-WALL
cell of the map returns. -/
theorem precalculateAllDistances_returns (legal : LegalModel) (fuel : Nat) (s : State)
    (hterm : ∀ x y, isTraversable s x y → ∃ d, calculateDistances legal fuel x y = some d) :
    ∃ T, precalculateAllDistances legal fuel s = some T := by
  unfold precalculateAllDistances
  refine forRange_induction (fun _ t => ∃ T, t = some T) s.width_
    (some s.precalculated_distances_) _ ⟨_, rfl⟩ ?_
  intro a ha t0 ht0
  refine forRange_induction (fun _ t => ∃ T, t = some T) s.height_ t0 _ ht0 ?_
  intro b hb t ht
  obtain ⟨T, rfl⟩ := ht
  by_cases hw : s.map_ (b : Int) (a : Int) = WALL
  · exact ⟨T, by simp [hw]⟩
  · have htr : isTraversable s (a : Int) (b : Int) :=
      ⟨⟨by omega, by exact_mod_cast ha⟩, by omega, by exact_mod_cast hb, hw⟩
    obtain ⟨d, hd⟩ := hterm _ _ htr
    exact ⟨T.insert ((a : Int), (b : Int)) d, by simp [hw, hd]⟩


theorem calculateDistances_correct (legal : LegalModel) (fuel : Nat) (x y : Int) (d : DistMap)
    (h : calculateDistances legal fuel x y = some d) (c : Cell) (n : Nat) :
    d.find c = some n ↔ IsShortest legal (x, y) c n :=
  calculateDistancesLoop_correct legal (x, y) fuel 0 _ _ (loopInvariant_init legal x y) d h c n

/-- Every call of `calculateDistances` from a cell of the map returns within
`width_ * height_` iterations when legal moves do not leave the map. -/
theorem calculateDistances_returns_on_map (legal : LegalModel) (s : State)
    (hgrid : ∀ x y, inBounds s x y → ∀ n ∈ legal x y, inBounds s n.1 n.2)
    (fuel : Nat) (hfuel : s.width_ * s.height_ ≤ fuel) (x y : Int) (hb : inBounds s x y) :
    ∃ d, calculateDistances legal fuel x y = some d := by
  have hcard := card_gridCells_le s
  refine calculateDistancesLoop_terminates legal (x, y) (gridCells s)
    ((mem_gridCells s (x, y)).mpr hb) ?_ fuel 0 _ _ (loopInvariant_init legal x y)
    (by simp [DistMap.insert]) (by simp [DistMap.insert]; omega)
  intro c hc b hbl
  exact (mem_gridCells s b).mpr (hgrid c.1 c.2 ((mem_gridCells s c).mp hc) b hbl)

theorem isTraversable_inBounds (s : State) (x y : Int) (h : isTraversable s x y) :
    inBounds s x y :=
  ⟨h.1.1, h.1.2, h.2.1, h.2.2.1⟩

/-- Under a symmetric legal-neighbour relation the shortest distance from `a`
to `b` is the shortest distance from `b` to `a`. -/
theorem IsShortest.symm (legal : LegalModel)
    (hsym : ∀ a b : Cell, b ∈ legal a.1 a.2 → a ∈ legal b.1 b.2) {a b : Cell} {n : Nat}
    (h : IsShortest legal a b n) : IsShortest legal b a n :=
  ⟨Walk.reverse legal hsym h.1, fun m w => h.2 m (Walk.reverse legal hsym w)⟩

/-- C10. Distance symmetry: under a symmetric legal-neighbour relation, the
table built by `precalculateAllDistances` has `distance(a, a) = 0` for every
non-WALL cell `a` of the map and `distance(a, b) = distance(b, a)` for all
non-WALL cells `a`, `b` with `b` reachable from `a`; and the table is built,
each loop of `calculateDistances` taking at most `width_ * height_`
iterations, when legal moves do not leave the map. -/
theorem C10_precalculated_distance_symmetric (legal : LegalModel) (s : State)
    (hsym : ∀ a b : Cell, b ∈ legal a.1 a.2 → a ∈ legal b.1 b.2) :
    (∀ fuel T, precalculateAllDistances legal fuel s = some T →
      (∀ a : Cell, isTraversable s a.1 a.2 → T.distance a a = some 0) ∧
      (∀ a b : Cell, isTraversable s a.1 a.2 → isTraversable s b.1 b.2 →
        (∃ n, Walk legal a n b) →
        ∃ n, T.distance a b = some n ∧ T.distance b a = some n)) ∧
    ((∀ x y, inBounds s x y → ∀ n ∈ legal x y, inBounds s n.1 n.2) →
      ∀ fuel, s.width_ * s.height_ ≤ fuel →
        ∃ T, precalculateAllDistances legal fuel s = some T) := by
  constructor
  · intro fuel T hT
    have hdist : ∀ a b : Cell, isTraversable s a.1 a.2 → ∀ n,
        T.distance a b = some n ↔ IsShortest legal a b n := by
      intro a b ha n
      obtain ⟨hfind, hret⟩ := precalculateAllDistances_find legal fuel s T hT a
      obtain ⟨d, hd⟩ := Option.ne_none_iff_exists'.mp (hret ha)
      have e : T.find a = some d := by rw [hfind, if_pos ha, hd]
      simp only [DistTable.distance, e]
      exact calculateDistances_correct legal fuel a.1 a.2 d hd b n
    refine ⟨?_, ?_⟩
    · intro a ha
      exact (hdist a a ha 0).mpr ((isShortest_zero_iff legal a a).mpr rfl)
    · rintro a b ha hb ⟨n, w⟩
      obtain ⟨m, hm, -⟩ := exists_isShortest legal a b n w
      exact ⟨m, (hdist a b ha m).mpr hm, (hdist b a hb m).mpr (IsShortest.symm legal hsym hm)⟩
  · intro hgrid fuel hfuel
    exact precalculateAllDistances_returns legal fuel s
      (fun x y ht => calculateDistances_returns_on_map legal s hgrid fuel hfuel x y
        (isTraversable_inBounds s x y ht))

/-- Witness of C10 on `wallAndTwoCells` with `exampleLegal` and 3 iterations
allowed: the relation is symmetric, legal moves stay inside the map, the table
is built, and the two non-WALL cells are at distance 1 from each other in both
directions. -/
theorem C10_precalculated_distance_symmetric_witness :
    (∀ a b : Cell, b ∈ exampleLegal a.1 a.2 → a ∈ exampleLegal b.1 b.2) ∧
    (∀ x y, inBounds wallAndTwoCells x y →
      ∀ n ∈ exampleLegal x y, inBounds wallAndTwoCells n.1 n.2) ∧
    precalculateAllDistances exampleLegal 3 wallAndTwoCells
      = some [((1, 0), [((1, 0), 0), ((2, 0), 1)]), ((2, 0), [((2, 0), 0), ((1, 0), 1)])] ∧
    ∃ T, precalculateAllDistances exampleLegal 3 wallAndTwoCells = some T ∧
      T.distance (1, 0) (1, 0) = some 0 ∧
      ∃ n, T.distance (1, 0) (2, 0) = some n ∧ T.distance (2, 0) (1, 0) = some n := by
  have hgrid : ∀ x y, inBounds wallAndTwoCells x y →
      ∀ n ∈ exampleLegal x y, inBounds wallAndTwoCells n.1 n.2 := by
    intro x y _ n hn
    simp only [exampleLegal] at hn
    split_ifs at hn
    · simp only [List.mem_singleton] at hn
      subst hn
      simp [inBounds, wallAndTwoCells]
    · simp only [List.mem_singleton] at hn
      subst hn
      simp [inBounds, wallAndTwoCells]
    · simp at hn
  have hsym : ∀ a b : Cell, b ∈ exampleLegal a.1 a.2 → a ∈ exampleLegal b.1 b.2 := by
    rintro ⟨a1, a2⟩ b hb
    simp only [exampleLegal] at hb
    split_ifs at hb with h1 h2
    · simp only [List.mem_singleton] at hb
      subst hb
      obtain ⟨rfl, rfl⟩ := h1
      simp [exampleLegal]
    · simp only [List.mem_singleton] at hb
      subst hb
      obtain ⟨rfl, rfl⟩ := h2
      simp [exampleLegal]
    · simp at hb
  have h1 : isTraversable wallAndTwoCells 1 0 := by
    simp [isTraversable, wallAndTwoCells, rowGrid]
  have h2 : isTraversable wallAndTwoCells 2 0 := by
    simp [isTraversable, wallAndTwoCells, rowGrid]
  obtain ⟨T, hT⟩ := (C10_precalculated_distance_symmetric exampleLegal wallAndTwoCells hsym).2
    hgrid 3 (by decide)
  obtain ⟨hself, hpair⟩ :=
    (C10_precalculated_distance_symmetric exampleLegal wallAndTwoCells hsym).1 3 T hT
  refine ⟨hsym, hgrid, by decide, T, hT, hself (1, 0) h1, ?_⟩
  exact hpair (1, 0) (2, 0) h1 h2 ⟨1, Walk.snoc Walk.nil (by simp [exampleLegal])⟩


/-! ## Triangle inequality of the distance table -/

/-- In a table built by `precalculateAllDistances`, the entry of a non-WALL
cell `a` of the map and a cell `b` is `n` exactly when `n` is the shortest
distance from `a` to `b`. -/
theorem precalculated_distance_iff (legal : LegalModel) (fuel : Nat) (s : State) (T : DistTable)
    (hT : precalculateAllDistances legal fuel s = some T) (a b : Cell)
    (ha : isTraversable s a.1 a.2) (n : Nat) :
    T.distance a b = some n ↔ IsShortest legal a b n := by
  obtain ⟨hfind, hret⟩ := precalculateAllDistances_find legal fuel s T hT a
  obtain ⟨d, hd⟩ := Option.ne_none_iff_exists'.mp (hret ha)
  have e : T.find a = some d := by rw [hfind, if_pos ha, hd]
  simp only [DistTable.distance, e]
  exact calculateDistances_correct legal fuel a.1 a.2 d hd b n

/-- C11. Triangle inequality: for non-WALL cells `a`, `b`, `c` of the map with
`b` reachable from `a` and `c` reachable from `b`, the table built by
`precalculateAllDistances` has entries for the three pairs and
`distance(a, c) ≤ distance(a, b) + distance(b, c)`; and the table is built,
each loop of `calculateDistances` taking at most `width_ * height_`
iterations, when legal moves do not leave the map. -/
theorem C11_precalculated_distance_triangle (legal : LegalModel) (s : State) :
    (∀ fuel T, precalculateAllDistances legal fuel s = some T →
      ∀ a b c : Cell, isTraversable s a.1 a.2 → isTraversable s b.1 b.2 →
        isTraversable s c.1 c.2 → (∃ n, Walk legal a n b) → (∃ n, Walk legal b n c) →
        ∃ dab dbc dac, T.distance a b = some dab ∧ T.distance b c = some dbc ∧
          T.distance a c = some dac ∧ dac ≤ dab + dbc) ∧
    ((∀ x y, inBounds s x y → ∀ n ∈ legal x y, inBounds s n.1 n.2) →
      ∀ fuel, s.width_ * s.height_ ≤ fuel →
        ∃ T, precalculateAllDistances legal fuel s = some T) := by
  constructor
  · rintro fuel T hT a b c ha hb - ⟨n, wab⟩ ⟨m, wbc⟩
    obtain ⟨dab, hab, -⟩ := exists_isShortest legal a b n wab
    obtain ⟨dbc, hbc, -⟩ := exists_isShortest legal b c m wbc
    obtain ⟨dac, hac, hle⟩ := exists_isShortest legal a c (dab + dbc)
      (Walk.append legal hab.1 hbc.1)
    exact ⟨dab, dbc, dac,
      (precalculated_distance_iff legal fuel s T hT a b ha dab).mpr hab,
      (precalculated_distance_iff legal fuel s T hT b c hb dbc).mpr hbc,
      (precalculated_distance_iff legal fuel s T hT a c ha dac).mpr hac, hle⟩
  · intro hgrid fuel hfuel
    exact precalculateAllDistances_returns legal fuel s
      (fun x y ht => calculateDistances_returns_on_map legal s hgrid fuel hfuel x y
        (isTraversable_inBounds s x y ht))

/-- Witness of C11 on `wallAndTwoCells` with `exampleLegal` and 3 iterations
allowed, for the triple `(1, 0)`, `(2, 0)`, `(1, 0)`: the table is built and
`distance((1,0),(1,0)) = 0 ≤ 1 + 1`. -/
theorem C11_precalculated_distance_triangle_witness :
    precalculateAllDistances exampleLegal 3 wallAndTwoCells
      = some [((1, 0), [((1, 0), 0), ((2, 0), 1)]), ((2, 0), [((2, 0), 0), ((1, 0), 1)])] ∧
    ∃ dab dbc dac,
      DistTable.distance [((1, 0), [((1, 0), 0), ((2, 0), 1)]), ((2, 0), [((2, 0), 0), ((1, 0), 1)])]
        (1, 0) (2, 0) = some dab ∧
      DistTable.distance [((1, 0), [((1, 0), 0), ((2, 0), 1)]), ((2, 0), [((2, 0), 0), ((1, 0), 1)])]
        (2, 0) (1, 0) = some dbc ∧
      DistTable.distance [((1, 0), [((1, 0), 0), ((2, 0), 1)]), ((2, 0), [((2, 0), 0), ((1, 0), 1)])]
        (1, 0) (1, 0) = some dac ∧ dac ≤ dab + dbc := by
  have hT : precalculateAllDistances exampleLegal 3 wallAndTwoCells
      = some [((1, 0), [((1, 0), 0), ((2, 0), 1)]), ((2, 0), [((2, 0), 0), ((1, 0), 1)])] := by
    decide
  have h1 : isTraversable wallAndTwoCells 1 0 := by
    simp [isTraversable, wallAndTwoCells, rowGrid]
  have h2 : isTraversable wallAndTwoCells 2 0 := by
    simp [isTraversable, wallAndTwoCells, rowGrid]
  exact ⟨hT, (C11_precalculated_distance_triangle exampleLegal wallAndTwoCells).1 3 _ hT
    (1, 0) (2, 0) (1, 0) h1 h2 h1
    ⟨1, Walk.snoc Walk.nil (by simp [exampleLegal])⟩
    ⟨1, Walk.snoc Walk.nil (by simp [exampleLegal])⟩⟩


/-! ## The most probable cell -/

/-- One run of the body of the scan keeps the invariant, when the new cell
`(a, b)` comes after every visited cell, columns before rows. -/
theorem ScanInvariant.step (INFINITE : Int) (g : Grid ℚ) (visited : Int → Int → Prop)
    (st : Int × Int × ℚ) (a b : Int) (inv : ScanInvariant INFINITE g visited st)
    (hlex : ∀ x y, visited x y → x < a ∨ (x = a ∧ y < b)) :
    ScanInvariant INFINITE g (fun x y => visited x y ∨ (x = a ∧ y = b))
      (if g b a > st.2.2 then (a, b, g b a) else st) := by
  obtain ⟨hub, hrec⟩ := inv
  by_cases hgt : g b a > st.2.2
  · rw [if_pos hgt]
    refine ⟨?_, Or.inr ⟨Or.inr ⟨rfl, rfl⟩, rfl, ?_, ?_⟩⟩
    · rintro x y (hv | ⟨rfl, rfl⟩)
      · exact le_of_lt (lt_of_le_of_lt (hub x y hv) hgt)
      · exact le_refl _
    · rcases hrec with h | ⟨_, _, h, _⟩
      · rw [h] at hgt
        exact hgt
      · exact lt_trans h hgt
    · rintro x y (hv | ⟨rfl, rfl⟩) he
      · exfalso
        have := hub x y hv
        simp only at he
        rw [he] at this
        exact absurd hgt (not_lt.mpr this)
      · exact Or.inr ⟨rfl, le_refl _⟩
  · rw [if_neg hgt]
    have hle : g b a ≤ st.2.2 := not_lt.mp hgt
    refine ⟨?_, ?_⟩
    · rintro x y (hv | ⟨rfl, rfl⟩)
      · exact hub x y hv
      · exact hle
    · rcases hrec with h | ⟨hv, hval, hinf, hfirst⟩
      · exact Or.inl h
      · refine Or.inr ⟨Or.inl hv, hval, hinf, ?_⟩
        rintro x y (hv' | ⟨rfl, rfl⟩) he
        · exact hfirst x y hv' he
        · rcases hlex _ _ hv with h | ⟨h1, h2⟩
          · exact Or.inl h
          · exact Or.inr ⟨h1, le_of_lt h2⟩

theorem ScanInvariant.congr (INFINITE : Int) (g : Grid ℚ) (v v' : Int → Int → Prop)
    (st : Int × Int × ℚ) (inv : ScanInvariant INFINITE g v st) (h : ∀ x y, v x y ↔ v' x y) :
    ScanInvariant INFINITE g v' st := by
  have : v = v' := by
    funext x y
    exact propext (h x y)
  rw [← this]
  exact inv

/-- The scan for the most probable cell, after all its loops: the invariant
holds over all the cells of the map. -/
theorem mostProbableScan_invariant (INFINITE : Int) (s : State) (g : Grid ℚ) :
    ScanInvariant INFINITE g (fun x y => inBounds s x y) (mostProbableScan INFINITE s g) := by
  unfold mostProbableScan
  have outer := forRange_induction
    (fun a st => ScanInvariant INFINITE g (scanned s.height_ a 0) st)
    s.width_ ((-1 : Int), (-1 : Int), -(INFINITE : ℚ))
    (fun st i => forRange s.height_ st fun st j =>
      if g j i > st.2.2 then (i, j, g j i) else st)
    (by
      refine ⟨?_, Or.inl rfl⟩
      rintro x y ⟨⟨h1, h2, h3⟩, h4 | ⟨h4, h5⟩⟩
      · exfalso; push_cast at h4; omega
      · exfalso; push_cast at h5; omega)
    (by
      intro a _ st0 hst0
      have inner := forRange_induction
        (fun b st => ScanInvariant INFINITE g (scanned s.height_ a b) st)
        s.height_ st0
        (fun st j => if g j (a : Int) > st.2.2 then ((a : Int), j, g j (a : Int)) else st)
        hst0
        (by
          intro b hb st hst
          have hstep := ScanInvariant.step INFINITE g (scanned s.height_ a b) st (a : Int)
            (b : Int) hst (fun x y h => h.2)
          refine ScanInvariant.congr INFINITE g _ _ _ hstep ?_
          intro x y
          unfold scanned
          push_cast
          constructor
          · rintro (⟨h1, h2⟩ | ⟨rfl, rfl⟩)
            · refine ⟨h1, ?_⟩
              rcases h2 with h | ⟨h, h'⟩
              · exact Or.inl h
              · exact Or.inr ⟨h, by omega⟩
            · exact ⟨⟨by omega, by omega, by omega⟩, Or.inr ⟨rfl, by omega⟩⟩
          · rintro ⟨h1, h | ⟨h, h'⟩⟩
            · exact Or.inl ⟨h1, Or.inl h⟩
            · by_cases e : y = (b : Int)
              · exact Or.inr ⟨h, e⟩
              · exact Or.inl ⟨h1, Or.inr ⟨h, by omega⟩⟩)
      refine ScanInvariant.congr INFINITE g _ _ _ inner ?_
      intro x y
      unfold scanned
      push_cast
      constructor
      · rintro ⟨h1, h | ⟨h, h'⟩⟩
        · exact ⟨h1, Or.inl (by omega)⟩
        · exact ⟨h1, Or.inl (by omega)⟩
      · rintro ⟨h1, h | ⟨h, h'⟩⟩
        · refine ⟨h1, ?_⟩
          by_cases e : x = (a : Int)
          · exact Or.inr ⟨e, h1.2.2⟩
          · exact Or.inl (by omega)
        · exfalso; omega)
  refine ScanInvariant.congr INFINITE g _ _ _ outer ?_
  intro x y
  unfold scanned inBounds
  push_cast
  constructor
  · rintro ⟨⟨h1, h2, h3⟩, h | ⟨h, h'⟩⟩
    · exact ⟨h1, h, h2, h3⟩
    · exfalso; omega
  · rintro ⟨h1, h2, h3, h4⟩
    exact ⟨⟨h1, h3, h4⟩, Or.inl h2⟩


/-- The cell found by the scan, when some cell of the map has a value above
`-INFINITE`: a cell of the map that holds the largest value and comes first,
columns before rows, among the cells that hold it. -/
theorem mostProbableScan_first_maximum (INFINITE : Int) (s : State) (g : Grid ℚ)
    (h : ∃ px py, inBounds s px py ∧ -(INFINITE : ℚ) < g py px) :
    inBounds s (mostProbableScan INFINITE s g).1 (mostProbableScan INFINITE s g).2.1 ∧
    (∀ x y, inBounds s x y →
      g y x ≤ g (mostProbableScan INFINITE s g).2.1 (mostProbableScan INFINITE s g).1) ∧
    (∀ x y, inBounds s x y →
      g y x = g (mostProbableScan INFINITE s g).2.1 (mostProbableScan INFINITE s g).1 →
      (mostProbableScan INFINITE s g).1 < x ∨
        ((mostProbableScan INFINITE s g).1 = x ∧ (mostProbableScan INFINITE s g).2.1 ≤ y)) := by
  obtain ⟨hub, hrec⟩ := mostProbableScan_invariant INFINITE s g
  obtain ⟨px, py, hb, hp⟩ := h
  rcases hrec with h0 | ⟨hv, hval, -, hfirst⟩
  · exfalso
    have := hub px py hb
    rw [h0] at this
    exact absurd hp (not_lt.mpr this)
  · refine ⟨hv, ?_, ?_⟩
    · intro x y hxy
      rw [hval]
      exact hub x y hxy
    · intro x y hxy he
      rw [hval] at he
      exact hfirst x y hxy he

/-- C15, as amended. Most-probable pose: for a belief grid with a cell of the
map whose value is above `-util::INFINITE`, `getMostProbablePacmanPose` and
`getMostProbableGhostPose` return a cell of the map whose value is the maximum
of the grid, and among the cells that hold the maximum it is the first in the
traversal of the code, which goes column by column (`x` ascending, `y`
ascending within a column). -/
theorem C15_most_probable_pose_first_maximum (INFINITE : Int) (s : State) (k : Nat) :
    ((∃ px py, inBounds s px py ∧ -(INFINITE : ℚ) < s.pacman_pose_map_ py px) →
      inBounds s (getMostProbablePacmanPose INFINITE s).1 (getMostProbablePacmanPose INFINITE s).2 ∧
      (∀ x y, inBounds s x y → s.pacman_pose_map_ y x ≤
        s.pacman_pose_map_ (getMostProbablePacmanPose INFINITE s).2
          (getMostProbablePacmanPose INFINITE s).1) ∧
      (∀ x y, inBounds s x y →
        s.pacman_pose_map_ y x = s.pacman_pose_map_ (getMostProbablePacmanPose INFINITE s).2
          (getMostProbablePacmanPose INFINITE s).1 →
        (getMostProbablePacmanPose INFINITE s).1 < x ∨
          ((getMostProbablePacmanPose INFINITE s).1 = x ∧
            (getMostProbablePacmanPose INFINITE s).2 ≤ y))) ∧
    ((∃ px py, inBounds s px py ∧ -(INFINITE : ℚ) < s.ghosts_poses_map_ k py px) →
      inBounds s (getMostProbableGhostPose INFINITE s k).1
        (getMostProbableGhostPose INFINITE s k).2 ∧
      (∀ x y, inBounds s x y → s.ghosts_poses_map_ k y x ≤
        s.ghosts_poses_map_ k (getMostProbableGhostPose INFINITE s k).2
          (getMostProbableGhostPose INFINITE s k).1) ∧
      (∀ x y, inBounds s x y →
        s.ghosts_poses_map_ k y x = s.ghosts_poses_map_ k (getMostProbableGhostPose INFINITE s k).2
          (getMostProbableGhostPose INFINITE s k).1 →
        (getMostProbableGhostPose INFINITE s k).1 < x ∨
          ((getMostProbableGhostPose INFINITE s k).1 = x ∧
            (getMostProbableGhostPose INFINITE s k).2 ≤ y))) :=
  ⟨fun h => mostProbableScan_first_maximum INFINITE s s.pacman_pose_map_ h,
   fun h => mostProbableScan_first_maximum INFINITE s (s.ghosts_poses_map_ k) h⟩

theorem mostProbableScan_twoByTwoTies (INFINITE : Int) (h : 0 < INFINITE) :
    mostProbableScan INFINITE twoByTwoTies twoByTwoTies.pacman_pose_map_
      = ((0 : Int), (1 : Int), (1 / 2 : ℚ)) := by
  have h1 : -(INFINITE : ℚ) < 0 := by
    have : (0 : ℚ) < (INFINITE : ℚ) := by exact_mod_cast h
    linarith
  simp [mostProbableScan, forRange, List.range_succ, twoByTwoTies, h1]

/-- Counterexample to C15 as stated: on `twoByTwoTies` the maximum `1/2` of the
belief of pacman is held by the cells `(1, 0)` and `(0, 1)`; the first of them
in a row-major traversal is `(1, 0)`, in row 0, and for every positive
`util::INFINITE` the code returns `(0, 1)`, in row 1. -/
theorem C15_scan_is_column_major :
    (∀ INFINITE : Int, 0 < INFINITE →
      getMostProbablePacmanPose INFINITE twoByTwoTies = (0, 1) ∧
      getMostProbableGhostPose INFINITE twoByTwoTies 0 = (0, 1)) ∧
    inBounds twoByTwoTies 1 0 ∧
    twoByTwoTies.pacman_pose_map_ 0 1 = 1 / 2 ∧ twoByTwoTies.pacman_pose_map_ 1 0 = 1 / 2 ∧
    (∀ x y, twoByTwoTies.pacman_pose_map_ y x ≤ 1 / 2) ∧
    ¬ (∀ INFINITE : Int, 0 < INFINITE → ∀ x y, inBounds twoByTwoTies x y →
        twoByTwoTies.pacman_pose_map_ y x
          = twoByTwoTies.pacman_pose_map_ (getMostProbablePacmanPose INFINITE twoByTwoTies).2
              (getMostProbablePacmanPose INFINITE twoByTwoTies).1 →
        (getMostProbablePacmanPose INFINITE twoByTwoTies).2 < y ∨
          ((getMostProbablePacmanPose INFINITE twoByTwoTies).2 = y ∧
            (getMostProbablePacmanPose INFINITE twoByTwoTies).1 ≤ x)) := by
  have hp : ∀ INFINITE : Int, 0 < INFINITE →
      getMostProbablePacmanPose INFINITE twoByTwoTies = (0, 1) := by
    intro INFINITE h
    simp [getMostProbablePacmanPose, mostProbableScan_twoByTwoTies INFINITE h]
  have hg : ∀ INFINITE : Int, 0 < INFINITE →
      getMostProbableGhostPose INFINITE twoByTwoTies 0 = (0, 1) := by
    intro INFINITE h
    have : twoByTwoTies.ghosts_poses_map_ 0 = twoByTwoTies.pacman_pose_map_ := rfl
    simp [getMostProbableGhostPose, this, mostProbableScan_twoByTwoTies INFINITE h]
  refine ⟨fun I h => ⟨hp I h, hg I h⟩, by simp [inBounds, twoByTwoTies],
    by simp [twoByTwoTies], by simp [twoByTwoTies], ?_, ?_⟩
  · intro x y
    simp only [twoByTwoTies]
    split_ifs <;> norm_num
  · intro hall
    have := hall 1 (by decide) 1 0 (by simp [inBounds, twoByTwoTies])
      (by rw [hp 1 (by decide)]; simp [twoByTwoTies])
    rw [hp 1 (by decide)] at this
    simp at this

/-- Witness of C15 as amended, on `twoByTwoTies` with `util::INFINITE` taken as
1000000: a cell has a value above `-1000000`, and the cell returned, `(0, 1)`,
is a cell of the map with the largest belief. -/
theorem C15_most_probable_pose_first_maximum_witness :
    (∃ px py, inBounds twoByTwoTies px py ∧
      -((1000000 : Int) : ℚ) < twoByTwoTies.pacman_pose_map_ py px) ∧
    inBounds twoByTwoTies (getMostProbablePacmanPose 1000000 twoByTwoTies).1
      (getMostProbablePacmanPose 1000000 twoByTwoTies).2 ∧
    (∀ x y, inBounds twoByTwoTies x y → twoByTwoTies.pacman_pose_map_ y x ≤
      twoByTwoTies.pacman_pose_map_ (getMostProbablePacmanPose 1000000 twoByTwoTies).2
        (getMostProbablePacmanPose 1000000 twoByTwoTies).1) := by
  have h : ∃ px py, inBounds twoByTwoTies px py ∧
      -((1000000 : Int) : ℚ) < twoByTwoTies.pacman_pose_map_ py px := by
    refine ⟨0, 0, by simp [inBounds, twoByTwoTies], ?_⟩
    simp [twoByTwoTies]
  have hc := (C15_most_probable_pose_first_maximum 1000000 twoByTwoTies 0).1 h
  exact ⟨h, hc.1, hc.2.1⟩


/-! ## Inserting lookups -/

theorem DistMap.index_value (d : DistMap) (c : Cell) :
    (((d.index c).1 : Nat) : Int) = lookupOrZero d c := by
  unfold DistMap.index lookupOrZero
  cases d.find c <;> rfl

/-- An inserting lookup does not change what later lookups read. -/
theorem DistMap.index_lookupOrZero (d : DistMap) (c k : Cell) :
    lookupOrZero (d.index c).2 k = lookupOrZero d k := by
  unfold DistMap.index lookupOrZero
  cases h : d.find c with
  | some v => rfl
  | none =>
    simp only [DistMap.find_insert]
    by_cases e : k = c
    · subst e
      simp [h]
    · simp [e]

theorem lookupOrZero_nonneg (d : DistMap) (c : Cell) : 0 ≤ lookupOrZero d c := by
  unfold lookupOrZero
  exact Int.natCast_nonneg _

/-- The loop that keeps the smallest looked-up distance, over a list of cells:
`min_dist` ends as the smallest of its first value and the values read from
the map the loop started with. -/
theorem foldl_keepSmaller (d0 : DistMap) (l : List Cell) :
    ∀ (d : DistMap) (m : Int), (∀ k, lookupOrZero d k = lookupOrZero d0 k) →
      (l.foldl keepSmaller (d, m)).2 = (l.map (lookupOrZero d0)).foldl min m := by
  induction l with
  | nil => intro d m _; rfl
  | cons c l ih =>
    intro d m hd
    rw [List.foldl_cons, List.map_cons, List.foldl_cons]
    have hv : (((d.index c).1 : Nat) : Int) = lookupOrZero d0 c := by
      rw [DistMap.index_value, hd]
    have hd' : ∀ k, lookupOrZero (d.index c).2 k = lookupOrZero d0 k := by
      intro k
      rw [DistMap.index_lookupOrZero, hd]
    by_cases hlt : lookupOrZero d0 c < m
    · have e : keepSmaller (d, m) c = ((d.index c).2, lookupOrZero d0 c) := by
        simp only [keepSmaller, hv, hlt, if_true]
      rw [e, ih _ _ hd', min_eq_right (le_of_lt hlt)]
    · have e : keepSmaller (d, m) c = ((d.index c).2, m) := by
        simp only [keepSmaller, hv, hlt, if_false]
      rw [e, ih _ _ hd', min_eq_left (not_lt.mp hlt)]

theorem foldl_min_reverse (l : List Int) (m : Int) :
    l.reverse.foldl min m = l.foldr min m := by
  rw [List.foldl_reverse]
  congr 1
  funext a b
  exact min_comm b a

theorem foldr_min_le_init (l : List Int) (m : Int) : l.foldr min m ≤ m := by
  induction l with
  | nil => exact le_refl m
  | cons a l ih => exact le_trans (min_le_right _ _) ih

theorem foldr_min_le_of_mem (l : List Int) (m a : Int) (h : a ∈ l) : l.foldr min m ≤ a := by
  induction l with
  | nil => simp at h
  | cons b l ih =>
    rcases List.mem_cons.mp h with e | e
    · subst e
      exact min_le_left _ _
    · exact le_trans (min_le_right _ _) (ih e)

theorem foldr_min_nonneg (l : List Int) (m : Int) (hm : 0 ≤ m) (hl : ∀ a ∈ l, 0 ≤ a) :
    0 ≤ l.foldr min m := by
  induction l with
  | nil => exact hm
  | cons b l ih =>
    exact le_min (hl b (List.mem_cons_self _ _)) (ih (fun a ha => hl a (List.mem_cons_of_mem _ ha)))

theorem smallestLookedUp_nonneg (INFINITE : Int) (d : DistMap) (cells : List Cell)
    (h : 0 ≤ INFINITE) : 0 ≤ smallestLookedUp INFINITE d cells := by
  unfold smallestLookedUp
  refine foldr_min_nonneg _ _ h ?_
  intro a ha
  obtain ⟨c, -, rfl⟩ := List.mem_map.mp ha
  exact lookupOrZero_nonneg d c

/-! ## The closest ghost -/

/-- The value returned by `getClosestGhostDistance`: the smallest of
`util::INFINITE` and the distances read, in the map of the ground-truth cell
of pacman, for the most probable cells of the ghosts, with 0 replaced by 1. -/
theorem getClosestGhostDistance_value (INFINITE : Int) (s : State) :
    (getClosestGhostDistance INFINITE s).1
      = if smallestLookedUp INFINITE (getDistances s (pacmanCell s).1 (pacmanCell s).2).1
            (getMostProbableGhostsPoses INFINITE s) = 0 then 1
        else smallestLookedUp INFINITE (getDistances s (pacmanCell s).1 (pacmanCell s).2).1
            (getMostProbableGhostsPoses INFINITE s) := by
  have e := foldl_keepSmaller (getDistances s (pacmanCell s).1 (pacmanCell s).2).1
    (getMostProbableGhostsPoses INFINITE s).reverse
    (getDistances s (pacmanCell s).1 (pacmanCell s).2).1 INFINITE (fun _ => rfl)
  rw [List.map_reverse, foldl_min_reverse] at e
  simp only [getClosestGhostDistance, smallestLookedUp, pacmanCell] at e ⊢
  rw [e]

/-- C13. `getClosestGhostDistance` never returns 0, for any state and any
value of `util::INFINITE`; and it returns 1 whenever the smallest looked-up
distance is 0, which is the case, `util::INFINITE` not being negative, as soon
as the distance looked up for one ghost is 0. -/
theorem C13_getClosestGhostDistance_never_zero (INFINITE : Int) (s : State) :
    (getClosestGhostDistance INFINITE s).1 ≠ 0 ∧
    (smallestLookedUp INFINITE (getDistances s (pacmanCell s).1 (pacmanCell s).2).1
        (getMostProbableGhostsPoses INFINITE s) = 0 →
      (getClosestGhostDistance INFINITE s).1 = 1) ∧
    (0 ≤ INFINITE →
      (∃ c ∈ getMostProbableGhostsPoses INFINITE s,
        lookupOrZero (getDistances s (pacmanCell s).1 (pacmanCell s).2).1 c = 0) →
      (getClosestGhostDistance INFINITE s).1 = 1) := by
  rw [getClosestGhostDistance_value]
  refine ⟨?_, ?_, ?_⟩
  · split
    · exact one_ne_zero
    · next h => exact h
  · intro h
    rw [if_pos h]
  · rintro hI ⟨c, hc, h0⟩
    have hle : smallestLookedUp INFINITE (getDistances s (pacmanCell s).1 (pacmanCell s).2).1
        (getMostProbableGhostsPoses INFINITE s) ≤ 0 := by
      rw [← h0]
      exact foldr_min_le_of_mem _ _ _ (List.mem_map.mpr ⟨c, hc, rfl⟩)
    have hge := smallestLookedUp_nonneg INFINITE
      (getDistances s (pacmanCell s).1 (pacmanCell s).2).1
      (getMostProbableGhostsPoses INFINITE s) hI
    rw [if_pos (le_antisymm hle hge)]

/-- The most probable cell of the ghost on the corridor is the cell it is
believed at, here for the cells `(0, 0)`, `(1, 0)` and `(3, 0)`. -/
theorem getMostProbableGhostsPoses_corridor (INFINITE : Int) (h : 0 < INFINITE) :
    getMostProbableGhostsPoses INFINITE (corridorWithGhostBelievedAt 0) = [(0, 0)] ∧
    getMostProbableGhostsPoses INFINITE (corridorWithGhostBelievedAt 1) = [(1, 0)] ∧
    getMostProbableGhostsPoses INFINITE (corridorWithGhostBelievedAt 3) = [(3, 0)] := by
  have h1 : -(INFINITE : ℚ) < 0 := by
    have : (0 : ℚ) < (INFINITE : ℚ) := by exact_mod_cast h
    linarith
  have h2 : -(INFINITE : ℚ) < 1 := by linarith
  have h3 : ¬ ((1 : ℚ) < 0) := by norm_num
  refine ⟨?_, ?_, ?_⟩ <;>
    simp [getMostProbableGhostsPoses, getMostProbableGhostPose, mostProbableScan, forRange,
      List.range_succ, corridorWithGhostBelievedAt, h1, h2, h3]

/-- Witness of C13 on the corridor with the ghost believed at the cell of
pacman, `util::INFINITE` taken as 1000000: the distance looked up for the
ghost is 0 and the value returned is 1. -/
theorem C13_getClosestGhostDistance_never_zero_witness :
    (0 : Int) ≤ 1000000 ∧
    (∃ c ∈ getMostProbableGhostsPoses 1000000 (corridorWithGhostBelievedAt 0),
      lookupOrZero (getDistances (corridorWithGhostBelievedAt 0)
        (pacmanCell (corridorWithGhostBelievedAt 0)).1
        (pacmanCell (corridorWithGhostBelievedAt 0)).2).1 c = 0) ∧
    (getClosestGhostDistance 1000000 (corridorWithGhostBelievedAt 0)).1 = 1 ∧
    (getClosestGhostDistance 1000000 (corridorWithGhostBelievedAt 0)).1 ≠ 0 := by
  have hex : ∃ c ∈ getMostProbableGhostsPoses 1000000 (corridorWithGhostBelievedAt 0),
      lookupOrZero (getDistances (corridorWithGhostBelievedAt 0)
        (pacmanCell (corridorWithGhostBelievedAt 0)).1
        (pacmanCell (corridorWithGhostBelievedAt 0)).2).1 c = 0 := by
    refine ⟨(0, 0), ?_, ?_⟩
    · rw [(getMostProbableGhostsPoses_corridor 1000000 (by decide)).1]
      simp
    · have hc : pacmanCell (corridorWithGhostBelievedAt 0) = (0, 0) := by
        simp [pacmanCell, truncToInt, corridorWithGhostBelievedAt]
      rw [hc]
      decide
  have h := C13_getClosestGhostDistance_never_zero 1000000 (corridorWithGhostBelievedAt 0)
  exact ⟨by decide, hex, h.2.2 (by decide) hex, h.1⟩


/-- C14, as amended. `getClosestGhostDistance` is computed from the
ground-truth pose of pacman and, for the ghosts, from the most probable cells
of their belief grids: states that agree on the size of the map, the number of
ghosts, the ground-truth pose of pacman, the distance table and the belief
grids of the ghosts give the same result, whatever the ground-truth poses of
the ghosts are; and when each of these cells has an entry in the distance map
of the cell of pacman and `util::INFINITE` is not negative, the result is
`max(1, m)`, `m` being the smallest of `util::INFINITE` and the distances from
the cell of pacman to the most probable cells of the ghosts. -/
theorem C14_getClosestGhostDistance_reads_ghost_beliefs (INFINITE : Int) (s : State) :
    (∀ s' : State, s'.width_ = s.width_ → s'.height_ = s.height_ →
      s'.num_ghosts_ = s.num_ghosts_ → s'.pacman_pose_ = s.pacman_pose_ →
      s'.precalculated_distances_ = s.precalculated_distances_ →
      s'.ghosts_poses_map_ = s.ghosts_poses_map_ →
      (getClosestGhostDistance INFINITE s').1 = (getClosestGhostDistance INFINITE s).1) ∧
    (0 ≤ INFINITE →
      (∀ c ∈ getMostProbableGhostsPoses INFINITE s,
        (getDistances s (pacmanCell s).1 (pacmanCell s).2).1.find c ≠ none) →
      (getClosestGhostDistance INFINITE s).1
        = max 1 (smallestLookedUp INFINITE (getDistances s (pacmanCell s).1 (pacmanCell s).2).1
            (getMostProbableGhostsPoses INFINITE s))) := by
  constructor
  · intro s' hw hh hn hp ht hg
    simp only [getClosestGhostDistance, getDistances, getMostProbableGhostsPoses,
      getMostProbableGhostPose, mostProbableScan, hw, hh, hn, hp, ht, hg]
  · intro hI _
    rw [getClosestGhostDistance_value]
    have hge := smallestLookedUp_nonneg INFINITE
      (getDistances s (pacmanCell s).1 (pacmanCell s).2).1
      (getMostProbableGhostsPoses INFINITE s) hI
    split
    · next h => rw [h]; rfl
    · next h =>
      rw [max_eq_right]
      omega

theorem getClosestGhostDistance_corridor (INFINITE : Int) (h : 3 < INFINITE) :
    (getClosestGhostDistance INFINITE (corridorWithGhostBelievedAt 3)).1 = 3 ∧
    (getClosestGhostDistance INFINITE (corridorWithGhostBelievedAt 1)).1 = 1 := by
  have hc : ∀ x, pacmanCell (corridorWithGhostBelievedAt x) = (0, 0) := by
    intro x
    simp [pacmanCell, truncToInt, corridorWithGhostBelievedAt]
  have hd : ∀ x, (getDistances (corridorWithGhostBelievedAt x) 0 0).1
      = [((0, 0), 0), ((1, 0), 1), ((2, 0), 2), ((3, 0), 3)] := by
    intro x
    rfl
  have h3 : lookupOrZero [((0, 0), 0), ((1, 0), 1), ((2, 0), 2), ((3, 0), 3)] (3, 0) = 3 := by
    decide
  have h1 : lookupOrZero [((0, 0), 0), ((1, 0), 1), ((2, 0), 2), ((3, 0), 3)] (1, 0) = 1 := by
    decide
  obtain ⟨-, p1, p3⟩ := getMostProbableGhostsPoses_corridor INFINITE (by omega)
  constructor
  · rw [getClosestGhostDistance_value, hc, hd, p3]
    simp only [smallestLookedUp, List.map_cons, List.map_nil, List.foldr_cons, List.foldr_nil, h3]
    rw [min_eq_left (le_of_lt h)]
    simp
  · rw [getClosestGhostDistance_value, hc, hd, p1]
    simp only [smallestLookedUp, List.map_cons, List.map_nil, List.foldr_cons, List.foldr_nil, h1]
    rw [min_eq_left (by omega)]
    simp

/-- Counterexample to C14 as stated: the corridor states with the ghost believed
at `(3, 0)` and at `(1, 0)` have the same ground-truth poses (pacman at
`(0, 0)`, the ghost at `(3, 0)`, at distance 3 in the table) and the same
distance table, which is the one `precalculateAllDistances` builds; for every
`util::INFINITE` above 3 the code returns 3 on the first and 1 on the second,
not `max(1, 3)`. -/
theorem C14_result_follows_ghost_belief :
    (corridorWithGhostBelievedAt 3).pacman_pose_ = (corridorWithGhostBelievedAt 1).pacman_pose_ ∧
    (corridorWithGhostBelievedAt 3).ghosts_poses_ = (corridorWithGhostBelievedAt 1).ghosts_poses_ ∧
    (corridorWithGhostBelievedAt 3).precalculated_distances_
      = (corridorWithGhostBelievedAt 1).precalculated_distances_ ∧
    precalculateAllDistances corridorLegal 4 (corridorWithGhostBelievedAt 1)
      = some (corridorWithGhostBelievedAt 1).precalculated_distances_ ∧
    (corridorWithGhostBelievedAt 1).precalculated_distances_.distance (0, 0) (3, 0) = some 3 ∧
    (∀ INFINITE : Int, 3 < INFINITE →
      (getClosestGhostDistance INFINITE (corridorWithGhostBelievedAt 3)).1 = 3 ∧
      (getClosestGhostDistance INFINITE (corridorWithGhostBelievedAt 1)).1 = 1) ∧
    ¬ (∀ INFINITE : Int, 3 < INFINITE →
      (getClosestGhostDistance INFINITE (corridorWithGhostBelievedAt 1)).1 = max 1 3) := by
  refine ⟨rfl, rfl, rfl, by decide, by decide, getClosestGhostDistance_corridor, ?_⟩
  intro hall
  have h1 := (getClosestGhostDistance_corridor 4 (by decide)).2
  have h2 := hall 4 (by decide)
  rw [h1] at h2
  exact absurd h2 (by decide)

/-- Witness of C14 as amended, on the corridor with the ghost believed at
`(1, 0)` and `util::INFINITE` taken as 1000000: the most probable cell of the
ghost has an entry in the distance map of the cell of pacman, and the result
is `max(1, m)`. -/
theorem C14_getClosestGhostDistance_reads_ghost_beliefs_witness :
    (0 : Int) ≤ 1000000 ∧
    (∀ c ∈ getMostProbableGhostsPoses 1000000 (corridorWithGhostBelievedAt 1),
      (getDistances (corridorWithGhostBelievedAt 1)
        (pacmanCell (corridorWithGhostBelievedAt 1)).1
        (pacmanCell (corridorWithGhostBelievedAt 1)).2).1.find c ≠ none) ∧
    (getClosestGhostDistance 1000000 (corridorWithGhostBelievedAt 1)).1
      = max 1 (smallestLookedUp 1000000
          (getDistances (corridorWithGhostBelievedAt 1)
            (pacmanCell (corridorWithGhostBelievedAt 1)).1
            (pacmanCell (corridorWithGhostBelievedAt 1)).2).1
          (getMostProbableGhostsPoses 1000000 (corridorWithGhostBelievedAt 1))) := by
  have hent : ∀ c ∈ getMostProbableGhostsPoses 1000000 (corridorWithGhostBelievedAt 1),
      (getDistances (corridorWithGhostBelievedAt 1)
        (pacmanCell (corridorWithGhostBelievedAt 1)).1
        (pacmanCell (corridorWithGhostBelievedAt 1)).2).1.find c ≠ none := by
    intro c hc
    rw [(getMostProbableGhostsPoses_corridor 1000000 (by decide)).2.1] at hc
    simp only [List.mem_singleton] at hc
    subst hc
    have hcell : pacmanCell (corridorWithGhostBelievedAt 1) = (0, 0) := by
      simp [pacmanCell, truncToInt, corridorWithGhostBelievedAt]
    rw [hcell]
    decide
  exact ⟨by decide, hent,
    (C14_getClosestGhostDistance_reads_ghost_beliefs 1000000 (corridorWithGhostBelievedAt 1)).2
      (by decide) hent⟩


/-! ## Queries on a map with unreachable cells -/

theorem islands_poses (INFINITE : Int) (h : 0 < INFINITE) :
    getMostProbablePacmanPose INFINITE islands = (0, 0) ∧
    getMostProbableGhostsPoses INFINITE islands = [(2, 0)] := by
  have h1 : -(INFINITE : ℚ) < 0 := by
    have : (0 : ℚ) < (INFINITE : ℚ) := by exact_mod_cast h
    linarith
  have h2 : -(INFINITE : ℚ) < 1 := by linarith
  have h3 : ¬ ((1 : ℚ) < 0) := by norm_num
  constructor
  · simp [getMostProbablePacmanPose, mostProbableScan, forRange, List.range_succ, islands,
      rowGrid, h1, h2, h3]
  · simp [getMostProbableGhostsPoses, getMostProbableGhostPose, mostProbableScan, forRange,
      List.range_succ, islands, rowGrid, h1, h2, h3]

theorem islands_unreachable : ¬ ∃ n, Walk noNeighbours (0, 0) n (2, 0) := by
  rintro ⟨n, w⟩
  cases w with
  | snoc _ e => simp [noNeighbours] at e

theorem islands_maxFood (INFINITE : Int) (h : 0 < INFINITE) :
    getMaxFoodProbability INFINITE islands = 4 / 5 := by
  have h1 : -(INFINITE : ℚ) < 0 := by
    have : (0 : ℚ) < (INFINITE : ℚ) := by exact_mod_cast h
    linarith
  have h2 : -(INFINITE : ℚ) < 4 / 5 := by linarith
  simp [getMaxFoodProbability, forRange, List.range_succ, islands, rowGrid, h1, h2]

/-- C12 (the code at a failing input). On `islands`, whose distance table is
the one `precalculateAllDistances` builds, the most probable cell of pacman is
`(0, 0)`, the largest food value is `4/5`, and the only cell of the map with a
food value of at least `2/5` is `(2, 0)`, which is not reachable from `(0, 0)`
and has no entry in its distance map; for every positive `util::INFINITE`,
`getClosestFoodDistance` returns 0, not `util::INFINITE`. -/
theorem C12_unreachable_food_is_at_distance_zero :
    precalculateAllDistances noNeighbours 3 islands = some islands.precalculated_distances_ ∧
    (¬ ∃ n, Walk noNeighbours (0, 0) n (2, 0)) ∧
    islands.precalculated_distances_.distance (0, 0) (2, 0) = none ∧
    (∀ x y, inBounds islands x y → islands.foods_map_ y x ≥ 4 / 5 / 2 → (x, y) = (2, 0)) ∧
    (∀ INFINITE : Int, 0 < INFINITE →
      getMostProbablePacmanPose INFINITE islands = (0, 0) ∧
      getMaxFoodProbability INFINITE islands = 4 / 5 ∧
      (getClosestFoodDistance INFINITE islands).1 = 0 ∧
      (getClosestFoodDistance INFINITE islands).1 ≠ (INFINITE : ℚ)) := by
  refine ⟨by decide, islands_unreachable, by decide, ?_, ?_⟩
  · rintro x y ⟨h1, h2, h3, h4⟩ hf
    simp only [islands] at h2 h4
    have hy : y = 0 := by omega
    subst hy
    have hx : x = 0 ∨ x = 1 ∨ x = 2 := by omega
    rcases hx with rfl | rfl | rfl
    · simp [islands, rowGrid] at hf
      norm_num at hf
    · simp [islands, rowGrid] at hf
      norm_num at hf
    · rfl
  · intro INFINITE h
    obtain ⟨hp, -⟩ := islands_poses INFINITE h
    have hv : (getClosestFoodDistance INFINITE islands).1 = 0 := by
      simp only [getClosestFoodDistance, hp, islands_maxFood INFINITE h]
      have t1 : ¬ ((4 : ℚ) / 5 / 2 ≤ 0) := by norm_num
      have t2 : (4 : ℚ) / 5 / 2 ≤ 4 / 5 := by norm_num
      simp +decide [t1, t2, forRange, List.range_succ, islands, rowGrid, keepSmaller,
        getDistances, islandsTable, DistTable.index, DistTable.find, DistMap.index,
        DistMap.find, DistMap.insert, h, -Prod.mk_zero_zero]
    refine ⟨hp, islands_maxFood INFINITE h, hv, ?_⟩
    rw [hv]
    have : (0 : ℚ) < (INFINITE : ℚ) := by exact_mod_cast h
    exact ne_of_lt this

/-- C16 (the code at a failing input). On `islands`, whose distance table is the
one `precalculateAllDistances` builds, pacman is believed at `(0, 0)` with
probability 1 and the ghost at `(2, 0)`, which is not reachable from `(0, 0)`
and has no entry in its distance map; the only entry of that map is `(0, 0)`
itself, where the belief of the ghost is 0. `getProbabilityOfAGhostNStepsAway(1)`
returns 1, not 0. -/
theorem C16_unreachable_ghost_adds_probability :
    precalculateAllDistances noNeighbours 3 islands = some islands.precalculated_distances_ ∧
    (¬ ∃ n, Walk noNeighbours (0, 0) n (2, 0)) ∧
    islands.precalculated_distances_.find (0, 0) = some [((0, 0), 0)] ∧
    islands.pacman_pose_map_ 0 0 = 1 ∧ islands.pacman_pose_map_ 0 2 = 0 ∧
    islands.ghosts_poses_map_ 0 0 0 = 0 ∧ islands.ghosts_poses_map_ 0 0 2 = 1 ∧
    (getProbabilityOfAGhostNStepsAway islands 1).1 = 1 := by
  refine ⟨by decide, islands_unreachable, by decide, by simp [islands, rowGrid],
    by simp [islands, rowGrid], by simp [islands, rowGrid], by simp [islands, rowGrid], ?_⟩
  simp +decide [getProbabilityOfAGhostNStepsAway, forRange, List.range_succ, islands, rowGrid,
    getDistances, islandsTable, DistTable.index, DistTable.find, DistTable.insert,
    DistMap.index, DistMap.find, DistMap.insert, -Prod.mk_zero_zero]

/-- C17 (the code at a failing input). On `islands`, whose distance table is the
one `precalculateAllDistances` builds, the most probable cell of pacman is
`(0, 0)` and that of the only ghost is `(2, 0)`, which is not reachable from
`(0, 0)` and has no entry in its distance map; for every positive
`util::INFINITE`, `getNumberOfGhostsNStepsAway(0)` returns 1, not 0. -/
theorem C17_unreachable_ghost_is_counted :
    precalculateAllDistances noNeighbours 3 islands = some islands.precalculated_distances_ ∧
    (¬ ∃ n, Walk noNeighbours (0, 0) n (2, 0)) ∧
    islands.precalculated_distances_.distance (0, 0) (2, 0) = none ∧
    (∀ INFINITE : Int, 0 < INFINITE →
      getMostProbablePacmanPose INFINITE islands = (0, 0) ∧
      getMostProbableGhostsPoses INFINITE islands = [(2, 0)] ∧
      (getNumberOfGhostsNStepsAway INFINITE islands 0).1 = 1) := by
  refine ⟨by decide, islands_unreachable, by decide, ?_⟩
  intro INFINITE h
  obtain ⟨hp, hg⟩ := islands_poses INFINITE h
  refine ⟨hp, hg, ?_⟩
  simp only [getNumberOfGhostsNStepsAway, hp, hg]
  decide

/-! ## The ground-truth reveal -/

theorem iround_one_and_zero : iround 1 = 1 ∧ iround 0 = 0 := by
  constructor
  · have : ⌊(1 : ℚ) + 1 / 2⌋ = 1 := by
      rw [Int.floor_eq_iff]
      norm_num
    simp only [iround, zero_le_one, if_true, this]
  · have : ⌊(0 : ℚ) + 1 / 2⌋ = 0 := by
      rw [Int.floor_eq_iff]
      norm_num
    simp only [iround, le_refl, if_true, this]

/-- C18 (the code at a failing input). On `wallAndTwoFoods` the measurement
`(1, 0)` rounds to the cell `(1, 0)`, which lies inside the map, in row 0, and
holds FOOD, not a WALL; after `observePacman` the map still holds FOOD there,
not EMPTY. -/
theorem C18_row_zero_is_not_revealed :
    iround 1 = 1 ∧ iround 0 = 0 ∧ inBounds wallAndTwoFoods 1 0 ∧
    wallAndTwoFoods.map_ 0 1 = FOOD ∧ wallAndTwoFoods.map_ 0 1 ≠ WALL ∧
    (∀ lik : Likelihood, (observePacman lik wallAndTwoFoods 1 0).map_ 0 1 = FOOD) ∧
    (∀ lik : Likelihood, (observePacman lik wallAndTwoFoods 1 0).map_ 0 1 ≠ EMPTY) := by
  have hm : ∀ lik : Likelihood, (observePacman lik wallAndTwoFoods 1 0).map_ 0 1 = FOOD := by
    intro lik
    simp [observePacman, revealMeasuredCell, iround_one_and_zero.1, iround_one_and_zero.2,
      wallAndTwoFoods, wallAndTwoCells, rowGrid]
  refine ⟨iround_one_and_zero.1, iround_one_and_zero.2, by simp [inBounds, wallAndTwoFoods,
    wallAndTwoCells], by simp [wallAndTwoFoods, rowGrid], by simp [wallAndTwoFoods, rowGrid],
    hm, ?_⟩
  intro lik
  rw [hm lik]
  decide


/-! ## Queries and the state -/

theorem DistTable.index_of_present (t : DistTable) (c : Cell) (h : t.find c ≠ none) :
    (t.index c).2 = t := by
  unfold DistTable.index
  cases hf : t.find c with
  | none => exact absurd hf h
  | some d => rfl

theorem getDistances_of_present (s : State) (x y : Int)
    (h : s.precalculated_distances_.find (x, y) ≠ none) : (getDistances s x y).2 = s := by
  unfold getDistances
  simp only [DistTable.index_of_present _ _ h]

theorem sameExceptTable_self (s : State) : sameExceptTable s s := by
  cases s
  rfl

theorem getDistances_sameExceptTable (s t : State) (x y : Int) (h : sameExceptTable s t) :
    sameExceptTable s (getDistances t x y).2 := by
  unfold sameExceptTable at h ⊢
  unfold getDistances
  rw [h]

/-- The state after `getProbabilityOfAGhostNStepsAway` differs from the state
before at most in the distance table, and not at all when every non-WALL cell
of the map has an entry in the table. -/
theorem getProbabilityOfAGhostNStepsAway_state (s : State) (n : Int) :
    sameExceptTable s (getProbabilityOfAGhostNStepsAway s n).2 ∧
    ((∀ x y, isTraversable s x y → s.precalculated_distances_.find (x, y) ≠ none) →
      (getProbabilityOfAGhostNStepsAway s n).2 = s) := by
  unfold getProbabilityOfAGhostNStepsAway
  constructor
  · refine forRange_induction (fun (_ : Nat) (st : ℚ × State) => sameExceptTable s st.2) s.width_ ((0 : ℚ), s) _ (sameExceptTable_self s) ?_
    intro a _ st0 h0
    refine forRange_induction (fun (_ : Nat) (st : ℚ × State) => sameExceptTable s st.2) s.height_ st0 _ h0 ?_
    intro b _ st h
    by_cases hw : s.map_ (b : Int) (a : Int) = WALL
    · simp only [ne_eq, hw, not_true_eq_false, if_false]
      exact h
    · simp only [ne_eq, hw, not_false_eq_true, if_true]
      exact getDistances_sameExceptTable s st.2 _ _ h
  · intro hkeys
    refine forRange_induction (fun (_ : Nat) (st : ℚ × State) => st.2 = s) s.width_ ((0 : ℚ), s) _ rfl ?_
    intro a ha st0 h0
    refine forRange_induction (fun (_ : Nat) (st : ℚ × State) => st.2 = s) s.height_ st0 _ h0 ?_
    intro b hb st h
    by_cases hw : s.map_ (b : Int) (a : Int) = WALL
    · simp only [ne_eq, hw, not_true_eq_false, if_false]
      exact h
    · simp only [ne_eq, hw, not_false_eq_true, if_true]
      have htr : isTraversable s (a : Int) (b : Int) :=
        ⟨⟨by omega, by exact_mod_cast ha⟩, by omega, by exact_mod_cast hb, hw⟩
      rw [h]
      exact getDistances_of_present s _ _ (hkeys _ _ htr)

/-- C20, as amended. Queries and the state: `eatsFood` and `dies` leave the
state as it was; `getClosestFoodDistance`, `getClosestGhostDistance`,
`getNumberOfGhostsNStepsAway` and `getProbabilityOfAGhostNStepsAway` leave
every member other than the distance table as it was (the belief grids, the
food grid and the ground-truth map among them), and leave the distance table
as it was too when the cells whose maps they read have an entry in it: the
most probable cell of pacman, the ground-truth cell of pacman, and every
non-WALL cell of the map. -/
theorem C20_queries_and_state (INFINITE : Int) (s : State) (n : Int) :
    (eatsFood INFINITE s).2 = s ∧ (dies s).2 = s ∧
    sameExceptTable s (getClosestFoodDistance INFINITE s).2 ∧
    sameExceptTable s (getClosestGhostDistance INFINITE s).2 ∧
    sameExceptTable s (getNumberOfGhostsNStepsAway INFINITE s n).2 ∧
    sameExceptTable s (getProbabilityOfAGhostNStepsAway s n).2 ∧
    (s.precalculated_distances_.find (getMostProbablePacmanPose INFINITE s) ≠ none →
      (getClosestFoodDistance INFINITE s).2 = s ∧
      (getNumberOfGhostsNStepsAway INFINITE s n).2 = s) ∧
    (s.precalculated_distances_.find (pacmanCell s) ≠ none →
      (getClosestGhostDistance INFINITE s).2 = s) ∧
    ((∀ x y, isTraversable s x y → s.precalculated_distances_.find (x, y) ≠ none) →
      (getProbabilityOfAGhostNStepsAway s n).2 = s) := by
  refine ⟨rfl, rfl, ?_, ?_, ?_, (getProbabilityOfAGhostNStepsAway_state s n).1, ?_, ?_,
    (getProbabilityOfAGhostNStepsAway_state s n).2⟩
  · exact getDistances_sameExceptTable s s _ _ (sameExceptTable_self s)
  · exact getDistances_sameExceptTable s s _ _ (sameExceptTable_self s)
  · exact getDistances_sameExceptTable s s _ _ (sameExceptTable_self s)
  · intro h
    exact ⟨getDistances_of_present s _ _ h, getDistances_of_present s _ _ h⟩
  · intro h
    exact getDistances_of_present s _ _ h

theorem massOnWallWithTable_pose (INFINITE : Int) (h : 0 < INFINITE) :
    getMostProbablePacmanPose INFINITE massOnWallWithTable = (0, 0) := by
  have h1 : -(INFINITE : ℚ) < 0 := by
    have : (0 : ℚ) < (INFINITE : ℚ) := by exact_mod_cast h
    linarith
  have h2 : -(INFINITE : ℚ) < 1 / 2 := by linarith
  have h3 : ¬ ((1 : ℚ) / 2 < 0) := by norm_num
  have h4 : -(INFINITE : ℚ) < 2⁻¹ := by linarith
  have h5 : ¬ ((2 : ℚ) < 0) := by norm_num
  simp [getMostProbablePacmanPose, mostProbableScan, forRange, List.range_succ,
    massOnWallWithTable, wallAndTwoCellsMassOnWall, wallAndTwoCells, rowGrid, h1, h2, h3, h4, h5]

/-- Counterexample to C20 as stated: on `massOnWallWithTable`, whose distance
table is the one `precalculateAllDistances` builds, the most probable cell of
pacman is the WALL cell `(0, 0)`, which has no entry in the table; for every
positive `util::INFINITE`, `getClosestFoodDistance` leaves a table with the new
key `(0, 0)`. -/
theorem C20_inserting_lookup_adds_a_key :
    precalculateAllDistances exampleLegal 3 massOnWallWithTable
      = some massOnWallWithTable.precalculated_distances_ ∧
    massOnWallWithTable.precalculated_distances_.find (0, 0) = none ∧
    (∀ INFINITE : Int, 0 < INFINITE →
      getMostProbablePacmanPose INFINITE massOnWallWithTable = (0, 0) ∧
      (getClosestFoodDistance INFINITE massOnWallWithTable).2.precalculated_distances_
        = massOnWallWithTable.precalculated_distances_ ++ [((0, 0), [])]) ∧
    ¬ (∀ INFINITE : Int, 0 < INFINITE →
      (getClosestFoodDistance INFINITE massOnWallWithTable).2.precalculated_distances_
        = massOnWallWithTable.precalculated_distances_) := by
  have hins : ∀ INFINITE : Int, 0 < INFINITE →
      (getClosestFoodDistance INFINITE massOnWallWithTable).2.precalculated_distances_
        = massOnWallWithTable.precalculated_distances_ ++ [((0, 0), [])] := by
    intro INFINITE h
    simp only [getClosestFoodDistance, massOnWallWithTable_pose INFINITE h, getDistances]
    decide
  refine ⟨by decide, by decide, fun I h => ⟨massOnWallWithTable_pose I h, hins I h⟩, ?_⟩
  intro hall
  have h1 := hall 1 (by decide)
  rw [hins 1 (by decide)] at h1
  exact absurd h1 (by decide)

theorem wallAndTwoCellsWithTable_pose (INFINITE : Int) (h : 0 < INFINITE) :
    getMostProbablePacmanPose INFINITE wallAndTwoCellsWithTable = (1, 0) := by
  have h1 : -(INFINITE : ℚ) < 0 := by
    have : (0 : ℚ) < (INFINITE : ℚ) := by exact_mod_cast h
    linarith
  have h2 : -(INFINITE : ℚ) < 1 / 2 := by linarith
  have h3 : ¬ ((1 : ℚ) / 2 < 0) := by norm_num
  have h4 : -(INFINITE : ℚ) < 2⁻¹ := by linarith
  have h5 : ¬ ((2 : ℚ) < 0) := by norm_num
  simp [getMostProbablePacmanPose, mostProbableScan, forRange, List.range_succ,
    wallAndTwoCellsWithTable, wallAndTwoCells, rowGrid, h1, h2, h3, h4, h5]

/-- Witness of C20 as amended, on `wallAndTwoCellsWithTable` with
`util::INFINITE` taken as 1000000: the most probable cell of pacman, its
ground-truth cell and the non-WALL cells of the map have entries in the table,
and the four queries that read the table leave the state as it was. -/
theorem C20_queries_and_state_witness :
    wallAndTwoCellsWithTable.precalculated_distances_.find
      (getMostProbablePacmanPose 1000000 wallAndTwoCellsWithTable) ≠ none ∧
    wallAndTwoCellsWithTable.precalculated_distances_.find
      (pacmanCell wallAndTwoCellsWithTable) ≠ none ∧
    (∀ x y, isTraversable wallAndTwoCellsWithTable x y →
      wallAndTwoCellsWithTable.precalculated_distances_.find (x, y) ≠ none) ∧
    (getClosestFoodDistance 1000000 wallAndTwoCellsWithTable).2 = wallAndTwoCellsWithTable ∧
    (getNumberOfGhostsNStepsAway 1000000 wallAndTwoCellsWithTable 1).2
      = wallAndTwoCellsWithTable ∧
    (getClosestGhostDistance 1000000 wallAndTwoCellsWithTable).2 = wallAndTwoCellsWithTable ∧
    (getProbabilityOfAGhostNStepsAway wallAndTwoCellsWithTable 1).2
      = wallAndTwoCellsWithTable := by
  have h1 : wallAndTwoCellsWithTable.precalculated_distances_.find
      (getMostProbablePacmanPose 1000000 wallAndTwoCellsWithTable) ≠ none := by
    rw [wallAndTwoCellsWithTable_pose 1000000 (by decide)]
    decide
  have h2 : wallAndTwoCellsWithTable.precalculated_distances_.find
      (pacmanCell wallAndTwoCellsWithTable) ≠ none := by
    have hc : pacmanCell wallAndTwoCellsWithTable = (1, 0) := by
      simp [pacmanCell, truncToInt, wallAndTwoCellsWithTable, wallAndTwoCells]
    rw [hc]
    decide
  have h3 : ∀ x y, isTraversable wallAndTwoCellsWithTable x y →
      wallAndTwoCellsWithTable.precalculated_distances_.find (x, y) ≠ none := by
    intro x y ht
    obtain ⟨hi, rfl⟩ := wallAndTwoCells_traversable x y ht
    rcases hi with rfl | rfl <;> decide
  have h := C20_queries_and_state 1000000 wallAndTwoCellsWithTable 1
  exact ⟨h1, h2, h3, (h.2.2.2.2.2.2.1 h1).1, (h.2.2.2.2.2.2.1 h1).2, h.2.2.2.2.2.2.2.1 h2,
    h.2.2.2.2.2.2.2.2 h3⟩


/-! ## Termination of `calculateDistances` -/

/-- A pass of the `for` loop that leaves `done` false has entered a cell that
had no entry, with the value `current_distance`; it keeps every entry the
table had and the table has grown. -/
theorem expandFrontier_not_done (legal : LegalModel) (cd : Nat) (D : DistMap) (F : List Cell)
    (h : (expandFrontier legal cd D F).2.1 = false) :
    (∃ c, D.find c = none ∧ (expandFrontier legal cd D F).1.find c = some cd) ∧
    (∀ c, D.find c ≠ none → (expandFrontier legal cd D F).1.find c = D.find c) ∧
    D.length < (expandFrontier legal cd D F).1.length := by
  obtain ⟨f1, f2, f3, -, -, f6, -⟩ := foldl_visitCell legal cd F.reverse (D, true, [])
  have hex : ∃ c ∈ F.reverse, D.find c = none := by
    by_contra hno
    have hd : (expandFrontier legal cd D F).2.1 = true := by
      unfold expandFrontier
      rw [f3]
      exact ⟨rfl, fun c hc hn => hno ⟨c, hc, hn⟩⟩
    rw [h] at hd
    exact Bool.false_ne_true hd
  refine ⟨?_, f1, f6 hex⟩
  obtain ⟨c, hc, hn⟩ := hex
  refine ⟨c, hn, ?_⟩
  have := f2 c hn
  rw [if_pos hc] at this
  exact this

/-- The cells of the map together with the source form a set of at most
`width_ * height_ + 1` cells. -/
theorem card_insert_gridCells_le (s : State) (c : Cell) :
    (insert c (gridCells s)).card ≤ s.width_ * s.height_ + 1 :=
  le_trans (Finset.card_insert_le c (gridCells s)) (Nat.succ_le_succ (card_gridCells_le s))

/-- C22. `calculateDistances(x, y)` terminates: on a `width_ × height_` grid
with a legal-neighbour function that returns only cells of the grid (from the
cells of the grid and from the source), the `while` loop stops within
`width_ * height_ + 1` iterations, whatever the source is; and every iteration
that does not stop the loop adds a new key to the table, keeps the old ones,
and so makes the table longer. -/
theorem C22_calculateDistances_terminates (legal : LegalModel) (s : State) (x y : Int)
    (hgrid : ∀ a b, (inBounds s a b ∨ (a, b) = (x, y)) →
      ∀ n ∈ legal a b, inBounds s n.1 n.2) :
    (∀ fuel, s.width_ * s.height_ + 1 ≤ fuel →
      ∃ d, calculateDistances legal fuel x y = some d) ∧
    (∀ (current_distance : Nat) (distances : DistMap) (legal_positions : List Cell),
      (expandFrontier legal current_distance distances legal_positions).2.1 = false →
      (∃ c, distances.find c = none ∧
        (expandFrontier legal current_distance distances legal_positions).1.find c
          = some current_distance) ∧
      (∀ c, distances.find c ≠ none →
        (expandFrontier legal current_distance distances legal_positions).1.find c
          = distances.find c) ∧
      distances.length
        < (expandFrontier legal current_distance distances legal_positions).1.length) := by
  refine ⟨?_, fun cd D F h => expandFrontier_not_done legal cd D F h⟩
  intro fuel hfuel
  have hcard := card_insert_gridCells_le s (x, y)
  refine calculateDistancesLoop_terminates legal (x, y) (insert (x, y) (gridCells s))
    (Finset.mem_insert_self _ _) ?_ fuel 0 _ _ (loopInvariant_init legal x y)
    (by simp [DistMap.insert]) (by simp [DistMap.insert]; omega)
  intro c hc b hbl
  refine Finset.mem_insert_of_mem ((mem_gridCells s b).mpr (hgrid c.1 c.2 ?_ b hbl))
  rcases Finset.mem_insert.mp hc with e | hin
  · exact Or.inr e
  · exact Or.inl ((mem_gridCells s c).mp hin)

/-- Witness of C22 on the three cells of `wallAndTwoCells` with `exampleLegal`,
which returns only the cells `(1, 0)` and `(2, 0)` of the grid: from the source
`(1, 0)` the loop has stopped within `3 * 1 + 1 = 4` iterations, with the table
`(1, 0) ↦ 0, (2, 0) ↦ 1`. -/
theorem C22_calculateDistances_terminates_witness :
    (∀ a b, (inBounds wallAndTwoCells a b ∨ (a, b) = ((1 : Int), (0 : Int))) →
      ∀ n ∈ exampleLegal a b, inBounds wallAndTwoCells n.1 n.2) ∧
    calculateDistances exampleLegal 4 1 0 = some [((1, 0), 0), ((2, 0), 1)] ∧
    ∃ d, calculateDistances exampleLegal 4 1 0 = some d := by
  have hgrid : ∀ a b, (inBounds wallAndTwoCells a b ∨ (a, b) = ((1 : Int), (0 : Int))) →
      ∀ n ∈ exampleLegal a b, inBounds wallAndTwoCells n.1 n.2 := by
    intro a b _ n hn
    unfold exampleLegal at hn
    split_ifs at hn
    · rw [List.mem_singleton.mp hn]
      decide
    · rw [List.mem_singleton.mp hn]
      decide
    · simp at hn
  exact ⟨hgrid, by decide,
    (C22_calculateDistances_terminates exampleLegal wallAndTwoCells 1 0 hgrid).1 4 (by decide)⟩


/-! ## Observation of pacman from a uniform belief -/

/-- A grid that is not negative on the non-WALL cells of the map has a sum over
them that is at least its value at each of them. -/
theorem le_sumNonWall (s : State) (f : Grid ℚ) (hf : ∀ x y, isTraversable s x y → 0 ≤ f y x)
    (x0 y0 : Int) (h : isTraversable s x0 y0) : f y0 x0 ≤ sumNonWall s f := by
  have hnn : ∀ i ∈ Finset.range s.width_, ∀ j ∈ Finset.range s.height_,
      0 ≤ (if s.map_ (j : Int) (i : Int) ≠ WALL then f j i else 0) := by
    intro i hi j hj
    by_cases hw : s.map_ (j : Int) (i : Int) = WALL
    · simp [hw]
    · have ht : isTraversable s i j := by
        refine ⟨⟨by omega, ?_⟩, by omega, ?_, hw⟩
        · exact_mod_cast Finset.mem_range.mp hi
        · exact_mod_cast Finset.mem_range.mp hj
      simp [hw, hf i j ht]
  obtain ⟨⟨hx0, hx1⟩, hy0, hy1, hw⟩ := h
  have ex : ((x0.toNat : Nat) : Int) = x0 := Int.toNat_of_nonneg hx0
  have ey : ((y0.toNat : Nat) : Int) = y0 := Int.toNat_of_nonneg hy0
  have mx : x0.toNat ∈ Finset.range s.width_ := Finset.mem_range.mpr (by omega)
  have my : y0.toNat ∈ Finset.range s.height_ := Finset.mem_range.mpr (by omega)
  unfold sumNonWall
  have h1 : f y0 x0 = (if s.map_ ((y0.toNat : Nat) : Int) ((x0.toNat : Nat) : Int) ≠ WALL
      then f ((y0.toNat : Nat) : Int) ((x0.toNat : Nat) : Int) else 0) := by
    rw [ex, ey, if_pos hw]
  rw [h1]
  refine le_trans (Finset.single_le_sum (f := fun j : Nat =>
      if s.map_ (j : Int) ((x0.toNat : Nat) : Int) ≠ WALL
        then f (j : Int) ((x0.toNat : Nat) : Int) else 0)
    (fun j hj => hnn x0.toNat mx j hj) my) ?_
  exact Finset.single_le_sum (f := fun i : Nat => ∑ j in Finset.range s.height_,
      if s.map_ (j : Int) (i : Int) ≠ WALL then f (j : Int) (i : Int) else 0)
    (fun i hi => Finset.sum_nonneg (fun j hj => hnn i hi j hj)) mx

/-- The belief of pacman after `observePacman`, at every cell. -/
theorem observePacman_pose_map (lik : Likelihood) (s : State) (mx my : ℚ) (x y : Int) :
    (observePacman lik s mx my).pacman_pose_map_ y x
      = if isTraversable s x y then
          (if sumNonWall s
              (fun y x => lik x y mx my SD_PACMAN_MEASUREMENT * s.pacman_pose_map_ y x) ≠ 0
            then lik x y mx my SD_PACMAN_MEASUREMENT * s.pacman_pose_map_ y x
              / sumNonWall s
                  (fun y x => lik x y mx my SD_PACMAN_MEASUREMENT * s.pacman_pose_map_ y x)
            else 1 / (((s.height_ * s.width_ : Nat) : ℚ)))
        else 0 := by
  simp only [observePacman, observePacmanPosterior_eq, normalizeOrRedistribute_eq]
  by_cases hc : isTraversable s x y <;> simp [hc]

/-- From a belief that is `p > 0` at every non-WALL cell of the map and a
likelihood that is not negative there and largest at the non-WALL cell `m`
only, `observePacman` leaves a belief that is largest at `m` only. -/
theorem observePacman_concentrates (lik : Likelihood) (s : State) (mx my p : ℚ) (hp : 0 < p)
    (hprior : ∀ x y, isTraversable s x y → s.pacman_pose_map_ y x = p)
    (hlik : ∀ x y, isTraversable s x y → 0 ≤ lik x y mx my SD_PACMAN_MEASUREMENT)
    (m : Cell) (hm : isTraversable s m.1 m.2)
    (hmax : ∀ x y, isTraversable s x y → (x, y) ≠ m →
      lik x y mx my SD_PACMAN_MEASUREMENT < lik m.1 m.2 mx my SD_PACMAN_MEASUREMENT) :
    0 < (observePacman lik s mx my).pacman_pose_map_ m.2 m.1 ∧
    ∀ x y, (x, y) ≠ m →
      (observePacman lik s mx my).pacman_pose_map_ y x
        < (observePacman lik s mx my).pacman_pose_map_ m.2 m.1 := by
  set S := sumNonWall s
    (fun y x => lik x y mx my SD_PACMAN_MEASUREMENT * s.pacman_pose_map_ y x) with hS
  have hterm : ∀ x y, isTraversable s x y →
      0 ≤ lik x y mx my SD_PACMAN_MEASUREMENT * s.pacman_pose_map_ y x := by
    intro x y ht
    rw [hprior x y ht]
    exact mul_nonneg (hlik x y ht) (le_of_lt hp)
  have hle : lik m.1 m.2 mx my SD_PACMAN_MEASUREMENT * p ≤ S := by
    have := le_sumNonWall s
      (fun y x => lik x y mx my SD_PACMAN_MEASUREMENT * s.pacman_pose_map_ y x) hterm m.1 m.2 hm
    simp only [hprior m.1 m.2 hm] at this
    exact this
  have hS0 : 0 ≤ S := le_trans (mul_nonneg (hlik m.1 m.2 hm) (le_of_lt hp)) hle
  have hLm : S ≠ 0 → 0 < lik m.1 m.2 mx my SD_PACMAN_MEASUREMENT := by
    intro hne
    by_contra hnot
    have h0 : lik m.1 m.2 mx my SD_PACMAN_MEASUREMENT = 0 :=
      le_antisymm (not_lt.mp hnot) (hlik m.1 m.2 hm)
    apply hne
    rw [hS, sumNonWall_traversable s _ (fun _ _ => 0), sumNonWall_zero]
    intro x y ht
    by_cases e : (x, y) = m
    · subst e
      simp [h0]
    · have := hmax x y ht e
      rw [h0] at this
      exact absurd (hlik x y ht) (not_le.mpr this)
  have hw : 0 < (((s.height_ * s.width_ : Nat) : ℚ)) := by
    obtain ⟨⟨h1, h2⟩, h3, h4, -⟩ := hm
    have : 0 < s.height_ * s.width_ := Nat.mul_pos (by omega) (by omega)
    exact_mod_cast this
  have hpos : 0 < (observePacman lik s mx my).pacman_pose_map_ m.2 m.1 := by
    rw [observePacman_pose_map, if_pos hm, hprior m.1 m.2 hm]
    by_cases hne : S = 0
    · rw [if_neg (not_not.mpr hne)]
      exact one_div_pos.mpr hw
    · rw [if_pos hne]
      exact div_pos (mul_pos (hLm hne) hp) (lt_of_le_of_ne hS0 (Ne.symm hne))
  refine ⟨hpos, ?_⟩
  intro x y hxy
  by_cases ht : isTraversable s x y
  · have hlt := hmax x y ht hxy
    have hLpos : 0 < lik m.1 m.2 mx my SD_PACMAN_MEASUREMENT :=
      lt_of_le_of_lt (hlik x y ht) hlt
    have hSpos : 0 < S := lt_of_lt_of_le (mul_pos hLpos hp) hle
    rw [observePacman_pose_map, observePacman_pose_map, if_pos ht, if_pos hm,
      if_pos (ne_of_gt hSpos), if_pos (ne_of_gt hSpos), hprior x y ht, hprior m.1 m.2 hm]
    exact div_lt_div_of_pos_right (mul_lt_mul_of_pos_right hlt hp) hSpos
  · have h0 : (observePacman lik s mx my).pacman_pose_map_ y x = 0 := by
      rw [observePacman_pose_map, if_neg ht]
    rw [h0]
    exact hpos

theorem corridorOfThree_traversable (x y : Int) (h : isTraversable corridorOfThree x y) :
    (x = 0 ∨ x = 1 ∨ x = 2) ∧ y = 0 := by
  obtain ⟨⟨h1, h2⟩, h3, h4, -⟩ := h
  simp only [corridorOfThree, wallAndTwoCells] at h2 h4
  omega

/-! ## Observation updates in `float` arithmetic -/

theorem observePacmanPosteriorFloat_exact (r : Rounding) (hr : r.IsExact) (lik : Likelihood)
    (s : State) (mx my : ℚ) :
    observePacmanPosteriorFloat r lik s mx my = observePacmanPosterior lik s mx my := by
  simp only [observePacmanPosteriorFloat, observePacmanPosterior, hr.1]

theorem normalizeOrRedistributeFloat_exact (r : Rounding) (hr : r.IsExact) (s : State)
    (g : Grid ℚ) (sum : ℚ) :
    normalizeOrRedistributeFloat r s g sum = normalizeOrRedistribute s g sum := by
  simp only [normalizeOrRedistributeFloat, normalizeOrRedistribute, hr.1, hr.2]

theorem observeGhostPosteriorFloat_exact (r : Rounding) (hr : r.IsExact) (lik : Likelihood)
    (s : State) (mx my : ℚ) (k : Nat) :
    observeGhostPosteriorFloat r lik s mx my k = observeGhostPosterior lik s mx my k := by
  simp only [observeGhostPosteriorFloat, observeGhostPosterior, hr.1]

/-- Without rounding, the body of `observeGhost` in `float` arithmetic is
`observeGhost`. -/
theorem observeGhostFloat_exact (r : Rounding) (hr : r.IsExact) (lik : Likelihood)
    (s : State) (mx my : ℚ) (k : Nat) :
    observeGhostFloat r lik s mx my k = observeGhost lik s mx my k := by
  simp only [observeGhostFloat, observeGhost, observeGhostPosteriorFloat_exact r hr,
    normalizeOrRedistributeFloat_exact r hr]

/-- A call of `observePacman` leaves the object in a state, whether it returns
or raises: the state before the call but for the belief of pacman, which is the
normalised grid, and, when the call returns, for the map. -/
theorem observePacmanCall_state (r : Rounding) (lik : Likelihood) (s : State) (mx my : ℚ) :
    ∃ s', (observePacmanCall r lik s mx my).state = some s' ∧
      s'.pacman_pose_map_ = normalizeOrRedistributeFloat r s
        (observePacmanPosteriorFloat r lik s mx my).1
        (observePacmanPosteriorFloat r lik s mx my).2 ∧
      s'.width_ = s.width_ ∧ s'.height_ = s.height_ := by
  unfold observePacmanCall
  cases boostIround mx with
  | none => exact ⟨_, rfl, rfl, rfl, rfl⟩
  | some xi =>
    cases boostIround my with
    | none => exact ⟨_, rfl, rfl, rfl, rfl⟩
    | some yi => exact ⟨_, rfl, rfl, rfl, rfl⟩

/-- Without rounding, the belief that a call of `observePacman` stores is the
belief of `observePacman`. -/
theorem observePacmanCall_state_exact (r : Rounding) (hr : r.IsExact) (lik : Likelihood)
    (s : State) (mx my : ℚ) :
    ∃ s', (observePacmanCall r lik s mx my).state = some s' ∧
      s'.pacman_pose_map_ = (observePacman lik s mx my).pacman_pose_map_ ∧
      s'.width_ = s.width_ ∧ s'.height_ = s.height_ := by
  obtain ⟨s', h1, h2, h3, h4⟩ := observePacmanCall_state r lik s mx my
  refine ⟨s', h1, ?_, h3, h4⟩
  rw [h2, observePacmanPosteriorFloat_exact r hr, normalizeOrRedistributeFloat_exact r hr]
  rfl

/-- The integer that `boost::math::iround` returns is `iround`, and it returns
exactly when that integer is in the range of `int`. -/
theorem boostIround_eq (q : ℚ) :
    (INT_MIN ≤ iround q ∧ iround q ≤ INT_MAX → boostIround q = some (iround q)) ∧
    (iround q < INT_MIN ∨ INT_MAX < iround q → boostIround q = none) := by
  unfold boostIround
  constructor
  · rintro ⟨h1, h2⟩
    rw [if_neg]
    omega
  · intro h
    rw [if_pos]
    omega

/-- A call of `observePacman` returns when the two coordinates round into the
range of `int`, and raises when one of them does not; in both cases the belief
of pacman is the normalised grid, and the state is that of `observePacman` when
the call returns and nothing is rounded. -/
theorem observePacmanCall_returns (r : Rounding) (lik : Likelihood) (s : State) (mx my : ℚ) :
    (INT_MIN ≤ iround mx ∧ iround mx ≤ INT_MAX → INT_MIN ≤ iround my ∧ iround my ≤ INT_MAX →
      ∃ s', observePacmanCall r lik s mx my = Outcome.returned () s' ∧
        s'.pacman_pose_map_ = normalizeOrRedistributeFloat r s
          (observePacmanPosteriorFloat r lik s mx my).1
          (observePacmanPosteriorFloat r lik s mx my).2 ∧
        s'.width_ = s.width_ ∧ s'.height_ = s.height_ ∧
        (r.IsExact → s' = observePacman lik s mx my)) ∧
    ((iround mx < INT_MIN ∨ INT_MAX < iround mx) ∨ (iround my < INT_MIN ∨ INT_MAX < iround my) →
      ∃ s', observePacmanCall r lik s mx my = Outcome.raised s' ∧
        s'.pacman_pose_map_ = normalizeOrRedistributeFloat r s
          (observePacmanPosteriorFloat r lik s mx my).1
          (observePacmanPosteriorFloat r lik s mx my).2) := by
  constructor
  · intro hx hy
    simp only [observePacmanCall, (boostIround_eq mx).1 hx, (boostIround_eq my).1 hy]
    refine ⟨_, rfl, rfl, rfl, rfl, ?_⟩
    intro hr
    simp only [observePacmanPosteriorFloat_exact r hr, normalizeOrRedistributeFloat_exact r hr]
    rfl
  · intro h
    unfold observePacmanCall
    rcases h with h | h
    · simp only [(boostIround_eq mx).2 h]
      exact ⟨_, rfl, rfl⟩
    · simp only [(boostIround_eq my).2 h]
      cases boostIround mx with
      | none => exact ⟨_, rfl, rfl⟩
      | some xi => exact ⟨_, rfl, rfl⟩

/-- The flag `is_finished_` passes through a call of `observePacman`. -/
theorem observePacmanCall_is_finished (r : Rounding) (lik : Likelihood) (s : State) (mx my : ℚ)
    (b : Bool) :
    observePacmanCall r lik { s with is_finished_ := b } mx my
      = match observePacmanCall r lik s mx my with
        | Outcome.returned v s' => Outcome.returned v { s' with is_finished_ := b }
        | Outcome.raised s' => Outcome.raised { s' with is_finished_ := b }
        | Outcome.undefined => Outcome.undefined := by
  unfold observePacmanCall
  cases boostIround mx with
  | none => rfl
  | some xi =>
    cases boostIround my with
    | none => rfl
    | some yi => rfl

theorem zeroGrid_set_zero (j i : Int) : zeroGrid.set j i 0 = zeroGrid := by
  have := Grid.set_self zeroGrid j i
  simpa [zeroGrid] using this

theorem normalizeOrRedistributeFloat_eq (r : Rounding) (s : State) (g : Grid ℚ) (sum : ℚ) :
    normalizeOrRedistributeFloat r s g sum
      = fun y x => if isTraversable s x y
          then (if sum ≠ 0 then r.toFloat (g y x / sum)
            else r.toFloat (r.toDouble (1 / r.toFloat (((s.height_ * s.width_ : Nat) : ℚ)))))
          else g y x := by
  unfold normalizeOrRedistributeFloat
  have h := nest_set (fun i j => s.map_ j i ≠ WALL)
    (fun _ _ v => if sum ≠ 0 then r.toFloat (v / sum)
      else r.toFloat (r.toDouble (1 / r.toFloat (((s.height_ * s.width_ : Nat) : ℚ)))))
    s.width_ s.height_ g
  have e : (fun (g : Grid ℚ) (i : Int) => forRange s.height_ g fun g j =>
        if s.map_ j i ≠ WALL then
          if sum ≠ 0 then g.set j i (r.toFloat (g j i / sum))
          else g.set j i
            (r.toFloat (r.toDouble (1 / r.toFloat (((s.height_ * s.width_ : Nat) : ℚ)))))
        else g)
      = (fun (g : Grid ℚ) (i : Int) => forRange s.height_ g fun g j =>
        if s.map_ j i ≠ WALL then
          g.set j i (if sum ≠ 0 then r.toFloat (g j i / sum)
            else r.toFloat (r.toDouble (1 / r.toFloat (((s.height_ * s.width_ : Nat) : ℚ)))))
        else g) := by
    funext g i
    congr 1
    funext g j
    by_cases h0 : sum = 0 <;> simp [h0]
  rw [e, h]
  rfl

/-- When the `float` product vanishes at every non-WALL cell of the map, the
first loop nest of `observePacman` leaves the grid of zeros and the sum 0. -/
theorem observePacmanPosteriorFloat_of_products_zero (r : Rounding) (lik : Likelihood)
    (s : State) (mx my : ℚ) (h0 : r.toFloat 0 = 0)
    (hz : ∀ x y, isTraversable s x y →
      r.toFloat (r.toFloat (lik x y mx my SD_PACMAN_MEASUREMENT) * s.pacman_pose_map_ y x) = 0) :
    observePacmanPosteriorFloat r lik s mx my = (zeroGrid, 0) := by
  unfold observePacmanPosteriorFloat
  refine forRange_induction (fun (_ : Nat) (st : Grid ℚ × ℚ) => st = (zeroGrid, 0))
    s.width_ _ _ rfl ?_
  intro a ha t ht
  subst ht
  refine forRange_induction (fun (_ : Nat) (st : Grid ℚ × ℚ) => st = (zeroGrid, 0))
    s.height_ _ _ rfl ?_
  intro b hb t ht
  subst ht
  by_cases hw : s.map_ (b : Int) (a : Int) = WALL
  · simp [hw]
  · have ht : isTraversable s a b :=
      ⟨⟨by omega, by exact_mod_cast ha⟩, by omega, by exact_mod_cast hb, hw⟩
    simp only [ne_eq, hw, not_false_eq_true, if_true, hz a b ht, zeroGrid_set_zero]
    simp [zeroGrid, h0]

/-- When the `float` product vanishes for every non-WALL cell of the map and
every cell of pacman, the first loop nest of `observeGhost` leaves the grid of
zeros and the sum 0. -/
theorem observeGhostPosteriorFloat_of_products_zero (r : Rounding) (lik : Likelihood)
    (s : State) (mx my : ℚ) (k : Nat) (h0 : r.toFloat 0 = 0)
    (hz : ∀ x y, isTraversable s x y → ∀ px py, inBounds s px py →
      r.toFloat (r.toFloat (r.toFloat (lik (x - px) (y - py) mx my SD_GHOST_DIST_MEASUREMENT)
        * s.ghosts_poses_map_ k y x) * s.pacman_pose_map_ py px) = 0) :
    observeGhostPosteriorFloat r lik s mx my k = (zeroGrid, 0) := by
  unfold observeGhostPosteriorFloat
  refine forRange_induction (fun (_ : Nat) (st : Grid ℚ × ℚ) => st = (zeroGrid, 0))
    s.width_ _ _ rfl ?_
  intro a ha t ht
  subst ht
  refine forRange_induction (fun (_ : Nat) (st : Grid ℚ × ℚ) => st = (zeroGrid, 0))
    s.height_ _ _ rfl ?_
  intro b hb t ht
  subst ht
  by_cases hw : s.map_ (b : Int) (a : Int) = WALL
  · simp [hw]
  · have ht : isTraversable s a b :=
      ⟨⟨by omega, by exact_mod_cast ha⟩, by omega, by exact_mod_cast hb, hw⟩
    have hinner : (forRange s.width_ zeroGrid fun g pacman_i =>
        forRange s.height_ g fun g pacman_j =>
          g.set b a (r.toFloat (g b a + r.toFloat (r.toFloat
            (r.toFloat (lik ((a : Int) - pacman_i) ((b : Int) - pacman_j) mx my
              SD_GHOST_DIST_MEASUREMENT) * s.ghosts_poses_map_ k b a)
            * s.pacman_pose_map_ pacman_j pacman_i)))) = zeroGrid := by
      refine forRange_induction (fun (_ : Nat) (g : Grid ℚ) => g = zeroGrid)
        s.width_ _ _ rfl ?_
      intro pa hpa g hg
      subst hg
      refine forRange_induction (fun (_ : Nat) (g : Grid ℚ) => g = zeroGrid)
        s.height_ _ _ rfl ?_
      intro pb hpb g hg
      subst hg
      have hin : inBounds s pa pb :=
        ⟨by omega, by exact_mod_cast hpa, by omega, by exact_mod_cast hpb⟩
      rw [hz a b ht pa pb hin]
      simp [zeroGrid, h0]
      exact zeroGrid_set_zero _ _
    simp only [ne_eq, hw, not_false_eq_true, if_true, hinner]
    simp [zeroGrid, h0]

theorem forRange_fst {α β : Type} (n : Nat) (st : α × β) (body : α × β → Int → α × β)
    (body1 : α → Int → α) (h : ∀ t i, (body t i).1 = body1 t.1 i) :
    (forRange n st body).1 = forRange n st.1 body1 := by
  induction n with
  | zero => rfl
  | succ n ih => rw [forRange_succ, forRange_succ, h, ih]

/-- The grid that the first loop nest of `observePacman` leaves, whatever the
rounding: at a non-WALL cell of the map the `float` product of the `float`
likelihood and the old belief, elsewhere 0. -/
theorem observePacmanPosteriorFloat_grid (r : Rounding) (lik : Likelihood) (s : State)
    (mx my : ℚ) :
    (observePacmanPosteriorFloat r lik s mx my).1
      = fun y x => if isTraversable s x y
          then r.toFloat (r.toFloat (lik x y mx my SD_PACMAN_MEASUREMENT)
            * s.pacman_pose_map_ y x)
          else 0 := by
  unfold observePacmanPosteriorFloat
  rw [forRange_fst s.width_ _ _
    (fun g i => forRange s.height_ g fun g j =>
      if s.map_ j i ≠ WALL then
        g.set j i (r.toFloat (r.toFloat (lik i j mx my SD_PACMAN_MEASUREMENT)
          * s.pacman_pose_map_ j i))
      else g)]
  · rw [nest_set (fun i j => s.map_ j i ≠ WALL)
      (fun i j _ => r.toFloat (r.toFloat (lik i j mx my SD_PACMAN_MEASUREMENT)
        * s.pacman_pose_map_ j i)) s.width_ s.height_ zeroGrid]
    rfl
  · intro t i
    rw [forRange_fst s.height_ t _
      (fun g j =>
        if s.map_ j i ≠ WALL then
          g.set j i (r.toFloat (r.toFloat (lik i j mx my SD_PACMAN_MEASUREMENT)
            * s.pacman_pose_map_ j i))
        else g)]
    intro t j
    by_cases hw : s.map_ j i = WALL <;> simp [hw]

/-! ## The direct update of pacman -/

/-- C3, as amended. Direct update: a call of `observePacman` stores, whether it
returns or is left by the exception of `boost::math::iround`, at every non-WALL
cell `c` of the map: in exact arithmetic, when no `float` or `double` operation
rounds and the sum `S` over the non-WALL cells of `likelihood * old` is
non-zero, the value `likelihood(c) * old[c] / S`; and whatever the rounding,
when the sum that the code accumulates is non-zero, the `float` quotient by
that sum of the `float` product of the `float` likelihood and `old[c]`. Without
rounding the sum that the code accumulates is `S`. -/
theorem C3_observePacman_direct_update (r : Rounding) (lik : Likelihood)
    (s : State) (mx my : ℚ) (x y : Int) (hc : isTraversable s x y) :
    ∃ s', (observePacmanCall r lik s mx my).state = some s' ∧
      (r.IsExact →
        (observePacmanPosteriorFloat r lik s mx my).2
          = sumNonWall s
              (fun y x => lik x y mx my SD_PACMAN_MEASUREMENT * s.pacman_pose_map_ y x) ∧
        (sumNonWall s
            (fun y x => lik x y mx my SD_PACMAN_MEASUREMENT * s.pacman_pose_map_ y x) ≠ 0 →
          s'.pacman_pose_map_ y x
            = lik x y mx my SD_PACMAN_MEASUREMENT * s.pacman_pose_map_ y x
              / sumNonWall s
                  (fun y x =>
                    lik x y mx my SD_PACMAN_MEASUREMENT * s.pacman_pose_map_ y x))) ∧
      ((observePacmanPosteriorFloat r lik s mx my).2 ≠ 0 →
        s'.pacman_pose_map_ y x
          = r.toFloat (r.toFloat (r.toFloat (lik x y mx my SD_PACMAN_MEASUREMENT)
              * s.pacman_pose_map_ y x)
            / (observePacmanPosteriorFloat r lik s mx my).2)) := by
  obtain ⟨s', h1, h2, -, -⟩ := observePacmanCall_state r lik s mx my
  refine ⟨s', h1, ?_, ?_⟩
  · intro hr
    refine ⟨?_, ?_⟩
    · rw [observePacmanPosteriorFloat_exact r hr, observePacmanPosterior_eq]
    · intro hS
      obtain ⟨s'', h1', h2', -, -⟩ := observePacmanCall_state_exact r hr lik s mx my
      have e : s' = s'' := Option.some.inj (h1.symm.trans h1')
      rw [e, h2', observePacman_pose_map, if_pos hc, if_pos hS]
  · intro hS
    rw [h2, normalizeOrRedistributeFloat_eq]
    simp only [if_pos hc, if_pos hS, observePacmanPosteriorFloat_grid]

/-- Witness of C3 as amended, on the map `wallAndTwoCells` with a measurement at
`(1, 0)` and the rounding that leaves every value as it is: `(1, 0)` is a
non-WALL cell, the sum is `3/5`, and the cell receives `(1/2) / (3/5) = 5/6`. -/
theorem C3_observePacman_direct_update_witness :
    exactRounding.IsExact ∧
    sumNonWall wallAndTwoCells (fun y x =>
      exampleLikelihood x y 1 0 SD_PACMAN_MEASUREMENT * wallAndTwoCells.pacman_pose_map_ y x)
      = 3 / 5 ∧
    isTraversable wallAndTwoCells 1 0 ∧
    ∃ s', (observePacmanCall exactRounding exampleLikelihood wallAndTwoCells 1 0).state = some s' ∧
      s'.pacman_pose_map_ 0 1 = 5 / 6 := by
  have hr : exactRounding.IsExact := ⟨fun _ => rfl, fun _ => rfl⟩
  have hS : sumNonWall wallAndTwoCells (fun y x =>
      exampleLikelihood x y 1 0 SD_PACMAN_MEASUREMENT * wallAndTwoCells.pacman_pose_map_ y x)
      = 3 / 5 := by
    simp [sumNonWall, Finset.sum_range_succ, wallAndTwoCells, rowGrid, exampleLikelihood,
      SD_PACMAN_MEASUREMENT]
    norm_num
  have hc : isTraversable wallAndTwoCells 1 0 := by
    simp [isTraversable, wallAndTwoCells, rowGrid]
  obtain ⟨s', h1, h2, -⟩ :=
    C3_observePacman_direct_update exactRounding exampleLikelihood wallAndTwoCells 1 0 1 0 hc
  refine ⟨hr, hS, hc, s', h1, ?_⟩
  rw [(h2 hr).2 (by rw [hS]; norm_num), hS]
  simp [wallAndTwoCells, rowGrid, exampleLikelihood, SD_PACMAN_MEASUREMENT]
  norm_num

theorem Rounding.RoundsToNearest.zero {r : Rounding} (hr : r.RoundsToNearest) :
    r.toFloat 0 = 0 :=
  hr.1 0 (by norm_num)

theorem underflowOnly_roundsToNearest : underflowOnly.RoundsToNearest := by
  refine ⟨?_, ?_, ?_, rfl, ?_⟩
  · intro q hq
    simp only [underflowOnly]
    rw [if_pos hq]
  · simp only [underflowOnly]
    rw [if_neg]
    norm_num [abs_of_pos]
  · simp only [underflowOnly]
    rw [if_neg]
    norm_num [abs_of_pos]
  · simp only [underflowOnly]
    rw [if_neg]
    norm_num [abs_of_pos]

theorem corridorOfFour_traversable (x y : Int) :
    isTraversable corridorOfFour x y ↔ (0 ≤ x ∧ x < 4) ∧ y = 0 := by
  simp only [isTraversable, corridorOfFour]
  constructor
  · rintro ⟨⟨h1, h2⟩, h3, h4, -⟩
    exact ⟨⟨h1, by omega⟩, by omega⟩
  · rintro ⟨⟨h1, h2⟩, rfl⟩
    exact ⟨⟨h1, by omega⟩, le_refl 0, by decide, by decide⟩

theorem iround_two : iround 2 = 2 := by
  have : ⌊(2 : ℚ) + 1 / 2⌋ = 2 := by
    rw [Int.floor_eq_iff]
    norm_num
  simp only [iround, zero_le_two, if_true, this]

/-- On `corridorOfFour` with `spikeLikelihood`, under rounding to the nearest
`float`, every product of the first loop nest of `observePacman` is 0, the call
returns, and the belief it stores is `1/4` at each of the four cells. -/
theorem observePacmanCall_corridorOfFour (r : Rounding) (hr : r.RoundsToNearest) :
    ∃ s', observePacmanCall r spikeLikelihood corridorOfFour 2 0 = Outcome.returned () s' ∧
      (∀ x y, s'.pacman_pose_map_ y x = if isTraversable corridorOfFour x y then 1 / 4 else 0) ∧
      s'.width_ = 4 ∧ s'.height_ = 1 := by
  have h0 := hr.zero
  have hz : ∀ x y, isTraversable corridorOfFour x y →
      r.toFloat (r.toFloat (spikeLikelihood x y 2 0 SD_PACMAN_MEASUREMENT)
        * corridorOfFour.pacman_pose_map_ y x) = 0 := by
    intro x y ht
    obtain ⟨⟨hx0, hx1⟩, rfl⟩ := (corridorOfFour_traversable x y).mp ht
    by_cases h2 : x = 2
    · subst h2
      simp only [spikeLikelihood, corridorOfFour, and_self, if_true, hr.2.1]
      apply hr.1
      norm_num [abs_of_pos]
    · simp [spikeLikelihood, h2, h0]
  obtain ⟨s', h1, h2, h3, h4, -⟩ := (observePacmanCall_returns r spikeLikelihood corridorOfFour
    2 0).1 (by rw [iround_two]; decide) (by rw [iround_one_and_zero.2]; decide)
  refine ⟨s', h1, ?_, h3, h4⟩
  intro x y
  rw [h2, observePacmanPosteriorFloat_of_products_zero r spikeLikelihood corridorOfFour 2 0 h0 hz,
    normalizeOrRedistributeFloat_eq]
  have e : (((corridorOfFour.height_ * corridorOfFour.width_ : Nat) : ℚ)) = 4 := by
    simp [corridorOfFour]
  simp only [e, ne_eq, not_true_eq_false, if_false, hr.2.2.1, hr.2.2.2.1, hr.2.2.2.2]
  simp [zeroGrid]

/-- Counterexample to C3 as stated, in `float` arithmetic: on the corridor
`corridorOfFour` with the uniform prior 1/4 and `spikeLikelihood`, the sum `S`
is `2^-151`, not zero, and the specified value at the non-WALL cell `(2, 0)` is
1; under rounding to the nearest `float` (which `underflowOnly`, for one,
performs on the values met) the product `2^-149 * 1/4` is stored as 0, the sum
the code computes is 0, and the call stores `1/4` at `(2, 0)`. -/
theorem C3_small_product_is_stored_as_zero :
    sumNonWall corridorOfFour (fun y x =>
      spikeLikelihood x y 2 0 SD_PACMAN_MEASUREMENT * corridorOfFour.pacman_pose_map_ y x)
      = 1 / 2 ^ 151 ∧
    isTraversable corridorOfFour 2 0 ∧
    spikeLikelihood 2 0 2 0 SD_PACMAN_MEASUREMENT * corridorOfFour.pacman_pose_map_ 0 2
      / sumNonWall corridorOfFour (fun y x =>
          spikeLikelihood x y 2 0 SD_PACMAN_MEASUREMENT * corridorOfFour.pacman_pose_map_ y x)
      = 1 ∧
    underflowOnly.RoundsToNearest ∧
    (∀ r : Rounding, r.RoundsToNearest →
      ∃ s', observePacmanCall r spikeLikelihood corridorOfFour 2 0 = Outcome.returned () s' ∧
        s'.pacman_pose_map_ 0 2 = 1 / 4) := by
  have hS : sumNonWall corridorOfFour (fun y x =>
      spikeLikelihood x y 2 0 SD_PACMAN_MEASUREMENT * corridorOfFour.pacman_pose_map_ y x)
      = 1 / 2 ^ 151 := by
    simp [sumNonWall, Finset.sum_range_succ, corridorOfFour, spikeLikelihood]
    norm_num
  have ht : isTraversable corridorOfFour 2 0 :=
    (corridorOfFour_traversable 2 0).mpr ⟨⟨by decide, by decide⟩, rfl⟩
  refine ⟨hS, ht, ?_, underflowOnly_roundsToNearest, ?_⟩
  · rw [hS]
    simp [spikeLikelihood, corridorOfFour]
    norm_num
  · intro r hr
    obtain ⟨s', h1, h2, -, -⟩ := observePacmanCall_corridorOfFour r hr
    exact ⟨s', h1, by rw [h2, if_pos ht]⟩

/-! ## The relative update of a ghost -/

/-- C4, as amended. Relative update: when the belief of pacman is 0 at every
WALL cell of the map, `observeGhost` stores at every non-WALL cell `c`, in exact
arithmetic (no `float` or `double` operation rounds) and with a non-zero
normaliser, the normalised value of `old_k[c]` times the sum over the non-WALL
cells `p` of `likelihood(measurement | c - p) * evaderBelief[p]`; under the
proviso on the WALL cells the sum the code takes over every cell `p` is the sum
over the non-WALL cells only. Whatever the rounding, when the sum that the code
accumulates is non-zero, the stored value is the `float` quotient by that sum of
the value that the code accumulates for `c`; and the call returns for every
index `k` of a ghost. -/
theorem C4_observeGhost_relative_update (r : Rounding) (lik : Likelihood)
    (s : State) (mx my : ℚ) (k : Nat)
    (hwall : ∀ x y, inBounds s x y → s.map_ y x = WALL → s.pacman_pose_map_ y x = 0)
    (x y : Int) (hc : isTraversable s x y) :
    (k < s.num_ghosts_ →
      observeGhostCall r lik s mx my (k : Int)
        = Outcome.returned () (observeGhostFloat r lik s mx my k)) ∧
    (r.IsExact →
      sumNonWall s (fun y x => ghostPosteriorNonWall lik s mx my k x y) ≠ 0 →
      (observeGhostFloat r lik s mx my k).ghosts_poses_map_ k y x
        = ghostPosteriorNonWall lik s mx my k x y
          / sumNonWall s (fun y x => ghostPosteriorNonWall lik s mx my k x y)) ∧
    ((observeGhostPosteriorFloat r lik s mx my k).2 ≠ 0 →
      (observeGhostFloat r lik s mx my k).ghosts_poses_map_ k y x
        = r.toFloat ((observeGhostPosteriorFloat r lik s mx my k).1 y x
            / (observeGhostPosteriorFloat r lik s mx my k).2)) ∧
    ghostPosteriorAllCells lik s mx my k x y = ghostPosteriorNonWall lik s mx my k x y := by
  have e : (fun (y x : Int) => ghostPosteriorAllCells lik s mx my k x y)
      = fun y x => ghostPosteriorNonWall lik s mx my k x y := by
    funext y x
    exact ghostPosteriorAllCells_eq_nonWall lik s mx my k hwall x y
  refine ⟨?_, ?_, ?_, ghostPosteriorAllCells_eq_nonWall lik s mx my k hwall x y⟩
  · intro hk
    have hk' : (0 : Int) ≤ (k : Int) ∧ (k : Int) < (s.num_ghosts_ : Int) := by omega
    simp only [observeGhostCall, hk', and_self, if_true, Int.toNat_ofNat]
  · intro hr hS
    rw [observeGhostFloat_exact r hr]
    simp only [observeGhost, observeGhostPosterior_eq, normalizeOrRedistribute_eq,
      Function.update_same, e]
    simp [hc, hS, ghostPosteriorAllCells_eq_nonWall lik s mx my k hwall x y]
  · intro hS
    simp only [observeGhostFloat, Function.update_same, normalizeOrRedistributeFloat_eq,
      if_pos hc, if_pos hS]

/-- Witness of C4 as amended, on the map `wallAndTwoCells` with the displacement
`(1, 0)` and the rounding that leaves every value as it is: the belief of
pacman is 0 on the WALL cell, the normaliser is non-zero, the call for the
ghost 0 returns and the cell `(2, 0)` receives the normalised value. -/
theorem C4_observeGhost_relative_update_witness :
    exactRounding.IsExact ∧
    (∀ x y, inBounds wallAndTwoCells x y → wallAndTwoCells.map_ y x = WALL →
      wallAndTwoCells.pacman_pose_map_ y x = 0) ∧
    sumNonWall wallAndTwoCells
      (fun y x => ghostPosteriorNonWall exampleLikelihood wallAndTwoCells 1 0 0 x y) ≠ 0 ∧
    isTraversable wallAndTwoCells 2 0 ∧
    observeGhostCall exactRounding exampleLikelihood wallAndTwoCells 1 0 0
      = Outcome.returned () (observeGhostFloat exactRounding exampleLikelihood wallAndTwoCells 1 0 0) ∧
    (observeGhostFloat exactRounding exampleLikelihood wallAndTwoCells 1 0 0).ghosts_poses_map_ 0 0 2
      = ghostPosteriorNonWall exampleLikelihood wallAndTwoCells 1 0 0 2 0
        / sumNonWall wallAndTwoCells
            (fun y x => ghostPosteriorNonWall exampleLikelihood wallAndTwoCells 1 0 0 x y) := by
  have hr : exactRounding.IsExact := ⟨fun _ => rfl, fun _ => rfl⟩
  have hwall : ∀ x y, inBounds wallAndTwoCells x y → wallAndTwoCells.map_ y x = WALL →
      wallAndTwoCells.pacman_pose_map_ y x = 0 := by
    intro x y hb hw
    simp only [wallAndTwoCells, rowGrid] at hw ⊢
    split_ifs at hw ⊢ <;> simp_all
  have hS : sumNonWall wallAndTwoCells
      (fun y x => ghostPosteriorNonWall exampleLikelihood wallAndTwoCells 1 0 0 x y) ≠ 0 := by
    simp [sumNonWall, ghostPosteriorNonWall, Finset.sum_range_succ, wallAndTwoCells, rowGrid,
      exampleLikelihood, SD_GHOST_DIST_MEASUREMENT]
    norm_num
  have hc : isTraversable wallAndTwoCells 2 0 := by
    simp [isTraversable, wallAndTwoCells, rowGrid]
  have h := C4_observeGhost_relative_update exactRounding exampleLikelihood wallAndTwoCells
    1 0 0 hwall 2 0 hc
  exact ⟨hr, hwall, hS, hc, h.1 (by decide), h.2.1 hr hS⟩

/-- The relative update in `float` arithmetic on `corridorOfFourSkewed`, which
has no WALL cell, with `originLikelihood`: the normaliser is `2^-151`, not zero,
and the specified value at the cell `(0, 0)` is `1/2`; under rounding to the
nearest `float` every product `2^-149 * 1/4` is stored as 0, the sum the code
computes is 0, and `observeGhost` stores `1/4` at `(0, 0)`. -/
theorem observeGhostFloat_small_products (r : Rounding) (hr : r.RoundsToNearest) :
    (∀ x y, inBounds corridorOfFourSkewed x y → corridorOfFourSkewed.map_ y x = WALL →
      corridorOfFourSkewed.pacman_pose_map_ y x = 0) ∧
    sumNonWall corridorOfFourSkewed
      (fun y x => ghostPosteriorNonWall originLikelihood corridorOfFourSkewed 0 0 0 x y)
      = 1 / 2 ^ 151 ∧
    ghostPosteriorNonWall originLikelihood corridorOfFourSkewed 0 0 0 0 0
      / sumNonWall corridorOfFourSkewed
          (fun y x => ghostPosteriorNonWall originLikelihood corridorOfFourSkewed 0 0 0 x y)
      = 1 / 2 ∧
    (observeGhostFloat r originLikelihood corridorOfFourSkewed 0 0 0).ghosts_poses_map_ 0 0 0
      = 1 / 4 := by
  have hS : sumNonWall corridorOfFourSkewed
      (fun y x => ghostPosteriorNonWall originLikelihood corridorOfFourSkewed 0 0 0 x y)
      = 1 / 2 ^ 151 := by
    simp [sumNonWall, ghostPosteriorNonWall, Finset.sum_range_succ, corridorOfFourSkewed,
      corridorOfFour, originLikelihood]
    norm_num
  have ht : ∀ x y, isTraversable corridorOfFourSkewed x y ↔ (0 ≤ x ∧ x < 4) ∧ y = 0 :=
    corridorOfFour_traversable
  refine ⟨?_, hS, ?_, ?_⟩
  · intro x y _ hw
    simp [corridorOfFourSkewed, corridorOfFour] at hw
  · rw [hS]
    simp [sumNonWall, ghostPosteriorNonWall, Finset.sum_range_succ, corridorOfFourSkewed,
      corridorOfFour, originLikelihood]
    norm_num
  · have h0 := hr.zero
    have hz : ∀ x y, isTraversable corridorOfFourSkewed x y → ∀ px py,
        inBounds corridorOfFourSkewed px py →
        r.toFloat (r.toFloat (r.toFloat
          (originLikelihood (x - px) (y - py) 0 0 SD_GHOST_DIST_MEASUREMENT)
          * corridorOfFourSkewed.ghosts_poses_map_ 0 y x)
          * corridorOfFourSkewed.pacman_pose_map_ py px) = 0 := by
      intro x y hxy px py _
      obtain ⟨⟨hx0, hx1⟩, rfl⟩ := (ht x y).mp hxy
      have hg : corridorOfFourSkewed.ghosts_poses_map_ 0 0 x = 1 / 4 := by
        simp [corridorOfFourSkewed, corridorOfFour, hx0, hx1]
      rw [hg]
      by_cases hd : x - px = 0 ∧ (0 : Int) - py = 0
      · have hu : r.toFloat (1 / 2 ^ 149 * (1 / 4)) = 0 := by
          apply hr.1
          norm_num [abs_of_pos]
        simp only [originLikelihood, hd, and_self, if_true, hr.2.1, hu, zero_mul, h0]
      · simp only [originLikelihood, hd, if_false, h0, zero_mul]
    have e : (((corridorOfFourSkewed.height_ * corridorOfFourSkewed.width_ : Nat) : ℚ)) = 4 := by
      simp [corridorOfFourSkewed, corridorOfFour]
    have h00 : isTraversable corridorOfFourSkewed 0 0 :=
      (ht 0 0).mpr ⟨⟨le_refl 0, by decide⟩, rfl⟩
    simp only [observeGhostFloat, Function.update_same,
      observeGhostPosteriorFloat_of_products_zero r originLikelihood corridorOfFourSkewed 0 0 0
        h0 hz, normalizeOrRedistributeFloat_eq, e, ne_eq, not_true_eq_false, if_false,
      hr.2.2.1, hr.2.2.2.1, hr.2.2.2.2, if_pos h00]

/-- Under a rounding that keeps the order and 0, with `float` products that are
not negative at the non-WALL cells, the sum that the first loop nest of
`observePacman` accumulates is not negative. -/
theorem observePacmanPosteriorFloat_sum_nonneg (r : Rounding) (hr : r.IsMonotone)
    (lik : Likelihood) (s : State) (mx my : ℚ)
    (hnn : ∀ x y, isTraversable s x y →
      0 ≤ r.toFloat (r.toFloat (lik x y mx my SD_PACMAN_MEASUREMENT) * s.pacman_pose_map_ y x)) :
    0 ≤ (observePacmanPosteriorFloat r lik s mx my).2 := by
  unfold observePacmanPosteriorFloat
  refine forRange_induction (fun (_ : Nat) (st : Grid ℚ × ℚ) => 0 ≤ st.2)
    s.width_ _ _ (le_refl 0) ?_
  intro a ha t ht
  refine forRange_induction (fun (_ : Nat) (st : Grid ℚ × ℚ) => 0 ≤ st.2)
    s.height_ _ _ ht ?_
  intro b hb t ht
  by_cases hw : s.map_ (b : Int) (a : Int) = WALL
  · simpa [hw] using ht
  · have htr : isTraversable s a b :=
      ⟨⟨by omega, by exact_mod_cast ha⟩, by omega, by exact_mod_cast hb, hw⟩
    simp only [ne_eq, hw, not_false_eq_true, if_true, Grid.set_same]
    have := hr.1 0 _ (add_nonneg ht (hnn a b htr))
    rwa [hr.2.2.1] at this

/-- Under a rounding that keeps the order and 0, from a prior that is `p > 0`
at every non-WALL cell of the map and a likelihood that is not negative there
and largest at the non-WALL cell `m`, a call of `observePacman` leaves a belief
that is nowhere larger than at `m`. -/
theorem observePacmanCall_largest_at (r : Rounding) (hr : r.IsMonotone) (lik : Likelihood)
    (s : State) (mx my p : ℚ) (hp : 0 < p)
    (hprior : ∀ x y, isTraversable s x y → s.pacman_pose_map_ y x = p)
    (hlik : ∀ x y, isTraversable s x y → 0 ≤ lik x y mx my SD_PACMAN_MEASUREMENT)
    (m : Cell) (hm : isTraversable s m.1 m.2)
    (hmax : ∀ x y, isTraversable s x y →
      lik x y mx my SD_PACMAN_MEASUREMENT ≤ lik m.1 m.2 mx my SD_PACMAN_MEASUREMENT)
    (s' : State) (hs' : (observePacmanCall r lik s mx my).state = some s') (x y : Int) :
    s'.pacman_pose_map_ y x ≤ s'.pacman_pose_map_ m.2 m.1 := by
  obtain ⟨hF, hD, hF0, hD0⟩ := hr
  obtain ⟨s'', h1, h2, -, -⟩ := observePacmanCall_state r lik s mx my
  have e : s' = s'' := Option.some.inj (hs'.symm.trans h1)
  subst e
  have hprod : ∀ x y, isTraversable s x y →
      0 ≤ r.toFloat (r.toFloat (lik x y mx my SD_PACMAN_MEASUREMENT) * s.pacman_pose_map_ y x) := by
    intro x y ht
    rw [hprior x y ht]
    have h1 : 0 ≤ r.toFloat (lik x y mx my SD_PACMAN_MEASUREMENT) := by
      have := hF 0 _ (hlik x y ht)
      rwa [hF0] at this
    have := hF 0 _ (mul_nonneg h1 (le_of_lt hp))
    rwa [hF0] at this
  have hS := observePacmanPosteriorFloat_sum_nonneg r ⟨hF, hD, hF0, hD0⟩ lik s mx my hprod
  have hw : 0 ≤ r.toFloat (r.toDouble (1 / r.toFloat (((s.height_ * s.width_ : Nat) : ℚ)))) := by
    have h1 : 0 ≤ r.toFloat (((s.height_ * s.width_ : Nat) : ℚ)) := by
      have := hF 0 _ (Nat.cast_nonneg (s.height_ * s.width_))
      rwa [hF0] at this
    have h2 : 0 ≤ r.toDouble (1 / r.toFloat (((s.height_ * s.width_ : Nat) : ℚ))) := by
      have := hD 0 _ (div_nonneg zero_le_one h1)
      rwa [hD0] at this
    have := hF 0 _ h2
    rwa [hF0] at this
  rw [h2, normalizeOrRedistributeFloat_eq, observePacmanPosteriorFloat_grid]
  simp only [if_pos hm]
  by_cases hS0 : (observePacmanPosteriorFloat r lik s mx my).2 = 0
  · simp only [hS0, ne_eq, not_true_eq_false, if_false]
    by_cases ht : isTraversable s x y
    · simp only [if_pos ht, le_refl]
    · simp only [if_neg ht]
      exact hw
  · have hSpos : 0 < (observePacmanPosteriorFloat r lik s mx my).2 :=
      lt_of_le_of_ne hS (Ne.symm hS0)
    simp only [ne_eq, hS0, not_false_eq_true, if_true]
    by_cases ht : isTraversable s x y
    · simp only [if_pos ht]
      apply hF
      apply div_le_div_of_nonneg_right _ (le_of_lt hSpos)
      apply hF
      rw [hprior x y ht, hprior m.1 m.2 hm]
      exact mul_le_mul_of_nonneg_right (hF _ _ (hmax x y ht)) (le_of_lt hp)
    · simp only [if_neg ht]
      have := hF 0 _ (div_nonneg (hprod m.1 m.2 hm) (le_of_lt hSpos))
      rwa [hF0] at this

theorem underflowOnly_isMonotone : underflowOnly.IsMonotone := by
  refine ⟨?_, fun a b h => h, ?_, rfl⟩
  · intro a b hab
    have he : (0 : ℚ) < 1 / 2 ^ 150 := by positivity
    simp only [underflowOnly]
    split_ifs with h1 h2 h2
    · exact le_refl 0
    · rw [abs_lt] at h1
      rw [abs_lt, not_and_or, not_lt, not_lt] at h2
      rcases h2 with h2 | h2 <;> linarith
    · rw [abs_lt] at h2
      rw [abs_lt, not_and_or, not_lt, not_lt] at h1
      rcases h1 with h1 | h1 <;> linarith
    · exact hab
  · simp only [underflowOnly]
    rw [if_pos]
    norm_num

/-! ## Observation of pacman from a uniform belief: the most probable cell -/

/-- C21, as amended. Observation concentrates the belief on the measured cell:
from a prior that is a positive constant on the non-WALL cells of the map and a
likelihood (a density, not negative) that is strictly greater at the non-WALL
cell `m` than at every other non-WALL cell, after a call of `observePacman`: in
exact arithmetic, when no `float` or `double` operation rounds, the belief at
`m` is strictly greater than at every other cell and, `util::INFINITE` not
being negative, `getMostProbablePacmanPose` returns `m`; and under every
rounding that keeps the order and 0, the belief is nowhere greater than at
`m`. -/
theorem C21_observePacman_concentrates_on_measured_cell (r : Rounding)
    (lik : Likelihood) (INFINITE : Int)
    (s : State) (mx my p : ℚ) (hI : 0 ≤ INFINITE) (hp : 0 < p)
    (hprior : ∀ x y, isTraversable s x y → s.pacman_pose_map_ y x = p)
    (hlik : ∀ x y, isTraversable s x y → 0 ≤ lik x y mx my SD_PACMAN_MEASUREMENT)
    (m : Cell) (hm : isTraversable s m.1 m.2)
    (hmax : ∀ x y, isTraversable s x y → (x, y) ≠ m →
      lik x y mx my SD_PACMAN_MEASUREMENT < lik m.1 m.2 mx my SD_PACMAN_MEASUREMENT) :
    ∃ s', (observePacmanCall r lik s mx my).state = some s' ∧
      (r.IsExact →
        (∀ x y, (x, y) ≠ m → s'.pacman_pose_map_ y x < s'.pacman_pose_map_ m.2 m.1) ∧
        getMostProbablePacmanPose INFINITE s' = m) ∧
      (r.IsMonotone → ∀ x y, s'.pacman_pose_map_ y x ≤ s'.pacman_pose_map_ m.2 m.1) := by
  obtain ⟨s', h1, -, h3, h4⟩ := observePacmanCall_state r lik s mx my
  refine ⟨s', h1, ?_, ?_⟩
  · intro hr
    obtain ⟨s'', h1', h2, -, -⟩ := observePacmanCall_state_exact r hr lik s mx my
    have e : s' = s'' := Option.some.inj (h1.symm.trans h1')
    subst e
    obtain ⟨hpos, hlt⟩ := observePacman_concentrates lik s mx my p hp hprior hlik m hm hmax
    rw [← h2] at hpos hlt
    refine ⟨hlt, ?_⟩
    have hb : inBounds s' m.1 m.2 := by
      have := isTraversable_inBounds s m.1 m.2 hm
      simp only [inBounds, h3, h4] at this ⊢
      exact this
    have hI' : -(INFINITE : ℚ) < s'.pacman_pose_map_ m.2 m.1 := by
      have : (0 : ℚ) ≤ (INFINITE : ℚ) := by exact_mod_cast hI
      linarith
    obtain ⟨-, hmaxr, -⟩ := mostProbableScan_first_maximum INFINITE s' s'.pacman_pose_map_
      ⟨m.1, m.2, hb, hI'⟩
    by_contra hne
    have := hlt (getMostProbablePacmanPose INFINITE s').1
      (getMostProbablePacmanPose INFINITE s').2 hne
    exact absurd (hmaxr m.1 m.2 hb) (not_le.mpr this)
  · intro hr x y
    refine observePacmanCall_largest_at r hr lik s mx my p hp hprior hlik m hm ?_ s' h1 x y
    intro x y ht
    by_cases e : (x, y) = m
    · rw [← e]
    · exact le_of_lt (hmax x y ht e)

/-- Witness of C21 as amended, on the corridor of one row and three columns
without walls, with the uniform prior 1/3, `exampleLikelihood`, the rounding
that leaves every value as it is, and pacman observed at `(1, 0)`: the
likelihood is 1 at `(1, 0)` and 1/5 at the two other cells, the belief after
the call is largest at `(1, 0)`, and `getMostProbablePacmanPose` returns
`(1, 0)`; and with the rounding `underflowOnly`, which keeps the order and 0,
the belief at `(0, 0)` is not greater than at `(1, 0)`. -/
theorem C21_observePacman_concentrates_on_measured_cell_witness :
    exactRounding.IsExact ∧ (0 : ℚ) < 1 / 3 ∧
    (∀ x y, isTraversable corridorOfThree x y → corridorOfThree.pacman_pose_map_ y x = 1 / 3) ∧
    (∀ x y, isTraversable corridorOfThree x y →
      0 ≤ exampleLikelihood x y 1 0 SD_PACMAN_MEASUREMENT) ∧
    isTraversable corridorOfThree 1 0 ∧
    (∀ x y, isTraversable corridorOfThree x y → (x, y) ≠ ((1 : Int), (0 : Int)) →
      exampleLikelihood x y 1 0 SD_PACMAN_MEASUREMENT
        < exampleLikelihood 1 0 1 0 SD_PACMAN_MEASUREMENT) ∧
    (∃ s', (observePacmanCall exactRounding exampleLikelihood corridorOfThree 1 0).state = some s' ∧
      s'.pacman_pose_map_ 0 0 < s'.pacman_pose_map_ 0 1 ∧
      s'.pacman_pose_map_ 0 2 < s'.pacman_pose_map_ 0 1 ∧
      getMostProbablePacmanPose 1000000 s' = (1, 0)) ∧
    underflowOnly.IsMonotone ∧
    ∃ s', (observePacmanCall underflowOnly exampleLikelihood corridorOfThree 1 0).state = some s' ∧
      s'.pacman_pose_map_ 0 0 ≤ s'.pacman_pose_map_ 0 1 := by
  have hr : exactRounding.IsExact := ⟨fun _ => rfl, fun _ => rfl⟩
  have hp : (0 : ℚ) < 1 / 3 := by norm_num
  have hprior : ∀ x y, isTraversable corridorOfThree x y →
      corridorOfThree.pacman_pose_map_ y x = 1 / 3 := by
    intro x y ht
    obtain ⟨hx, rfl⟩ := corridorOfThree_traversable x y ht
    rcases hx with rfl | rfl | rfl <;> simp [corridorOfThree, rowGrid]
  have hlik : ∀ x y, isTraversable corridorOfThree x y →
      0 ≤ exampleLikelihood x y 1 0 SD_PACMAN_MEASUREMENT := by
    intro x y _
    unfold exampleLikelihood
    positivity
  have hm : isTraversable corridorOfThree 1 0 := by
    simp [isTraversable, corridorOfThree, wallAndTwoCells, rowGrid]
  have hmax : ∀ x y, isTraversable corridorOfThree x y → (x, y) ≠ ((1 : Int), (0 : Int)) →
      exampleLikelihood x y 1 0 SD_PACMAN_MEASUREMENT
        < exampleLikelihood 1 0 1 0 SD_PACMAN_MEASUREMENT := by
    intro x y ht hne
    obtain ⟨hx, rfl⟩ := corridorOfThree_traversable x y ht
    rcases hx with rfl | rfl | rfl
    · norm_num [exampleLikelihood, SD_PACMAN_MEASUREMENT]
    · exact absurd rfl hne
    · norm_num [exampleLikelihood, SD_PACMAN_MEASUREMENT]
  obtain ⟨s', h1, h2, -⟩ := C21_observePacman_concentrates_on_measured_cell exactRounding
    exampleLikelihood 1000000 corridorOfThree 1 0 (1 / 3) (by decide) hp hprior hlik (1, 0) hm hmax
  obtain ⟨t, k1, -, k3⟩ := C21_observePacman_concentrates_on_measured_cell underflowOnly
    exampleLikelihood 1000000 corridorOfThree 1 0 (1 / 3) (by decide) hp hprior hlik (1, 0) hm hmax
  exact ⟨hr, hp, hprior, hlik, hm, hmax, ⟨s', h1, (h2 hr).1 0 0 (by decide),
    (h2 hr).1 2 0 (by decide), (h2 hr).2⟩, underflowOnly_isMonotone, t, k1,
    k3 underflowOnly_isMonotone 0 0⟩

/-- Counterexample to C21 as stated, in `float` arithmetic: on the corridor
`corridorOfFour`, with the uniform prior 1/4, `spikeLikelihood` is not negative
and strictly greater at the cell `(2, 0)` than at the three other cells; under
rounding to the nearest `float` (which `underflowOnly`, for one, performs on the
values met) the product `2^-149 * 1/4` is stored as 0, the call redistributes,
the belief is `1/4` at `(0, 0)` as at `(2, 0)`, and, `util::INFINITE` not being
negative, `getMostProbablePacmanPose` returns `(0, 0)`, not `(2, 0)`. -/
theorem C21_small_product_is_stored_as_zero :
    (∀ x y, isTraversable corridorOfFour x y → corridorOfFour.pacman_pose_map_ y x = 1 / 4) ∧
    (∀ x y, isTraversable corridorOfFour x y →
      0 ≤ spikeLikelihood x y 2 0 SD_PACMAN_MEASUREMENT) ∧
    isTraversable corridorOfFour 2 0 ∧
    (∀ x y, isTraversable corridorOfFour x y → (x, y) ≠ ((2 : Int), (0 : Int)) →
      spikeLikelihood x y 2 0 SD_PACMAN_MEASUREMENT
        < spikeLikelihood 2 0 2 0 SD_PACMAN_MEASUREMENT) ∧
    underflowOnly.RoundsToNearest ∧
    (∀ r : Rounding, r.RoundsToNearest → ∀ INFINITE : Int, 0 ≤ INFINITE →
      ∃ s', observePacmanCall r spikeLikelihood corridorOfFour 2 0 = Outcome.returned () s' ∧
        s'.pacman_pose_map_ 0 0 = 1 / 4 ∧ s'.pacman_pose_map_ 0 2 = 1 / 4 ∧
        getMostProbablePacmanPose INFINITE s' = (0, 0) ∧
        getMostProbablePacmanPose INFINITE s' ≠ (2, 0)) := by
  have ht2 : isTraversable corridorOfFour 2 0 :=
    (corridorOfFour_traversable 2 0).mpr ⟨⟨by decide, by decide⟩, rfl⟩
  have ht0 : isTraversable corridorOfFour 0 0 :=
    (corridorOfFour_traversable 0 0).mpr ⟨⟨by decide, by decide⟩, rfl⟩
  refine ⟨?_, ?_, ht2, ?_, underflowOnly_roundsToNearest, ?_⟩
  · intro x y ht
    obtain ⟨⟨hx0, hx1⟩, rfl⟩ := (corridorOfFour_traversable x y).mp ht
    simp [corridorOfFour, hx0, hx1]
  · intro x y _
    unfold spikeLikelihood
    split_ifs <;> positivity
  · intro x y ht hne
    obtain ⟨-, rfl⟩ := (corridorOfFour_traversable x y).mp ht
    have hx : x ≠ 2 := fun h => hne (by rw [h])
    simp [spikeLikelihood, hx]
  · intro r hr INFINITE hI
    obtain ⟨s', h1, h2, h3, h4⟩ := observePacmanCall_corridorOfFour r hr
    have e0 : s'.pacman_pose_map_ 0 0 = 1 / 4 := by rw [h2, if_pos ht0]
    have e2 : s'.pacman_pose_map_ 0 2 = 1 / 4 := by rw [h2, if_pos ht2]
    have hb0 : inBounds s' 0 0 := by
      simp only [inBounds, h3, h4]
      decide
    have hI' : -(INFINITE : ℚ) < s'.pacman_pose_map_ 0 0 := by
      have : (0 : ℚ) ≤ (INFINITE : ℚ) := by exact_mod_cast hI
      rw [e0]
      linarith
    obtain ⟨hin, hmaxr, hfirst⟩ := mostProbableScan_first_maximum INFINITE s'
      s'.pacman_pose_map_ ⟨0, 0, hb0, hI'⟩
    have hR : getMostProbablePacmanPose INFINITE s' = (0, 0) := by
      have hval : s'.pacman_pose_map_ 0 0
          = s'.pacman_pose_map_ (mostProbableScan INFINITE s' s'.pacman_pose_map_).2.1
              (mostProbableScan INFINITE s' s'.pacman_pose_map_).1 := by
        have hRt : isTraversable corridorOfFour
            (mostProbableScan INFINITE s' s'.pacman_pose_map_).1
            (mostProbableScan INFINITE s' s'.pacman_pose_map_).2.1 := by
          simp only [inBounds, h3, h4] at hin
          exact (corridorOfFour_traversable _ _).mpr ⟨⟨hin.1, by omega⟩, by omega⟩
        rw [e0, h2, if_pos hRt]
      have := hfirst 0 0 hb0 hval
      simp only [inBounds, h3, h4] at hin
      apply Prod.ext
      · show (mostProbableScan INFINITE s' s'.pacman_pose_map_).1 = 0
        omega
      · show (mostProbableScan INFINITE s' s'.pacman_pose_map_).2.1 = 0
        omega
    refine ⟨s', h1, e0, e2, hR, ?_⟩
    rw [hR]
    decide

/-! ## The transport endpoint -/

/-- C19, as amended. `observeAgent` dispatch and acknowledgement: whenever the
call returns, it returns true with `response.observed = true`. For a request
with agent id 0 the call ends as the call of `observePacman` on the pose of the
request ends, in a state with the finished flag set to `isFinished` of the
request: it returns when both coordinates of the pose round into the range of
`int`, and it is left by the exception `boost::math::rounding_error`, without
returning, when one of them does not. For a request with agent id `k` in `1..N`
the call returns, in the state after `observeGhost` on ghost `k - 1` with the
finished flag set. -/
theorem C19_observeAgent_dispatch (r : Rounding) (lik : Likelihood) (s : State)
    (req : Request) :
    (∀ v s', observeAgent r lik s req = Outcome.returned v s' →
      v.1 = true ∧ v.2.observed = true) ∧
    (req.agent = 0 →
      (INT_MIN ≤ iround req.pose.1 ∧ iround req.pose.1 ≤ INT_MAX →
        INT_MIN ≤ iround req.pose.2 ∧ iround req.pose.2 ≤ INT_MAX →
        ∃ s', observePacmanCall r lik s req.pose.1 req.pose.2 = Outcome.returned () s' ∧
          observeAgent r lik s req = Outcome.returned (true, { observed := true })
            { s' with is_finished_ := req.is_finished }) ∧
      ((iround req.pose.1 < INT_MIN ∨ INT_MAX < iround req.pose.1) ∨
          (iround req.pose.2 < INT_MIN ∨ INT_MAX < iround req.pose.2) →
        ∃ s', observePacmanCall r lik s req.pose.1 req.pose.2 = Outcome.raised s' ∧
          observeAgent r lik s req = Outcome.raised { s' with is_finished_ := req.is_finished })) ∧
    (∀ k : Nat, 1 ≤ k → k ≤ s.num_ghosts_ → req.agent = (k : Int) →
      observeGhostCall r lik s req.pose.1 req.pose.2 ((k : Int) - 1)
        = Outcome.returned () (observeGhostFloat r lik s req.pose.1 req.pose.2 (k - 1)) ∧
      observeAgent r lik s req = Outcome.returned (true, { observed := true })
        { observeGhostFloat r lik s req.pose.1 req.pose.2 (k - 1) with
          is_finished_ := req.is_finished }) := by
  refine ⟨?_, ?_, ?_⟩
  · intro v s' h
    unfold observeAgent at h
    simp only at h
    split at h
    · cases h
      exact ⟨rfl, rfl⟩
    · cases h
    · cases h
  · intro h0
    constructor
    · intro hx hy
      obtain ⟨s', h1, -⟩ := (observePacmanCall_returns r lik s req.pose.1 req.pose.2).1 hx hy
      refine ⟨s', h1, ?_⟩
      simp only [observeAgent, PACMAN, h0, if_true, observePacmanCall_is_finished, h1]
    · intro hxy
      obtain ⟨s', h1, -⟩ := (observePacmanCall_returns r lik s req.pose.1 req.pose.2).2 hxy
      refine ⟨s', h1, ?_⟩
      simp only [observeAgent, PACMAN, h0, if_true, observePacmanCall_is_finished, h1]
  · intro k hk hkN h
    have hne : ¬ ((k : Int) = 0) := by omega
    have hidx : ((k : Int) - 1).toNat = k - 1 := by omega
    have hin : (0 : Int) ≤ (k : Int) - 1 ∧ (k : Int) - 1 < (s.num_ghosts_ : Int) := by omega
    constructor
    · simp only [observeGhostCall, hin, and_self, if_true, hidx]
    · simp only [observeAgent, PACMAN, h, hne, if_false, observeGhostCall, hin, and_self,
        if_true, hidx]
      rfl

theorem iround_large : iround 10000000000 = 10000000000 := by
  have : ⌊(10000000000 : ℚ) + 1 / 2⌋ = 10000000000 := by
    rw [Int.floor_eq_iff]
    norm_num
  have h0 : (0 : ℚ) ≤ 10000000000 := by norm_num
  simp only [iround, h0, if_true, this]

/-- Instances of C19 as amended on `wallAndTwoCells`, whatever the rounding: a
request with agent id 1 and the pose `(1, 0)` is passed to `observeGhost` on the
ghost 0 and the call returns true; a request with agent id 0 and the pose
`(1, 0)`, which rounds into the range of `int`, returns true. -/
theorem C19_observeAgent_dispatch_witness :
    1 ≤ 1 ∧ 1 ≤ wallAndTwoCells.num_ghosts_ ∧
    (∀ (r : Rounding) (lik : Likelihood),
      observeAgent r lik wallAndTwoCells { agent := 1, pose := (1, 0), is_finished := true }
        = Outcome.returned (true, { observed := true })
            { observeGhostFloat r lik wallAndTwoCells 1 0 0 with is_finished_ := true }) ∧
    (∀ (r : Rounding) (lik : Likelihood), ∃ s',
      observePacmanCall r lik wallAndTwoCells 1 0 = Outcome.returned () s' ∧
      observeAgent r lik wallAndTwoCells { agent := 0, pose := (1, 0), is_finished := true }
        = Outcome.returned (true, { observed := true }) { s' with is_finished_ := true }) :=
  ⟨le_refl 1, by decide,
    fun r lik => ((C19_observeAgent_dispatch r lik wallAndTwoCells
      { agent := 1, pose := (1, 0), is_finished := true }).2.2 1 (le_refl 1) (by decide) rfl).2,
    fun r lik => ((C19_observeAgent_dispatch r lik wallAndTwoCells
      { agent := 0, pose := (1, 0), is_finished := true }).2.1 rfl).1
      (by rw [iround_one_and_zero.1]; decide) (by rw [iround_one_and_zero.2]; decide)⟩

/-- Counterexample to C19 as stated: the pose `(10000000000, 0)` has a first
coordinate that rounds to 10000000000, above the largest `int`; for a request
with agent id 0 and that pose on `wallAndTwoCells`, whatever the rounding and
the likelihood, `boost::math::iround` raises in `observePacman`, and
`observeAgent` is left by the exception: it does not return true. -/
theorem C19_rounding_error_leaves_the_call :
    INT_MAX < iround 10000000000 ∧
    (∀ (r : Rounding) (lik : Likelihood), ∃ s',
      observeAgent r lik wallAndTwoCells
        { agent := 0, pose := (10000000000, 0), is_finished := false } = Outcome.raised s') ∧
    (∀ (r : Rounding) (lik : Likelihood) (v : Bool × Response) (s' : State),
      observeAgent r lik wallAndTwoCells
        { agent := 0, pose := (10000000000, 0), is_finished := false }
        ≠ Outcome.returned v s') := by
  have hbig : INT_MAX < iround 10000000000 := by
    rw [iround_large]
    decide
  have hraise : ∀ (r : Rounding) (lik : Likelihood), ∃ s',
      observeAgent r lik wallAndTwoCells
        { agent := 0, pose := (10000000000, 0), is_finished := false } = Outcome.raised s' := by
    intro r lik
    obtain ⟨s', h1, -⟩ := (observePacmanCall_returns r lik wallAndTwoCells 10000000000 0).2
      (Or.inl (Or.inr hbig))
    refine ⟨{ s' with is_finished_ := false }, ?_⟩
    simp only [observeAgent, PACMAN, if_true, observePacmanCall_is_finished, h1]
  refine ⟨hbig, hraise, ?_⟩
  intro r lik v s' h
  obtain ⟨s'', h2⟩ := hraise r lik
  rw [h2] at h
  cases h

end BayesianGameState

namespace DeterministicQLearning

/-! ## The weight update of the learning agent -/

theorem qValueLoop_eq (features weights : List ℚ) (q_value : ℚ) :
    qValueLoop q_value features weights = q_value + dot features weights := by
  induction features generalizing weights q_value with
  | nil => simp [qValueLoop, dot]
  | cons f fs ih =>
    cases weights with
    | nil => simp [qValueLoop, dot]
    | cons w ws =>
      simp only [qValueLoop, ih]
      simp only [dot, List.zipWith_cons_cons, List.sum_cons]
      ring

/-- The value `getQValue` returns is the dot product of the features of the
behaviour with the weights; the call writes `temp_features_` only. -/
theorem getQValue_eq {GameState Action : Type} (M : GameStateModel GameState Action)
    (st : State) (game_state : GameState) (behavior : Nat) :
    getQValue M st game_state (behavior : Int)
      = (qValue M game_state st.weights_ behavior,
          { st with temp_features_ := getFeatures M game_state (behavior : Int) }) := by
  simp only [getQValue, qValue, qValueLoop_eq, zero_add]

/-- The value `getMaxQValue` returns is the largest of `-util::INFINITE` and the
Q-values of the `NUM_BEHAVIORS` behaviours; the call leaves `weights_`,
`old_features_` and `old_q_value_` as they are. -/
theorem getMaxQValue_spec {GameState Action : Type} (M : GameStateModel GameState Action)
    (INFINITE : Int) (st : State) (game_state : GameState) :
    (getMaxQValue M INFINITE st game_state).2.weights_ = st.weights_ ∧
    (getMaxQValue M INFINITE st game_state).2.old_features_ = st.old_features_ ∧
    (getMaxQValue M INFINITE st game_state).2.old_q_value_ = st.old_q_value_ ∧
    -(INFINITE : ℚ) ≤ (getMaxQValue M INFINITE st game_state).1.2 ∧
    (∀ b, b < NUM_BEHAVIORS →
      qValue M game_state st.weights_ b ≤ (getMaxQValue M INFINITE st game_state).1.2) ∧
    ((getMaxQValue M INFINITE st game_state).1.2 = -(INFINITE : ℚ) ∨
      ∃ b, b < NUM_BEHAVIORS ∧
        (getMaxQValue M INFINITE st game_state).1.2 = qValue M game_state st.weights_ b) := by
  unfold getMaxQValue
  refine BayesianGameState.forRange_induction
    (fun (k : Nat) (acc : Int × ℚ × State) =>
      acc.2.2.weights_ = st.weights_ ∧ acc.2.2.old_features_ = st.old_features_ ∧
      acc.2.2.old_q_value_ = st.old_q_value_ ∧ -(INFINITE : ℚ) ≤ acc.2.1 ∧
      (∀ b, b < k → qValue M game_state st.weights_ b ≤ acc.2.1) ∧
      (acc.2.1 = -(INFINITE : ℚ) ∨
        ∃ b, b < k ∧ acc.2.1 = qValue M game_state st.weights_ b))
    NUM_BEHAVIORS _ _ ⟨rfl, rfl, rfl, le_refl _, fun b hb => absurd hb (Nat.not_lt_zero b),
      Or.inl rfl⟩ ?_
  rintro k - t ⟨hw, hf, ho, hge, hub, hval⟩
  simp only [getQValue_eq, hw]
  by_cases hgt : qValue M game_state st.weights_ k > t.2.1
  · simp only [hgt, if_true, saveTempFeatures]
    refine ⟨trivial, hf, ho, le_trans hge (le_of_lt hgt), ?_, Or.inr ⟨k, Nat.lt_succ_self k, rfl⟩⟩
    intro b hb
    rcases Nat.lt_succ_iff_lt_or_eq.mp hb with h | h
    · exact le_trans (hub b h) (le_of_lt hgt)
    · rw [h]
  · simp only [hgt, if_false]
    refine ⟨trivial, hf, ho, hge, ?_, ?_⟩
    · intro b hb
      rcases Nat.lt_succ_iff_lt_or_eq.mp hb with h | h
      · exact hub b h
      · rw [h]
        exact not_lt.mp hgt
    · rcases hval with h | ⟨b, hb, h⟩
      · exact Or.inl h
      · exact Or.inr ⟨b, Nat.lt_succ_of_lt hb, h⟩

/-- The loop of `updateWeights` on a feature vector that is not longer than the
weight vector: every weight that has a feature moves by
`learning_rate_ * error * feature`, the others stay. -/
theorem updateLoop_spec (error : ℚ) (features weights : List ℚ)
    (h : features.length ≤ weights.length) :
    ∃ updated, updateLoop error weights features = some updated ∧
      updated.length = weights.length ∧
      ∀ i, updated.getD i 0
        = weights.getD i 0 + learning_rate_ * error * features.getD i 0 := by
  induction features generalizing weights with
  | nil =>
    refine ⟨weights, ?_, rfl, ?_⟩
    · cases weights <;> rfl
    · intro i
      simp
  | cons f fs ih =>
    cases weights with
    | nil => simp at h
    | cons w ws =>
      obtain ⟨rest, hr, hl, hv⟩ := ih ws (by simpa using h)
      refine ⟨(w + learning_rate_ * error * f) :: rest, ?_, ?_, ?_⟩
      · simp [updateLoop, hr]
      · simp [hl]
      · intro i
        cases i with
        | zero => simp
        | succ i => simpa using hv i

/-- The agent after `updateWeights`, when the saved feature vector is not
longer than the weight vector. -/
theorem updateWeights_spec {GameState Action : Type} (M : GameStateModel GameState Action)
    (INFINITE : Int) (st : State) (new_game_state : GameState) (reward : Int)
    (hm : st.features_.length ≤ st.weights_.length) :
    ∃ st', updateWeights M INFINITE st new_game_state reward = some st' ∧
      st'.new_q_value_ = (if M.isFinished new_game_state then 0
        else (getMaxQValue M INFINITE { st with old_features_ := st.features_ }
          new_game_state).1.2) ∧
      st'.weights_.length = st.weights_.length ∧
      ∀ i, st'.weights_.getD i 0 = st.weights_.getD i 0
        + learning_rate_ * ((reward : ℚ) + discount_factor_ * st'.new_q_value_ - st.old_q_value_)
          * st.features_.getD i 0 := by
  by_cases hfin : M.isFinished new_game_state = true
  · obtain ⟨updated, hu, hl, hv⟩ := updateLoop_spec
      ((reward : ℚ) + discount_factor_ * 0 - st.old_q_value_) st.features_ st.weights_ hm
    simp only [updateWeights, hfin, if_true, hu, Option.map_some']
    exact ⟨_, rfl, rfl, hl, hv⟩
  · obtain ⟨hw, hf, ho, -⟩ := getMaxQValue_spec M INFINITE
      { st with old_features_ := st.features_ } new_game_state
    simp only at hw hf ho
    obtain ⟨updated, hu, hl, hv⟩ := updateLoop_spec
      ((reward : ℚ) + discount_factor_ * (getMaxQValue M INFINITE
        { st with old_features_ := st.features_ } new_game_state).1.2 - st.old_q_value_)
      st.features_ st.weights_ hm
    have hfin' : M.isFinished new_game_state = false := by simpa using hfin
    simp only [updateWeights, hfin', Bool.false_eq_true, if_false, hw, hf, ho, hu,
      Option.map_some']
    exact ⟨_, rfl, rfl, hl, hv⟩


/-- C23, as amended. Q-learning weight update: when the saved feature vector
`features_` has length `m ≤ |weights_|`, `updateWeights` returns and sets weight
`i` to `w_i + learning_rate_ * (reward + discount_factor_ * newQ - oldQ) * f_i`
for every `i < m` and leaves every weight with index `≥ m` as it is, `f` being
`features_` before the call and `oldQ` the stored `old_q_value_`; `newQ`, which
the call stores in `new_q_value_`, is 0 when the new game state is finished and
otherwise the largest of `-util::INFINITE` and the Q-values of the
`NUM_BEHAVIORS` behaviours under the weights before the update, which is the
maximum of these Q-values as soon as one of them is above `-util::INFINITE`. -/
theorem C23_updateWeights_rule {GameState Action : Type} (M : GameStateModel GameState Action)
    (INFINITE : Int) (st : State) (new_game_state : GameState) (reward : Int)
    (hm : st.features_.length ≤ st.weights_.length) :
    ∃ st', updateWeights M INFINITE st new_game_state reward = some st' ∧
      (M.isFinished new_game_state = true → st'.new_q_value_ = 0) ∧
      (M.isFinished new_game_state = false →
        -(INFINITE : ℚ) ≤ st'.new_q_value_ ∧
        (∀ b, b < NUM_BEHAVIORS →
          qValue M new_game_state st.weights_ b ≤ st'.new_q_value_) ∧
        (st'.new_q_value_ = -(INFINITE : ℚ) ∨
          ∃ b, b < NUM_BEHAVIORS ∧
            st'.new_q_value_ = qValue M new_game_state st.weights_ b) ∧
        ((∃ b, b < NUM_BEHAVIORS ∧ -(INFINITE : ℚ) < qValue M new_game_state st.weights_ b) →
          ∃ b, b < NUM_BEHAVIORS ∧
            st'.new_q_value_ = qValue M new_game_state st.weights_ b)) ∧
      st'.weights_.length = st.weights_.length ∧
      (∀ i, i < st.features_.length →
        st'.weights_.getD i 0 = st.weights_.getD i 0
          + learning_rate_
            * ((reward : ℚ) + discount_factor_ * st'.new_q_value_ - st.old_q_value_)
            * st.features_.getD i 0) ∧
      (∀ i, st.features_.length ≤ i → st'.weights_.getD i 0 = st.weights_.getD i 0) := by
  obtain ⟨st', h1, h2, h3, h4⟩ := updateWeights_spec M INFINITE st new_game_state reward hm
  obtain ⟨-, -, -, hge, hub, hval⟩ := getMaxQValue_spec M INFINITE
    { st with old_features_ := st.features_ } new_game_state
  refine ⟨st', h1, ?_, ?_, h3, fun i _ => h4 i, ?_⟩
  · intro hfin
    rw [h2, if_pos hfin]
  · intro hfin
    have e : st'.new_q_value_ = (getMaxQValue M INFINITE
        { st with old_features_ := st.features_ } new_game_state).1.2 := by
      rw [h2, hfin]
      rfl
    rw [e]
    refine ⟨hge, hub, hval, ?_⟩
    rintro ⟨b, hb, hlt⟩
    rcases hval with h | h
    · exact absurd (hub b hb) (not_le.mpr (by rw [h]; exact hlt))
    · exact h
  · intro i hi
    rw [h4 i, List.getD_eq_default _ _ hi]
    ring

theorem qValue_zeroGame (w : ℚ) (b : Nat) :
    qValue zeroGame () (agentWithBias w).weights_ b = w := by
  simp [qValue, dot, getFeatures, zeroGame, agentWithBias, List.replicate]

/-- Counterexample to C23 as stated: on `zeroGame`, which is not finished, every
behaviour has the features `1, 0, 0, 0, 0, 0`, so that with the weights
`w, 0, …, 0` the Q-value of every behaviour, and their maximum, is `w`. For
every value of `util::INFINITE` and every reward, with `w = -util::INFINITE - 1`
the code takes `newQ = -util::INFINITE`, not `w`, and the first weight after
`updateWeights` is not the one the rule gives with `newQ = w`. -/
theorem C23_sentinel_bounds_new_q_value :
    (∀ w : ℚ, (agentWithBias w).features_.length ≤ (agentWithBias w).weights_.length) ∧
    (∀ (w : ℚ) (b : Nat), qValue zeroGame () (agentWithBias w).weights_ b = w) ∧
    zeroGame.isFinished () = false ∧
    (∀ INFINITE reward : Int, ∃ st',
      updateWeights zeroGame INFINITE (agentWithBias (-(INFINITE : ℚ) - 1)) () reward
        = some st' ∧
      st'.new_q_value_ = -(INFINITE : ℚ) ∧
      st'.weights_.getD 0 0 = (-(INFINITE : ℚ) - 1)
        + learning_rate_ * ((reward : ℚ) + discount_factor_ * (-(INFINITE : ℚ)) - 0) * 1 ∧
      st'.weights_.getD 0 0 ≠ (-(INFINITE : ℚ) - 1)
        + learning_rate_ * ((reward : ℚ) + discount_factor_ * (-(INFINITE : ℚ) - 1) - 0) * 1) := by
  have hlen : ∀ w : ℚ, (agentWithBias w).features_.length ≤ (agentWithBias w).weights_.length := by
    intro w
    simp [agentWithBias]
  refine ⟨hlen, qValue_zeroGame, rfl, ?_⟩
  intro INFINITE reward
  obtain ⟨st', h1, h2, -, h4⟩ := updateWeights_spec zeroGame INFINITE
    (agentWithBias (-(INFINITE : ℚ) - 1)) () reward (hlen _)
  obtain ⟨-, -, -, hge, -, hval⟩ := getMaxQValue_spec zeroGame INFINITE
    { agentWithBias (-(INFINITE : ℚ) - 1) with
      old_features_ := (agentWithBias (-(INFINITE : ℚ) - 1)).features_ } ()
  have hq : st'.new_q_value_ = -(INFINITE : ℚ) := by
    rw [h2]
    rcases hval with h | ⟨b, -, h⟩
    · exact h
    · exfalso
      have hb := qValue_zeroGame (-(INFINITE : ℚ) - 1) b
      simp only [agentWithBias] at hb h hge
      rw [h, hb] at hge
      linarith
  have h0 := h4 0
  rw [hq] at h0
  have e1 : (agentWithBias (-(INFINITE : ℚ) - 1)).weights_.getD 0 0 = -(INFINITE : ℚ) - 1 := by
    simp [agentWithBias]
  have e2 : (agentWithBias (-(INFINITE : ℚ) - 1)).features_.getD 0 0 = 1 := by
    simp [agentWithBias]
  have e3 : (agentWithBias (-(INFINITE : ℚ) - 1)).old_q_value_ = 0 := rfl
  rw [e1, e2, e3] at h0
  refine ⟨st', h1, hq, h0, ?_⟩
  rw [h0]
  intro h
  norm_num [learning_rate_, discount_factor_] at h
  linarith

/-- Witness of C23 as amended, on `zeroGame` with the weights `1, 0, …, 0`, the
saved features `1, 0, 0, 0, 0, 0`, `util::INFINITE` taken as 1000000 and the
reward 10: the six features are not more than the twelve weights, `newQ` is the
Q-value 1 of the behaviours, the first weight becomes
`1 + 0.2 * (10 + 0.8 * 1 - 0) * 1 = 79/25`, and the weight of index 7 stays 0. -/
theorem C23_updateWeights_rule_witness :
    (agentWithBias 1).features_.length ≤ (agentWithBias 1).weights_.length ∧
    ∃ st', updateWeights zeroGame 1000000 (agentWithBias 1) () 10 = some st' ∧
      st'.new_q_value_ = 1 ∧ st'.weights_.length = 12 ∧
      st'.weights_.getD 0 0 = 79 / 25 ∧ st'.weights_.getD 7 0 = 0 := by
  have hlen : (agentWithBias 1).features_.length ≤ (agentWithBias 1).weights_.length := by
    simp [agentWithBias]
  obtain ⟨st', h1, -, h3, h4, h5, h6⟩ :=
    C23_updateWeights_rule zeroGame 1000000 (agentWithBias 1) () 10 hlen
  have hq : st'.new_q_value_ = 1 := by
    obtain ⟨b, -, hb⟩ := (h3 rfl).2.2.2 ⟨0, by decide, by rw [qValue_zeroGame]; norm_num⟩
    rw [hb, qValue_zeroGame]
  refine ⟨hlen, st', h1, hq, ?_, ?_, ?_⟩
  · rw [h4]
    simp [agentWithBias]
  · have h0 := h5 0 (by simp [agentWithBias])
    rw [h0, hq]
    simp [agentWithBias, newDeterministicQLearning, learning_rate_, discount_factor_]
    norm_num
  · have h7 := h6 7 (by simp [agentWithBias])
    rw [h7]
    simp [agentWithBias]

end DeterministicQLearning
